import Mathlib

/-!
# any-oidc-proxy: a shallow embedding of the OIDC gateway

Go strings and byte slices are lists of bytes.  The functions of
`pkg/oidc/auth.go`, `pkg/oidc/utils.go`, `pkg/backend/utils.go`,
`pkg/backend/cookies.go`, of the Metabase, NocoDB and Plane backends and their
clients, and the start-up and the Location rewriting of `config.go` and
`app.go` are translated one to one; the Go library
functions they call (strings, unicode, encoding/base64, crypto/hmac,
crypto/sha256, encoding/json, unicode/utf8, time) are modelled next to them,
each under the name of the library function it stands for.  Values taken from
the environment (the clock, the random nonce, the answers of the provider and
of the upstream) are explicit arguments.
-/

namespace OidcProxy

set_option maxRecDepth 100000

/-- One Go byte. -/
abbrev Byte := Fin 256

/-- A Go string or byte slice. -/
abbrev Bytes := List Byte

/-- Conversion of a natural number to a byte, keeping the low eight bits
(Go: `byte(x)`). -/
def byte (n : Nat) : Byte := ⟨n % 256, Nat.mod_lt _ (by decide)⟩

/-! ## unicode/utf8 -/

namespace Utf8

/-- The replacement rune U+FFFD (Go: `utf8.RuneError`). -/
def RuneError : Nat := 0xFFFD

/-- Continuation byte test: `0x80 <= b <= 0xBF`. -/
def isCont (b : Byte) : Bool := 0x80 ≤ b.val && b.val ≤ 0xBF

/-- Go `utf8.DecodeRune`: the first rune of `s` and its width in bytes.  An
empty input gives `(RuneError, 0)`, an invalid or short encoding gives
`(RuneError, 1)`. -/
def DecodeRune : Bytes → Nat × Nat
  | [] => (RuneError, 0)
  | b0 :: rest =>
    if b0.val < 0x80 then (b0.val, 1)
    else if b0.val < 0xC2 then (RuneError, 1)
    else if b0.val < 0xE0 then
      match rest with
      | b1 :: _ =>
        if isCont b1 then ((b0.val % 32) * 64 + b1.val % 64, 2) else (RuneError, 1)
      | _ => (RuneError, 1)
    else if b0.val < 0xF0 then
      match rest with
      | b1 :: b2 :: _ =>
        let lo := if b0.val = 0xE0 then 0xA0 else 0x80
        let hi := if b0.val = 0xED then 0x9F else 0xBF
        if lo ≤ b1.val && b1.val ≤ hi && isCont b2 then
          ((b0.val % 16) * 4096 + (b1.val % 64) * 64 + b2.val % 64, 3)
        else (RuneError, 1)
      | _ => (RuneError, 1)
    else if b0.val < 0xF5 then
      match rest with
      | b1 :: b2 :: b3 :: _ =>
        let lo := if b0.val = 0xF0 then 0x90 else 0x80
        let hi := if b0.val = 0xF4 then 0x8F else 0xBF
        if lo ≤ b1.val && b1.val ≤ hi && isCont b2 && isCont b3 then
          ((b0.val % 8) * 262144 + (b1.val % 64) * 4096 + (b2.val % 64) * 64 + b3.val % 64, 4)
        else (RuneError, 1)
      | _ => (RuneError, 1)
    else (RuneError, 1)

/-- Go `utf8.AppendRune(nil, r)` / `utf8.EncodeRune`: the UTF-8 encoding of a
rune; surrogates and out-of-range values are encoded as U+FFFD. -/
def EncodeRune (r : Nat) : Bytes :=
  if r < 0x80 then [byte r]
  else if r < 0x800 then [byte (0xC0 + r / 64), byte (0x80 + r % 64)]
  else if r > 0x10FFFF ∨ (0xD800 ≤ r ∧ r ≤ 0xDFFF) then [0xEF, 0xBF, 0xBD]
  else if r < 0x10000 then
    [byte (0xE0 + r / 4096), byte (0x80 + r / 64 % 64), byte (0x80 + r % 64)]
  else
    [byte (0xF0 + r / 262144), byte (0x80 + r / 4096 % 64), byte (0x80 + r / 64 % 64),
     byte (0x80 + r % 64)]

/-- Decoding loop of `runes`, with the input length as fuel. -/
def runesAux : Nat → Bytes → List (Nat × Bytes)
  | 0, _ => []
  | _, [] => []
  | fuel + 1, b :: bs =>
    let w := (DecodeRune (b :: bs)).2
    ((DecodeRune (b :: bs)).1, (b :: bs).take w) :: runesAux fuel ((b :: bs).drop w)

/-- The runes of a string in order, each with the bytes it was decoded from
(Go: `for _, r := range s`); an invalid byte is the rune U+FFFD of width 1. -/
def runes (s : Bytes) : List (Nat × Bytes) := runesAux s.length s

/-- Go `utf8.Valid`. -/
def Valid (s : Bytes) : Bool :=
  (runes s).all (fun p => !(p.1 = RuneError && p.2.length = 1))

end Utf8

/-- The bytes of a string literal (its UTF-8 encoding). -/
def bytesOf (s : String) : Bytes := s.data.flatMap (fun c => Utf8.EncodeRune c.toNat)

/-! ## strings -/

namespace Strings

/-- Go `strings.Split(s, sep)` for a separator of one byte: the pieces of `s`
between the occurrences of `sep`; never empty, `Split("", sep) = [""]`. -/
def Split (s : Bytes) (sep : Byte) : List Bytes :=
  match s with
  | [] => [[]]
  | c :: cs =>
    if c = sep then [] :: Split cs sep
    else
      match Split cs sep with
      | [] => [[c]]
      | p :: ps => (c :: p) :: ps

/-- Go `strings.Join(parts, sep)`. -/
def Join (parts : List Bytes) (sep : Bytes) : Bytes :=
  match parts with
  | [] => []
  | [p] => p
  | p :: q :: ps => p ++ sep ++ Join (q :: ps) sep

/-- Go `unicode.IsSpace`: the Latin-1 spaces and the code points of the
Unicode White_Space property. -/
def IsSpace (r : Nat) : Bool :=
  r = 0x09 || r = 0x0A || r = 0x0B || r = 0x0C || r = 0x0D || r = 0x20 || r = 0x85 || r = 0xA0 ||
  r = 0x1680 || (0x2000 ≤ r && r ≤ 0x200A) || r = 0x2028 || r = 0x2029 || r = 0x202F ||
  r = 0x205F || r = 0x3000

/-- Splitting loop of `Fields` over the decoded runes: `cur` is the field being
collected. -/
def fieldsAux : List (Nat × Bytes) → Bytes → List Bytes
  | [], cur => if cur = [] then [] else [cur]
  | (r, bs) :: rest, cur =>
    if IsSpace r then
      if cur = [] then fieldsAux rest [] else cur :: fieldsAux rest []
    else fieldsAux rest (cur ++ bs)

/-- Go `strings.Fields(s)`: the maximal runs of non-space runes of `s`. -/
def Fields (s : Bytes) : List Bytes := fieldsAux (Utf8.runes s) []

/-- ASCII lower-casing of one byte. -/
def lowerByte (b : Byte) : Byte :=
  if 0x41 ≤ b.val ∧ b.val ≤ 0x5A then byte (b.val + 32) else b

/-- Go `strings.ToLower(s)`.  A string of ASCII bytes is mapped byte by byte;
for any other string Go applies `strings.Map(unicode.ToLower, s)`, which
depends on the Unicode case tables and is the argument `unicodeLower`. -/
def ToLower (unicodeLower : Bytes → Bytes) (s : Bytes) : Bytes :=
  if s.all (fun b => b.val < 0x80) then s.map lowerByte else unicodeLower s

end Strings

/-! ## crypto/sha256 and crypto/hmac -/

namespace Sha256

/-- Addition of 32-bit words. -/
def add32 (a b : Nat) : Nat := (a + b) % 4294967296

/-- Rotation of a 32-bit word to the right. -/
def rotr (x n : Nat) : Nat := (x >>> n ||| x <<< (32 - n)) % 4294967296

/-- Bitwise complement of a 32-bit word. -/
def not32 (x : Nat) : Nat := 4294967295 - x % 4294967296

def bigSigma0 (x : Nat) : Nat := rotr x 2 ^^^ rotr x 13 ^^^ rotr x 22
def bigSigma1 (x : Nat) : Nat := rotr x 6 ^^^ rotr x 11 ^^^ rotr x 25
def smallSigma0 (x : Nat) : Nat := rotr x 7 ^^^ rotr x 18 ^^^ x >>> 3
def smallSigma1 (x : Nat) : Nat := rotr x 17 ^^^ rotr x 19 ^^^ x >>> 10
def ch (x y z : Nat) : Nat := (x &&& y) ^^^ (not32 x &&& z)
def maj (x y z : Nat) : Nat := (x &&& y) ^^^ (x &&& z) ^^^ (y &&& z)

/-- The round constants. -/
def K : List Nat :=
  [0x428a2f98, 0x71374491, 0xb5c0fbcf, 0xe9b5dba5, 0x3956c25b, 0x59f111f1, 0x923f82a4, 0xab1c5ed5,
   0xd807aa98, 0x12835b01, 0x243185be, 0x550c7dc3, 0x72be5d74, 0x80deb1fe, 0x9bdc06a7, 0xc19bf174,
   0xe49b69c1, 0xefbe4786, 0x0fc19dc6, 0x240ca1cc, 0x2de92c6f, 0x4a7484aa, 0x5cb0a9dc, 0x76f988da,
   0x983e5152, 0xa831c66d, 0xb00327c8, 0xbf597fc7, 0xc6e00bf3, 0xd5a79147, 0x06ca6351, 0x14292967,
   0x27b70a85, 0x2e1b2138, 0x4d2c6dfc, 0x53380d13, 0x650a7354, 0x766a0abb, 0x81c2c92e, 0x92722c85,
   0xa2bfe8a1, 0xa81a664b, 0xc24b8b70, 0xc76c51a3, 0xd192e819, 0xd6990624, 0xf40e3585, 0x106aa070,
   0x19a4c116, 0x1e376c08, 0x2748774c, 0x34b0bcb5, 0x391c0cb3, 0x4ed8aa4a, 0x5b9cca4f, 0x682e6ff3,
   0x748f82ee, 0x78a5636f, 0x84c87814, 0x8cc70208, 0x90befffa, 0xa4506ceb, 0xbef9a3f7, 0xc67178f2]

/-- The eight working words of the hash. -/
structure State where
  a : Nat
  b : Nat
  c : Nat
  d : Nat
  e : Nat
  f : Nat
  g : Nat
  h : Nat
deriving DecidableEq, Repr

/-- The initial hash value. -/
def init : State :=
  ⟨0x6a09e667, 0xbb67ae85, 0x3c6ef372, 0xa54ff53a, 0x510e527f, 0x9b05688c, 0x1f83d9ab, 0x5be0cd19⟩

/-- The big-endian 32-bit words of a block of bytes. -/
def words : Bytes → List Nat
  | b0 :: b1 :: b2 :: b3 :: rest =>
    (b0.val * 16777216 + b1.val * 65536 + b2.val * 256 + b3.val) :: words rest
  | _ => []

/-- Extension of the message schedule by `n` words; `w` holds the schedule so
far, latest word first. -/
def extend : Nat → List Nat → List Nat
  | 0, w => w
  | n + 1, w =>
    let x := add32 (add32 (smallSigma1 (w.getD 1 0)) (w.getD 6 0))
      (add32 (smallSigma0 (w.getD 14 0)) (w.getD 15 0))
    extend n (x :: w)

/-- One round of the compression function. -/
def round (s : State) (k w : Nat) : State :=
  let t1 := add32 (add32 (add32 s.h (bigSigma1 s.e)) (add32 (ch s.e s.f s.g) k)) w
  let t2 := add32 (bigSigma0 s.a) (maj s.a s.b s.c)
  ⟨add32 t1 t2, s.a, s.b, s.c, add32 s.d t1, s.e, s.f, s.g⟩

/-- All rounds over the round constants and the schedule. -/
def rounds : State → List Nat → List Nat → State
  | s, k :: ks, w :: ws => rounds (round s k w) ks ws
  | s, _, _ => s

/-- The compression of one 64-byte block into the state. -/
def compress (s : State) (block : Bytes) : State :=
  let w := (extend 48 (words block).reverse).reverse
  let t := rounds s K w
  ⟨add32 s.a t.a, add32 s.b t.b, add32 s.c t.c, add32 s.d t.d,
   add32 s.e t.e, add32 s.f t.f, add32 s.g t.g, add32 s.h t.h⟩

/-- Compression of the padded message, block by block; the fuel is the number
of blocks. -/
def blocks : Nat → State → Bytes → State
  | 0, s, _ => s
  | n + 1, s, m => blocks n (compress s (m.take 64)) (m.drop 64)

/-- The message followed by the bit 1, zero bytes up to 56 modulo 64, and the
bit length as a 64-bit big-endian number. -/
def pad (m : Bytes) : Bytes :=
  let zeros := (119 - m.length % 64) % 64
  let bits := m.length * 8
  m ++ [byte 0x80] ++ List.replicate zeros (byte 0) ++
    (List.range 8).map (fun i => byte (bits >>> (8 * (7 - i))))

/-- The four bytes of a 32-bit word, most significant first. -/
def wordBytes (x : Nat) : Bytes :=
  [byte (x / 16777216), byte (x / 65536), byte (x / 256), byte x]

/-- The 32 bytes of a hash state. -/
def digest (s : State) : Bytes :=
  wordBytes s.a ++ wordBytes s.b ++ wordBytes s.c ++ wordBytes s.d ++
  wordBytes s.e ++ wordBytes s.f ++ wordBytes s.g ++ wordBytes s.h

/-- Go `sha256.Sum256`. -/
def Sum256 (m : Bytes) : Bytes :=
  let p := pad m
  digest (blocks (p.length / 64) init p)

end Sha256

namespace Hmac

/-- The key of HMAC brought to the block size of 64 bytes: hashed when longer,
then filled with zero bytes. -/
def blockKey (key : Bytes) : Bytes :=
  let k := if key.length > 64 then Sha256.Sum256 key else key
  k ++ List.replicate (64 - k.length) (byte 0)

/-- Byte-wise exclusive or with a constant. -/
def xorWith (c : Nat) (k : Bytes) : Bytes := k.map (fun b => byte (b.val ^^^ c))

/-- Go `hmac.New(sha256.New, key)` followed by `Write(msg)` and `Sum(nil)`:
HMAC-SHA256 of `msg` under `key`. -/
def Sum (key msg : Bytes) : Bytes :=
  let k := blockKey key
  Sha256.Sum256 (xorWith 0x5c k ++ Sha256.Sum256 (xorWith 0x36 k ++ msg))

end Hmac

/-! ## encoding/base64 -/

namespace Base64

/-- The character of the URL alphabet `A-Z a-z 0-9 - _` for a six-bit value. -/
def encodeSextet (n : Nat) : Byte :=
  if n < 26 then byte (0x41 + n)
  else if n < 52 then byte (0x61 + (n - 26))
  else if n < 62 then byte (0x30 + (n - 52))
  else if n = 62 then 0x2D
  else 0x5F

/-- The six-bit value of a character of the URL alphabet (Go: the table
`decodeMap`, in which every other byte is `0xff`). -/
def decodeSextet (c : Byte) : Option Nat :=
  if 0x41 ≤ c.val ∧ c.val ≤ 0x5A then some (c.val - 0x41)
  else if 0x61 ≤ c.val ∧ c.val ≤ 0x7A then some (c.val - 0x61 + 26)
  else if 0x30 ≤ c.val ∧ c.val ≤ 0x39 then some (c.val - 0x30 + 52)
  else if c.val = 0x2D then some 62
  else if c.val = 0x5F then some 63
  else none

/-- Go `base64.RawURLEncoding.EncodeToString`: three bytes give four
characters; a last group of one or two bytes gives two or three characters,
and no padding is written. -/
def EncodeToString : Bytes → Bytes
  | b0 :: b1 :: b2 :: rest =>
    let v := b0.val * 65536 + b1.val * 256 + b2.val
    encodeSextet (v / 262144 % 64) :: encodeSextet (v / 4096 % 64) ::
      encodeSextet (v / 64 % 64) :: encodeSextet (v % 64) :: EncodeToString rest
  | [b0, b1] =>
    let v := b0.val * 65536 + b1.val * 256
    [encodeSextet (v / 262144 % 64), encodeSextet (v / 4096 % 64), encodeSextet (v / 64 % 64)]
  | [b0] =>
    let v := b0.val * 65536
    [encodeSextet (v / 262144 % 64), encodeSextet (v / 4096 % 64)]
  | [] => []

/-- The bytes of a group of six-bit values (Go: the end of `decodeQuantum`):
four values give three bytes, three give two, two give one; the low bits left
over in a short group are dropped without a check, the encoding not being
strict. -/
def quantumBytes : List Nat → Option Bytes
  | [s0, s1, s2, s3] =>
    let v := s0 * 262144 + s1 * 4096 + s2 * 64 + s3
    some [byte (v / 65536), byte (v / 256), byte v]
  | [s0, s1, s2] =>
    let v := s0 * 262144 + s1 * 4096 + s2 * 64
    some [byte (v / 65536), byte (v / 256)]
  | [s0, s1] =>
    let v := s0 * 262144 + s1 * 4096
    some [byte (v / 65536)]
  | [] => some []
  | _ => none

/-- The decoding loop (Go: `Decode` calling `decodeQuantum`): `buf` holds the
six-bit values of the group being read.  Line feeds and carriage returns are
skipped, any other byte outside the alphabet is an error, and so is a last
group of a single character. -/
def decodeLoop : Bytes → List Nat → Option Bytes
  | [], buf => quantumBytes buf
  | c :: cs, buf =>
    match decodeSextet c with
    | some v =>
      if buf.length = 3 then
        match quantumBytes (buf ++ [v]), decodeLoop cs [] with
        | some q, some r => some (q ++ r)
        | _, _ => none
      else decodeLoop cs (buf ++ [v])
    | none => if c.val = 0x0A ∨ c.val = 0x0D then decodeLoop cs buf else none

/-- Go `base64.RawURLEncoding.DecodeString`; `none` stands for a non-nil
error. -/
def DecodeString (s : Bytes) : Option Bytes := decodeLoop s []

end Base64

/-! ## strconv and float64 -/

/-- A finite float64 value: `mant * 2 ^ exp`, negated when `neg` is set. -/
structure Float64 where
  neg : Bool
  mant : Nat
  exp : Int
deriving DecidableEq, Repr

namespace Strconv

/-- Quotient of `n` by `d` rounded to the nearest integer, a tie going to the
even one. -/
def roundHalfEven (n d : Nat) : Nat :=
  let q := n / d
  let r := n % d
  if 2 * r > d ∨ (2 * r = d ∧ q % 2 = 1) then q + 1 else q

/-- Halving loop of `floorLog2`; the first argument bounds the number of
steps. -/
def floorLog2Aux : Nat → Nat → Nat
  | 0, _ => 0
  | fuel + 1, n => if n ≥ 2 then floorLog2Aux fuel (n / 2) + 1 else 0

/-- The position of the leading bit of `n`: the largest `k` with
`2 ^ k ≤ n`, and 0 for `n = 0`. -/
def floorLog2 (n : Nat) : Nat := floorLog2Aux n n

/-- The float64 nearest to `num / den`, ties to even (Go: the value
`strconv.ParseFloat(s, 64)` computes); `none` when it lies beyond the largest
float64, where ParseFloat reports a range error.  The result is written
`mant * 2 ^ exp` with `exp` the exponent of the last place. -/
def nearestFloat64 (num den : Nat) : Option (Nat × Int) :=
  if num = 0 then some (0, 0)
  else
    let e0 : Int := (floorLog2 num : Int) - (floorLog2 den : Int)
    let e : Int := if num * 2 ^ (-e0).toNat ≥ den * 2 ^ e0.toNat then e0 else e0 - 1
    let q : Int := max e (-1022) - 52
    let n := roundHalfEven (num * 2 ^ (-q).toNat) (den * 2 ^ q.toNat)
    if n * 2 ^ q.toNat ≥ 2 ^ 1024 then none else some (n, q)

/-- The float64 of a decimal literal with sign `neg`, digits `digits` and
decimal exponent `scale`, the value being `digits * 10 ^ scale`. -/
def ParseFloat (neg : Bool) (digits : Nat) (scale : Int) : Option Float64 :=
  match nearestFloat64 (digits * 10 ^ scale.toNat) (10 ^ (-scale).toNat) with
  | some (m, e) => some ⟨neg, m, e⟩
  | none => none

/-- Digits of `strconv.FormatInt` for a natural number, most significant
first; the first argument bounds the number of digits. -/
def digitsAux : Nat → Nat → Bytes → Bytes
  | 0, _, acc => acc
  | fuel + 1, n, acc =>
    if n < 10 then byte (0x30 + n) :: acc
    else digitsAux fuel (n / 10) (byte (0x30 + n % 10) :: acc)

/-- Go `strconv.FormatInt(n, 10)`. -/
def FormatInt (n : Int) : Bytes :=
  if n < 0 then 0x2D :: digitsAux (n.natAbs + 1) n.natAbs []
  else digitsAux (n.natAbs + 1) n.natAbs []

end Strconv

/-- Go conversion `int64(f)` of a float64: the value with its fraction
dropped.  For a value outside int64 the Go specification leaves the result to
the implementation; the model returns the smallest int64, as amd64 does. -/
def Float64.toInt64 (f : Float64) : Int :=
  let t : Int := if f.exp ≥ 0 then f.mant * 2 ^ f.exp.toNat else f.mant / 2 ^ (-f.exp).toNat
  let v : Int := if f.neg then -t else t
  if -9223372036854775808 ≤ v ∧ v < 9223372036854775808 then v else -9223372036854775808

/-! ## encoding/json -/

namespace Json

/-- A decoded JSON value, as `json.Unmarshal` stores it in an `interface{}`:
`nil`, `bool`, `float64`, `string`, `[]interface{}` or
`map[string]interface{}`.  An object keeps its members in input order. -/
inductive Value where
  | null : Value
  | bool : Bool → Value
  | number : Float64 → Value
  | string : Bytes → Value
  | array : List Value → Value
  | object : List (Bytes × Value) → Value

/-- Lookup in a decoded object (Go: `m[key]` on the map filled member after
member): of two members with the same key the later one counts. -/
def lookup (key : Bytes) : List (Bytes × Value) → Option Value
  | [] => none
  | (k, v) :: rest =>
    match lookup key rest with
    | some w => some w
    | none => if k = key then some v else none

/-! ### Encoding -/

/-- The lower-case hexadecimal digit of a value below 16. -/
def hexDigit (n : Nat) : Byte := if n < 10 then byte (0x30 + n) else byte (0x57 + n)

/-- The text the encoder writes for one rune of a string (Go: `appendString`
with HTML escaping on).  `r` is the rune and `bs` the bytes it was decoded
from. -/
def escapeRune (r : Nat) (bs : Bytes) : Bytes :=
  match bs with
  | [b] =>
    if b.val < 0x80 then
      if b.val = 0x22 ∨ b.val = 0x5C then [0x5C, b]
      else if b.val = 0x08 then [0x5C, 0x62]
      else if b.val = 0x0C then [0x5C, 0x66]
      else if b.val = 0x0A then [0x5C, 0x6E]
      else if b.val = 0x0D then [0x5C, 0x72]
      else if b.val = 0x09 then [0x5C, 0x74]
      else if b.val < 0x20 ∨ b.val = 0x26 ∨ b.val = 0x3C ∨ b.val = 0x3E then
        [0x5C, 0x75, 0x30, 0x30, hexDigit (b.val / 16), hexDigit (b.val % 16)]
      else [b]
    else [0x5C, 0x75, 0x66, 0x66, 0x66, 0x64]
  | _ =>
    if r = 0x2028 ∨ r = 0x2029 then [0x5C, 0x75, 0x32, 0x30, 0x32, hexDigit (r % 16)]
    else bs

/-- The body of an encoded string, without the quotes. -/
def escapeString (s : Bytes) : Bytes :=
  (Utf8.runes s).flatMap (fun p => escapeRune p.1 p.2)

/-- The JSON text of a Go string (Go: `appendString`). -/
def encodeString (s : Bytes) : Bytes := 0x22 :: (escapeString s ++ [0x22])

/-- Go `json.Marshal` of the map built in `createState`.  The encoder writes
the keys of a map in sorted order: `nonce`, `redirect`, `ts`; the two strings
are written by `appendString` and the int64 by `strconv.AppendInt`.  No error
can arise for these value types. -/
def marshalState (redirect : Bytes) (ts : Int) (nonce : Bytes) : Bytes :=
  bytesOf "\x7b" ++ encodeString (bytesOf "nonce") ++ bytesOf ":" ++ encodeString nonce ++
  bytesOf "," ++ encodeString (bytesOf "redirect") ++ bytesOf ":" ++ encodeString redirect ++
  bytesOf "," ++ encodeString (bytesOf "ts") ++ bytesOf ":" ++ Strconv.FormatInt ts ++ bytesOf "\x7d"

/-! ### Decoding: tokens -/

/-- The tokens of a JSON text. -/
inductive Token where
  | lbrace | rbrace | lbrack | rbrack | colon | comma
  | str : Bytes → Token
  | num : Float64 → Token
  | lit : Value → Token

/-- Where the scanner stands inside a number literal. -/
inductive NumPos where
  | minus | zero | int | dot | frac | e | esign | exp
deriving DecidableEq, Repr

/-- A number literal being read: its sign, the digits of the integer and
fraction parts read as one number, the count of fraction digits, and the
exponent. -/
structure NumAcc where
  pos : NumPos
  neg : Bool
  digits : Nat
  fracLen : Nat
  expNeg : Bool
  expVal : Nat
deriving Repr

/-- The scanner is between tokens, inside a string, inside a number, or inside
one of the words `true`, `false`, `null`. -/
inductive Mode where
  | top : Mode
  | str (acc : Bytes) (skip : Nat) : Mode
  | num (a : NumAcc) : Mode
  | word (rest : Bytes) (v : Value) : Mode

/-- The value of a hexadecimal digit. -/
def hexVal (c : Byte) : Option Nat :=
  if 0x30 ≤ c.val ∧ c.val ≤ 0x39 then some (c.val - 0x30)
  else if 0x61 ≤ c.val ∧ c.val ≤ 0x66 then some (c.val - 0x61 + 10)
  else if 0x41 ≤ c.val ∧ c.val ≤ 0x46 then some (c.val - 0x41 + 10)
  else none

/-- The number written by four hexadecimal digits (Go: `getu4`, after the
characters backslash and u). -/
def getu4 : Bytes → Option Nat
  | h1 :: h2 :: h3 :: h4 :: _ =>
    match hexVal h1, hexVal h2, hexVal h3, hexVal h4 with
    | some a, some b, some c, some d => some (a * 4096 + b * 256 + c * 16 + d)
    | _, _, _, _ => none
  | _ => none

/-- An escape sequence inside a string (Go: the backslash case of
`unquoteBytes`); `cs` is the input after the backslash.  The result is the
bytes to write and the number of input bytes after the backslash that belong
to the escape.  A surrogate escape followed by the escape of a matching low
surrogate is the rune of the pair, any other surrogate is U+FFFD. -/
def unescape (cs : Bytes) : Option (Bytes × Nat) :=
  match cs with
  | [] => none
  | c :: rest =>
    if c.val = 0x22 ∨ c.val = 0x5C ∨ c.val = 0x2F then some ([c], 1)
    else if c.val = 0x62 then some ([0x08], 1)
    else if c.val = 0x66 then some ([0x0C], 1)
    else if c.val = 0x6E then some ([0x0A], 1)
    else if c.val = 0x72 then some ([0x0D], 1)
    else if c.val = 0x74 then some ([0x09], 1)
    else if c.val = 0x75 then
      match getu4 rest with
      | none => none
      | some rr =>
        if 0xD800 ≤ rr ∧ rr < 0xE000 then
          match rest.drop 4 with
          | b :: u :: rest2 =>
            match getu4 rest2 with
            | some rr1 =>
              if b.val = 0x5C ∧ u.val = 0x75 ∧ rr < 0xDC00 ∧ 0xDC00 ≤ rr1 ∧ rr1 < 0xE000 then
                some (Utf8.EncodeRune ((rr - 0xD800) * 1024 + (rr1 - 0xDC00) + 0x10000), 11)
              else some (Utf8.EncodeRune Utf8.RuneError, 5)
            | none => some (Utf8.EncodeRune Utf8.RuneError, 5)
          | _ => some (Utf8.EncodeRune Utf8.RuneError, 5)
        else some (Utf8.EncodeRune rr, 5)
    else none

/-- The float64 of a finished number literal; `none` when the literal cannot
end here or when `strconv.ParseFloat` reports a range error. -/
def finishNum (a : NumAcc) : Option Float64 :=
  if a.pos = .zero ∨ a.pos = .int ∨ a.pos = .frac ∨ a.pos = .exp then
    Strconv.ParseFloat a.neg a.digits
      ((if a.expNeg then -(a.expVal : Int) else (a.expVal : Int)) - (a.fracLen : Int))
  else none

/-- One more byte of a number literal, `none` when the byte cannot continue
it. -/
def numStep (a : NumAcc) (c : Byte) : Option NumAcc :=
  let digit := 0x30 ≤ c.val ∧ c.val ≤ 0x39
  let d := c.val - 0x30
  match a.pos with
  | .minus =>
    if c.val = 0x30 then some { a with pos := .zero }
    else if digit then some { a with pos := .int, digits := d }
    else none
  | .zero =>
    if c.val = 0x2E then some { a with pos := .dot }
    else if c.val = 0x65 ∨ c.val = 0x45 then some { a with pos := .e }
    else none
  | .int =>
    if digit then some { a with digits := a.digits * 10 + d }
    else if c.val = 0x2E then some { a with pos := .dot }
    else if c.val = 0x65 ∨ c.val = 0x45 then some { a with pos := .e }
    else none
  | .dot =>
    if digit then some { a with pos := .frac, digits := a.digits * 10 + d, fracLen := 1 }
    else none
  | .frac =>
    if digit then some { a with digits := a.digits * 10 + d, fracLen := a.fracLen + 1 }
    else if c.val = 0x65 ∨ c.val = 0x45 then some { a with pos := .e }
    else none
  | .e =>
    if c.val = 0x2B then some { a with pos := .esign }
    else if c.val = 0x2D then some { a with pos := .esign, expNeg := true }
    else if digit then some { a with pos := .exp, expVal := d }
    else none
  | .esign =>
    if digit then some { a with pos := .exp, expVal := d } else none
  | .exp =>
    if digit then some { a with expVal := a.expVal * 10 + d } else none

/-- What a byte met between tokens does. -/
inductive TopAction where
  | skip : TopAction
  | emit : Token → TopAction
  | enter : Mode → TopAction
  | fail : TopAction

/-- The scanner between tokens (Go: `stateBeginValue` and its siblings, as far
as single tokens go): white space is skipped, punctuation is a token, and a
quote, a digit or minus sign, or one of the letters t, f, n opens a longer
token. -/
def topStep (c : Byte) : TopAction :=
  if c.val = 0x20 ∨ c.val = 0x09 ∨ c.val = 0x0D ∨ c.val = 0x0A then .skip
  else if c.val = 0x7B then .emit .lbrace
  else if c.val = 0x7D then .emit .rbrace
  else if c.val = 0x5B then .emit .lbrack
  else if c.val = 0x5D then .emit .rbrack
  else if c.val = 0x3A then .emit .colon
  else if c.val = 0x2C then .emit .comma
  else if c.val = 0x22 then .enter (.str [] 0)
  else if c.val = 0x2D then .enter (.num ⟨.minus, true, 0, 0, false, 0⟩)
  else if c.val = 0x30 then .enter (.num ⟨.zero, false, 0, 0, false, 0⟩)
  else if 0x31 ≤ c.val ∧ c.val ≤ 0x39 then .enter (.num ⟨.int, false, c.val - 0x30, 0, false, 0⟩)
  else if c.val = 0x74 then .enter (.word (bytesOf "rue") (.bool true))
  else if c.val = 0x66 then .enter (.word (bytesOf "alse") (.bool false))
  else if c.val = 0x6E then .enter (.word (bytesOf "ull") .null)
  else .fail

/-- The tokens of a JSON text, `none` when some byte fits no token.  Inside a
string the bytes are unquoted as Go `unquoteBytes` does: escapes are resolved,
a control character is an error, and bytes that are not valid UTF-8 become
U+FFFD each. -/
def lex : Mode → Bytes → Option (List Token)
  | .top, [] => some []
  | .num a, [] => (finishNum a).map (fun f => [Token.num f])
  | .word rest v, [] => if rest = [] then some [Token.lit v] else none
  | .str _ _, [] => none
  | .top, c :: cs =>
    match topStep c with
    | .skip => lex .top cs
    | .emit t => (lex .top cs).map (fun ts => t :: ts)
    | .enter m => lex m cs
    | .fail => none
  | .str acc (k + 1), _ :: cs => lex (.str acc k) cs
  | .str acc 0, c :: cs =>
    if c.val = 0x22 then (lex .top cs).map (fun ts => Token.str acc :: ts)
    else if c.val = 0x5C then
      match unescape cs with
      | some (out, k) => lex (.str (acc ++ out) k) cs
      | none => none
    else if c.val < 0x20 then none
    else if c.val < 0x80 then lex (.str (acc ++ [c]) 0) cs
    else
      lex (.str (acc ++ Utf8.EncodeRune (Utf8.DecodeRune (c :: cs)).1)
        ((Utf8.DecodeRune (c :: cs)).2 - 1)) cs
  | .num a, c :: cs =>
    match numStep a c with
    | some b => lex (.num b) cs
    | none =>
      match finishNum a, topStep c with
      | some f, .skip => (lex .top cs).map (fun ts => Token.num f :: ts)
      | some f, .emit t => (lex .top cs).map (fun ts => Token.num f :: t :: ts)
      | some f, .enter m => (lex m cs).map (fun ts => Token.num f :: ts)
      | _, _ => none
  | .word rest v, c :: cs =>
    match rest with
    | r :: rs => if c = r then lex (.word rs v) cs else none
    | [] =>
      match topStep c with
      | .skip => (lex .top cs).map (fun ts => Token.lit v :: ts)
      | .emit t => (lex .top cs).map (fun ts => Token.lit v :: t :: ts)
      | .enter m => (lex m cs).map (fun ts => Token.lit v :: ts)
      | .fail => none

/-! ### Decoding: values -/

/-- A container being read: an array with the elements read so far, or an
object with its members so far and the key whose value is awaited. -/
inductive Frame where
  | arr : List Value → Frame
  | obj : List (Bytes × Value) → Option Bytes → Frame

/-- What the parser expects next. -/
inductive Phase where
  | value       -- a value
  | firstItem   -- a value or the end of the array just opened
  | firstKey    -- a key or the end of the object just opened
  | key         -- a key
  | colon       -- the colon after a key
  | next        -- a comma or the end of the innermost container
  | done : Value → Phase

/-- The limit on nesting (Go: `maxNestingDepth`). -/
def maxNestingDepth : Nat := 10000

/-- A finished value goes into the innermost container, or is the result. -/
def complete (v : Value) : List Frame → Option (List Frame × Phase)
  | [] => some ([], .done v)
  | .arr items :: st => some (.arr (items ++ [v]) :: st, .next)
  | .obj kvs (some k) :: st => some (.obj (kvs ++ [(k, v)]) none :: st, .next)
  | .obj _ none :: _ => none

/-- A token that starts a value. -/
def beginValue (t : Token) (st : List Frame) : Option (List Frame × Phase) :=
  match t with
  | .str s => complete (.string s) st
  | .num f => complete (.number f) st
  | .lit v => complete v st
  | .lbrack => if st.length < maxNestingDepth then some (.arr [] :: st, .firstItem) else none
  | .lbrace => if st.length < maxNestingDepth then some (.obj [] none :: st, .firstKey) else none
  | _ => none

/-- The end of the innermost container. -/
def endContainer (t : Token) : List Frame → Option (List Frame × Phase)
  | .arr items :: st => match t with
    | .rbrack => complete (.array items) st
    | _ => none
  | .obj kvs none :: st => match t with
    | .rbrace => complete (.object kvs) st
    | _ => none
  | _ => none

/-- One token of the grammar of JSON values. -/
def parseStep (st : List Frame) (ph : Phase) (t : Token) : Option (List Frame × Phase) :=
  match ph with
  | .value => beginValue t st
  | .firstItem => match t with
    | .rbrack => endContainer t st
    | _ => beginValue t st
  | .firstKey => match t, st with
    | .rbrace, _ => endContainer t st
    | .str k, .obj kvs none :: rest => some (.obj kvs (some k) :: rest, .colon)
    | _, _ => none
  | .key => match t, st with
    | .str k, .obj kvs none :: rest => some (.obj kvs (some k) :: rest, .colon)
    | _, _ => none
  | .colon => match t with
    | .colon => some (st, .value)
    | _ => none
  | .next => match t, st with
    | .comma, .arr _ :: _ => some (st, .value)
    | .comma, .obj _ none :: _ => some (st, .key)
    | _, _ => endContainer t st
  | .done _ => none

/-- The parser over a token list. -/
def parseTokens : List Frame → Phase → List Token → Option Value
  | _, .done v, [] => some v
  | _, _, [] => none
  | st, ph, t :: ts =>
    match parseStep st ph t with
    | some (st2, ph2) => parseTokens st2 ph2 ts
    | none => none

/-- The value of a JSON text: what `checkValid` accepts and the decoder
builds, `none` for a syntax error or a number out of the float64 range. -/
def decode (data : Bytes) : Option Value :=
  match lex .top data with
  | some ts => parseTokens [] .value ts
  | none => none

/-- Go `json.Unmarshal(data, &m)` for `var m map[string]interface{}`: the
members of the object `data` holds.  The text `null` leaves the map nil, which
reads as an empty map.  `none` stands for a non-nil error: a syntax error, a
number out of range, or a top-level value that is not an object. -/
def Unmarshal (data : Bytes) : Option (List (Bytes × Value)) :=
  match decode data with
  | some (.object kvs) => some kvs
  | some .null => some []
  | _ => none

end Json

/-! ## time -/

/-- An instant: nanoseconds since the Unix epoch (Go: `time.Time`). -/
abbrev Time := Int

/-- A length of time in nanoseconds, an int64 (Go: `time.Duration`). -/
abbrev Duration := Int

namespace GoTime

/-- Nanoseconds in a second (Go: `time.Second`). -/
def Second : Int := 1000000000

/-- Seconds from January 1 of year 1 to the Unix epoch (Go:
`unixToInternal`). -/
def unixToInternal : Int := 62135596800

/-- Two-complement wrap-around of int64 arithmetic. -/
def wrap64 (x : Int) : Int :=
  (x + 9223372036854775808) % 18446744073709551616 - 9223372036854775808

/-- Go `t.Unix()`: whole seconds since the Unix epoch, rounded down. -/
def unixSeconds (t : Time) : Int := t / Second

/-- Go `time.Unix(sec, 0)`.  The instant is kept as int64 seconds counted from
year 1, so the sum with `unixToInternal` wraps around. -/
def Unix (sec : Int) : Time := (wrap64 (sec + unixToInternal) - unixToInternal) * Second

/-- The largest and the smallest Duration. -/
def maxDuration : Duration := 9223372036854775807
def minDuration : Duration := -9223372036854775808

/-- Go `t.Sub(u)`: the difference `t - u`, replaced by the largest or smallest
Duration when it does not fit. -/
def Sub (t u : Time) : Duration :=
  if t - u > maxDuration then maxDuration
  else if t - u < minDuration then minDuration
  else t - u

/-- Go `time.Since(u)` read at the instant `now`: `now.Sub(u)`. -/
def Since (now u : Time) : Duration := Sub now u

end GoTime

/-- Equality of results is decidable. -/
instance instDecidableEqExcept {ε α : Type} [DecidableEq ε] [DecidableEq α] :
    DecidableEq (Except ε α) := fun x y =>
  match x, y with
  | .ok a, .ok b => if h : a = b then isTrue (by rw [h]) else isFalse (fun e => h (by cases e; rfl))
  | .error a, .error b =>
    if h : a = b then isTrue (by rw [h]) else isFalse (fun e => h (by cases e; rfl))
  | .ok _, .error _ => isFalse (fun e => by cases e)
  | .error _, .ok _ => isFalse (fun e => by cases e)

/-! ## pkg/oidc/auth.go: the signed state -/

/-- The errors of `validateState`, one for each `fmt.Errorf` of the
function. -/
inductive StateError where
  | invalidStateFormat        -- "invalid state format"
  | invalidStateEncoding      -- "invalid state encoding"
  | invalidSignatureEncoding  -- "invalid signature encoding"
  | invalidStateSignature     -- "invalid state signature"
  | invalidStateJSON          -- "invalid state JSON"
  | stateExpired              -- "state expired"
deriving DecidableEq, Repr

/-- The fields of `OIDCAuthenticator` that the functions modelled here read.
The two allow-lists are Go maps used as sets; a list of their keys stands for
each. -/
structure OIDCAuthenticator where
  stateSecret : Bytes
  stateTTL : Duration
  allowedDomains : List Bytes
  allowedEmails : List Bytes
deriving DecidableEq

/-- Go `createState`.  `now` is the reading of `time.Now()` and `nonce` the
string of `uuid.New()`.  The error result of the Go function comes from
`json.Marshal` alone, which cannot fail on this map, so the model returns the
token itself. -/
def createState (a : OIDCAuthenticator) (now : Time) (nonce : Bytes) (redirectURL : Bytes) :
    Bytes :=
  let stateJSON := Json.marshalState redirectURL (GoTime.unixSeconds now) nonce
  let signature := Hmac.Sum a.stateSecret stateJSON
  Base64.EncodeToString stateJSON ++ bytesOf "." ++ Base64.EncodeToString signature

/-- Go `validateState`, with `now` the reading of the clock taken by
`time.Since`.  `hmac.Equal` compares the two byte slices in constant time and
is equality here. -/
def validateState (a : OIDCAuthenticator) (now : Time) (rawState : Bytes) :
    Except StateError Bytes :=
  match Strings.Split rawState 0x2E with
  | [p0, p1] =>
    match Base64.DecodeString p0 with
    | none => .error .invalidStateEncoding
    | some stateJSON =>
      match Base64.DecodeString p1 with
      | none => .error .invalidSignatureEncoding
      | some signature =>
        let expectedSignature := Hmac.Sum a.stateSecret stateJSON
        if signature ≠ expectedSignature then .error .invalidStateSignature
        else
          match Json.Unmarshal stateJSON with
          | none => .error .invalidStateJSON
          | some state =>
            let expired : Bool :=
              match Json.lookup (bytesOf "ts") state with
              | some (.number ts) => GoTime.Since now (GoTime.Unix ts.toInt64) > a.stateTTL
              | _ => false
            if expired then .error .stateExpired
            else
              match Json.lookup (bytesOf "redirect") state with
              | some (.string redirect) => if redirect = [] then .ok (bytesOf "/") else .ok redirect
              | _ => .ok (bytesOf "/")
  | _ => .error .invalidStateFormat

/-! ## pkg/oidc/auth.go: identity claims and allow-lists -/

/-- The errors of the functions below, one for each `fmt.Errorf`. -/
inductive AuthError where
  | noIDToken              -- "no id_token in token response"
  | verifyFailed           -- "failed to verify ID token"
  | parseClaimsFailed      -- "failed to parse claims"
  | invalidEmailFormat     -- "invalid email format"
  | emailDomainNotAllowed  -- "email domain not allowed"
  | emailNotAllowed        -- "email not allowed"
deriving DecidableEq, Repr

/-- The end of a Go call: it returns a value or stops in a run-time panic. -/
inductive Run (α : Type) where
  | ret : α → Run α
  | panic : Run α
deriving DecidableEq, Repr

/-- Go `oidcauth.Config`, as far as the state and the allow-lists go. -/
structure Config where
  StateSecret : Bytes
  StateTTL : Duration
  AllowedDomains : List Bytes
  AllowedEmails : List Bytes

/-- Go `backend.UserData`. -/
structure UserData where
  Email : Bytes
  FirstName : Bytes
  LastName : Bytes
  Subject : Bytes
deriving DecidableEq, Repr

/-- The claims `extractUserInfo` reads from the verified ID token; a claim
that is absent from the token is the empty string. -/
structure Claims where
  Sub : Bytes
  Email : Bytes
  Name : Bytes
  FamilyName : Bytes
  GivenName : Bytes
  PreferredUsername : Bytes
deriving DecidableEq, Repr

/-- A verified ID token: the outcome of `idToken.Claims(&claims)`, `none` when
that call returns an error. -/
structure IDToken where
  claims : Option Claims

/-- Assignment `m[k] = struct{}{}` on a map used as a set. -/
def setInsert (k : Bytes) (m : List Bytes) : List Bytes := if k ∈ m then m else m ++ [k]

/-- Go `NewOIDCAuthenticator`, for the fields modelled: both allow-lists are
filled with the lower-cased entries of the configuration.  `provider` tells
whether `oidc.NewProvider` succeeded; when it did not the constructor returns
its error. -/
def NewOIDCAuthenticator (unicodeLower : Bytes → Bytes) (cfg : Config) (provider : Bool) :
    Option OIDCAuthenticator :=
  if !provider then none
  else
    let allowed := cfg.AllowedDomains.foldl
      (fun m domain => setInsert (Strings.ToLower unicodeLower domain) m) []
    let allowedEmails := cfg.AllowedEmails.foldl
      (fun m email => setInsert (Strings.ToLower unicodeLower email) m) []
    some { stateSecret := cfg.StateSecret, stateTTL := cfg.StateTTL,
           allowedDomains := allowed, allowedEmails := allowedEmails }

/-- Go `splitName`.  The pair is in the order of the Go return values.  When
`strings.Fields` finds no field, `parts[0]` is an index out of range and the
call panics. -/
def splitName (fullName : Bytes) : Run (Bytes × Bytes) :=
  if fullName = [] then .ret (bytesOf "User", bytesOf "OIDC")
  else
    match Strings.Fields fullName with
    | [] => .panic
    | [p] => .ret (p, [])
    | p :: rest => .ret (p, Strings.Join rest (bytesOf " "))

/-- Go `extractUserInfo`.  `rawIDToken` is the result of
`token.Extra("id_token").(string)` and `verify` stands for
`a.verifier.Verify`. -/
def extractUserInfo (verify : Bytes → Option IDToken) (rawIDToken : Option Bytes) :
    Run (Except AuthError UserData) :=
  match rawIDToken with
  | none => .ret (.error .noIDToken)
  | some raw =>
    match verify raw with
    | none => .ret (.error .verifyFailed)
    | some idToken =>
      match idToken.claims with
      | none => .ret (.error .parseClaimsFailed)
      | some claims =>
        match splitName claims.Name with
        | .panic => .panic
        | .ret (lastName, firstName) =>
          let userData : UserData :=
            { Email := claims.Email, FirstName := firstName, LastName := lastName,
              Subject := claims.Sub }
          let userData :=
            if claims.FamilyName ≠ [] then { userData with LastName := claims.FamilyName }
            else userData
          let userData :=
            if claims.GivenName ≠ [] then { userData with FirstName := claims.GivenName }
            else userData
          .ret (.ok userData)

/-- Go `validateEmailDomain`; `.ok ()` is the nil error. -/
def validateEmailDomain (unicodeLower : Bytes → Bytes) (a : OIDCAuthenticator) (email : Bytes) :
    Except AuthError Unit :=
  if a.allowedDomains.length = 0 then .ok ()
  else
    match Strings.Split email 0x40 with
    | [_, p1] =>
      let domain := Strings.ToLower unicodeLower p1
      if domain ∉ a.allowedDomains then .error .emailDomainNotAllowed
      else .ok ()
    | _ => .error .invalidEmailFormat

/-- Go `validateEmail`; `.ok ()` is the nil error. -/
def validateEmail (a : OIDCAuthenticator) (email : Bytes) : Except AuthError Unit :=
  if a.allowedEmails.length = 0 then .ok ()
  else if email ∉ a.allowedEmails then .error .emailNotAllowed
  else .ok ()

/-! ## unicode/utf8, unicode and strings: trimming and case mapping -/

namespace Utf8

/-- Go `utf8.RuneStart`: the byte is not a continuation byte
(`b&0xC0 != 0x80`). -/
def RuneStart (b : Byte) : Bool := !(0x80 ≤ b.val && b.val < 0xC0)

/-- The bytes `utf8.DecodeLastRune` hands to `DecodeRune`, computed on the
reversed input `b1 :: rest` (`b1` is the last byte): the search goes back from
the byte before the last to the first byte that starts a rune, over at most
three bytes, and stops at the fourth byte from the end or at the start of the
input. -/
def lastWindow (b1 : Byte) (rest : Bytes) : Bytes :=
  match rest with
  | [] => [b1]
  | b2 :: rest2 =>
    if RuneStart b2 then [b2, b1]
    else
      match rest2 with
      | [] => [b2, b1]
      | b3 :: rest3 =>
        if RuneStart b3 then [b3, b2, b1]
        else
          match rest3 with
          | [] => [b3, b2, b1]
          | b4 :: _ => [b4, b3, b2, b1]

/-- Go `utf8.DecodeLastRune`: the last rune of `p` and its width.  An empty
input gives `(RuneError, 0)`; when the bytes from the start found by the
backward search do not decode to one rune that ends at the end of `p`, the
result is `(RuneError, 1)`. -/
def DecodeLastRune (p : Bytes) : Nat × Nat :=
  match p.reverse with
  | [] => (RuneError, 0)
  | b1 :: rest =>
    if b1.val < 0x80 then (b1.val, 1)
    else if (DecodeRune (lastWindow b1 rest)).2 ≠ (lastWindow b1 rest).length then (RuneError, 1)
    else DecodeRune (lastWindow b1 rest)

end Utf8

namespace Unicode

/-- Go `unicode.ToLower`.  An ASCII rune is mapped directly; for any other rune
Go consults the Unicode case tables (`unicode.To(unicode.LowerCase, r)`), which
are the argument `caseTable`. -/
def ToLower (caseTable : Nat → Nat) (r : Nat) : Nat :=
  if r < 0x80 then (if 0x41 ≤ r ∧ r ≤ 0x5A then r + 32 else r) else caseTable r

end Unicode

namespace Strings

/-- Go `strings.HasPrefix(s, pre)`. -/
def HasPrefix (s pre : Bytes) : Bool := s.take pre.length = pre

/-- Go `strings.Map(mapping, s)` for a mapping that returns no negative rune:
every rune of `s` is replaced by its image, a byte that is not valid UTF-8
being read as U+FFFD. -/
def Map (mapping : Nat → Nat) (s : Bytes) : Bytes :=
  (Utf8.runes s).flatMap (fun p => Utf8.EncodeRune (mapping p.1))

/-- Go `strings.ToLower(s)` in full: `ToLower` with the non-ASCII case handled
by `strings.Map(unicode.ToLower, s)`. -/
def ToLowerRunes (caseTable : Nat → Nat) (s : Bytes) : Bytes :=
  ToLower (Map (Unicode.ToLower caseTable)) s

/-- Loop of `TrimLeftSpace`, with the input length as fuel. -/
def trimLeftAux : Nat → Bytes → Bytes
  | 0, s => s
  | fuel + 1, s =>
    if IsSpace (Utf8.DecodeRune s).1 then trimLeftAux fuel (s.drop (Utf8.DecodeRune s).2) else s

/-- Go `strings.TrimLeftFunc(s, unicode.IsSpace)`: `s` without its leading
space runes. -/
def TrimLeftSpace (s : Bytes) : Bytes := trimLeftAux s.length s

/-- Loop of `TrimRightSpace`, with the input length as fuel. -/
def trimRightAux : Nat → Bytes → Bytes
  | 0, s => s
  | fuel + 1, s =>
    if IsSpace (Utf8.DecodeLastRune s).1 then
      trimRightAux fuel (s.take (s.length - (Utf8.DecodeLastRune s).2))
    else s

/-- Go `strings.TrimRightFunc(s, unicode.IsSpace)`: `s` without its trailing
space runes, read from the end with `utf8.DecodeLastRune`. -/
def TrimRightSpace (s : Bytes) : Bytes := trimRightAux s.length s

/-- Go `strings.TrimSpace(s)`.  Go strips ASCII spaces byte by byte and hands
over to `TrimFunc` / `TrimRightFunc` with `unicode.IsSpace` at the first byte
that is not ASCII, which gives the same string as trimming the space runes on
the left and then on the right. -/
def TrimSpace (s : Bytes) : Bytes := TrimRightSpace (TrimLeftSpace s)

end Strings

/-! ## pkg/backend/utils.go: rewriting of Set-Cookie values -/

/-- Go `containsAttr`. -/
def containsAttr (caseTable : Nat → Nat) (attrs : List Bytes) (attr : Bytes) : Bool :=
  let attrLower := Strings.ToLowerRunes caseTable attr
  attrs.any (fun a => Strings.ToLowerRunes caseTable (Strings.TrimSpace a) = attrLower)

/-- Go `hasSameSiteAttr`. -/
def hasSameSiteAttr (caseTable : Nat → Nat) (attrs : List Bytes) : Bool :=
  attrs.any (fun a =>
    Strings.HasPrefix (Strings.ToLowerRunes caseTable (Strings.TrimSpace a)) (bytesOf "samesite="))

/-- Go `rewriteSetCookieDomain`. -/
def rewriteSetCookieDomain (caseTable : Nat → Nat) (sc host : Bytes) (secure : Bool) : Bytes :=
  let parts := Strings.Split sc 0x3B
  let out := parts.map (fun p =>
    let k := Strings.TrimSpace p
    if Strings.HasPrefix (Strings.ToLowerRunes caseTable k) (bytesOf "domain=") then
      bytesOf "Domain=" ++ host
    else k)
  let out := if secure && !containsAttr caseTable out (bytesOf "Secure") then
    out ++ [bytesOf "Secure"] else out
  let out := if !hasSameSiteAttr caseTable out then out ++ [bytesOf "SameSite=Lax"] else out
  Strings.Join out (bytesOf "; ")

/-! ## pkg/backend/cookies.go and pkg/oidc/auth.go: the callback -/

/-- What a call of `HandleCallback` does to its collaborators and to the
response, in the order in which it does it. -/
inductive Event where
  | exchange (code : Bytes)                       -- a.config.Exchange(ctx, code)
  | verify (rawIDToken : Bytes)                   -- a.verifier.Verify(ctx, rawIDToken)
  | provisionUser (userData : UserData)           -- a.backend.ProvisionUser(ctx, userData)
  | login (userID : Bytes) (userData : UserData)  -- a.backend.Login(ctx, userID, userData)
  | setCookie (value : Bytes)                     -- w.Header().Add("Set-Cookie", value)
  | redirect (url : Bytes)                        -- http.Redirect(w, r, url, http.StatusFound)
deriving DecidableEq, Repr

/-- The errors of `HandleCallback`, one for each `return` with an error. -/
inductive CallbackError where
  | invalidState (e : StateError)   -- "invalid state: %w"
  | tokenExchangeFailed             -- "token exchange failed: %w"
  | userInfoFailed (e : AuthError)  -- "failed to get user info: %w"
  | notAllowed (e : AuthError)      -- the error of validateEmailDomain or validateEmail, as it is
  | provisionFailed                 -- "failed to provision user: %w"
  | loginFailed                     -- "failed to login: %w"
deriving DecidableEq, Repr

/-- The provider and the backend `HandleCallback` talks to; `none` is a call
that returns an error.  `exchange` stands for `a.config.Exchange` and gives the
`id_token` of the token response when there is one, `verify` for
`a.verifier.Verify`, `provisionUser` and `login` for the two methods of
`a.backend`. -/
structure Collaborators where
  exchange : Bytes → Option (Option Bytes)
  verify : Bytes → Option IDToken
  provisionUser : UserData → Option Bytes
  login : Bytes → UserData → Option (List Bytes)

/-- The parts of the callback request that `HandleCallback` reads: the query
parameters `state` and `code`, and `r.Host`. -/
structure CallbackRequest where
  state : Bytes
  code : Bytes
  Host : Bytes

/-- Go `CookieManager.SetSessionCookies`: one `Set-Cookie` header is added for
each cookie, rewritten for the host of the request. -/
def SetSessionCookies (caseTable : Nat → Nat) (secure : Bool) (host : Bytes)
    (cookies : List Bytes) : List Event :=
  cookies.map (fun cookie => Event.setCookie (rewriteSetCookieDomain caseTable cookie host secure))

/-- Go `HandleCallback`: the calls it makes and what it writes, and its result
(`.ok ()` is the nil error).  `secure` is the flag of `a.cookieManager`, `now`
the reading of the clock taken by `validateState`. -/
def HandleCallback (caseTable : Nat → Nat) (a : OIDCAuthenticator) (secure : Bool)
    (c : Collaborators) (now : Time) (r : CallbackRequest) :
    List Event × Run (Except CallbackError Unit) :=
  match validateState a now r.state with
  | .error e => ([], .ret (.error (.invalidState e)))
  | .ok redirectURL =>
    match c.exchange r.code with
    | none => ([.exchange r.code], .ret (.error .tokenExchangeFailed))
    | some rawIDToken =>
      let calls : List Event :=
        match rawIDToken with
        | some raw => [.exchange r.code, .verify raw]
        | none => [.exchange r.code]
      match extractUserInfo c.verify rawIDToken with
      | .panic => (calls, .panic)
      | .ret (.error e) => (calls, .ret (.error (.userInfoFailed e)))
      | .ret (.ok userData) =>
        match validateEmailDomain (Strings.Map (Unicode.ToLower caseTable)) a userData.Email with
        | .error e => (calls, .ret (.error (.notAllowed e)))
        | .ok _ =>
          match validateEmail a userData.Email with
          | .error e => (calls, .ret (.error (.notAllowed e)))
          | .ok _ =>
            match c.provisionUser userData with
            | none => (calls ++ [.provisionUser userData], .ret (.error .provisionFailed))
            | some userID =>
              match c.login userID userData with
              | none =>
                (calls ++ [.provisionUser userData, .login userID userData],
                  .ret (.error .loginFailed))
              | some cookies =>
                (calls ++ [.provisionUser userData, .login userID userData] ++
                  SetSessionCookies caseTable secure r.Host cookies ++ [.redirect redirectURL],
                  .ret (.ok ()))

/-! ## pkg/backend/metabase/client.go and pkg/backend/nocodb/client.go: the admin session -/

namespace GoTime

/-- Nanoseconds in an hour (Go: `time.Hour`). -/
def Hour : Int := 3600 * Second

/-- The zero value `time.Time{}`: January 1 of year 1. -/
def zeroTime : Time := -(unixToInternal * Second)

end GoTime

/-- The two clients.  Their `ensureAdmin` and `doJSON` are the same code up to
the login request, the name of the field that holds the credential
(`AdminSession`, `AdminToken`) and the header that carries it. -/
inductive Backend where
  | metabase
  | nocodb
deriving DecidableEq, Repr

/-- An HTTP request as it is sent to the upstream. -/
structure Request where
  Method : Bytes
  URL : Bytes
  Header : List (Bytes × Bytes)
  Body : Bytes
deriving DecidableEq, Repr

/-- The parts of an HTTP response that the clients read. -/
structure Response where
  StatusCode : Nat
  Body : Bytes
deriving DecidableEq, Repr

/-- The place a request is sent from: the admin login of `ensureAdmin`, or any
other place (the call of `doJSON`, the login of a user by `LoginUser`). -/
inductive Purpose where
  | adminLogin
  | call
deriving DecidableEq, Repr

/-- One use of `HTTP.Do`: the request and what came back, `none` for an
error. -/
structure Sent where
  purpose : Purpose
  request : Request
  response : Option Response
deriving DecidableEq, Repr

/-- What has happened outside the client so far: the requests sent, oldest
first, and the number of readings of the clock. -/
structure World where
  sent : List Sent
  clockReads : Nat
deriving DecidableEq, Repr

/-- The surroundings of a client.  `Do` stands for `HTTP.Do`: the answer of the
upstream to a request, given the requests it has received before (`none` is an
error of the transport).  `Now` gives the successive readings of
`time.Now()`.  `Decode` stands for `json.NewDecoder(resp.Body).Decode` into
the struct with the single string field `id` (Metabase) or `token` (NocoDB):
`none` is a decoding error, otherwise the value of the field.
`ResolveReference` stands for `BaseURL.ResolveReference(ref).String()`. -/
structure Env where
  Do : List Request → Request → Option Response
  Now : Nat → Time
  Decode : Bytes → Option Bytes
  ResolveReference : Bytes → Bytes → Bytes

/-- Go `ClientOIDC`.  `AdminSession` and `AdminSessionExp` are the cached
credential and its expiry (`AdminToken` and `AdminTokenExp` in the NocoDB
client); an empty `AdminSession` is the empty cache. -/
structure ClientOIDC where
  BaseURL : Bytes
  AdminEmail : Bytes
  AdminPassword : Bytes
  AdminSession : Bytes
  AdminSessionExp : Time
deriving DecidableEq, Repr

/-- The errors of the methods of the clients: those of `ensureAdmin` and
`doJSON`, and those of the methods built on `doJSON`. -/
inductive ClientError where
  | transport                         -- the error of HTTP.Do
  | adminLoginFailed (body : Bytes)   -- "admin login failed: %s"
  | decodeFailed                      -- the error of Decode
  | emptyCredential                   -- "empty admin session id" / "empty admin token"
  | requestFailed (what body : Bytes) -- "list users failed: %s", "create user failed: %s", ...
  | noUsersFound                      -- "no users found"
deriving DecidableEq, Repr

/-- The end of a call of a method of the client: its result, the fields of the
client and the world afterwards. -/
structure Outcome (α : Type) where
  result : Except ClientError α
  client : ClientOIDC
  world : World

/-- The name of the header that carries the credential. -/
def credentialHeader : Backend → Bytes
  | .metabase => bytesOf "X-Metabase-Session"
  | .nocodb => bytesOf "xc-auth"

/-- The login request built by `ensureAdmin`: a POST of the JSON encoding of
the map with the admin email and password (`json.Marshal` writes the keys of a
map in sorted order) to the login path of the upstream. -/
def loginRequest (k : Backend) (env : Env) (m : ClientOIDC) : Request :=
  match k with
  | .metabase =>
    { Method := bytesOf "POST",
      URL := env.ResolveReference m.BaseURL (bytesOf "/api/session"),
      Header := [(bytesOf "Content-Type", bytesOf "application/json")],
      Body := bytesOf "\x7b" ++ Json.encodeString (bytesOf "password") ++ bytesOf ":" ++
        Json.encodeString m.AdminPassword ++ bytesOf "," ++
        Json.encodeString (bytesOf "username") ++ bytesOf ":" ++
        Json.encodeString m.AdminEmail ++ bytesOf "\x7d" }
  | .nocodb =>
    { Method := bytesOf "POST",
      URL := env.ResolveReference m.BaseURL (bytesOf "/api/v1/auth/user/signin"),
      Header := [(bytesOf "Content-Type", bytesOf "application/json")],
      Body := bytesOf "\x7b" ++ Json.encodeString (bytesOf "email") ++ bytesOf ":" ++
        Json.encodeString m.AdminEmail ++ bytesOf "," ++
        Json.encodeString (bytesOf "password") ++ bytesOf ":" ++
        Json.encodeString m.AdminPassword ++ bytesOf "\x7d" }

/-- One use of `HTTP.Do`: the upstream sees the request after those sent
before, and the exchange is added to the world. -/
def send (env : Env) (purpose : Purpose) (req : Request) (w : World) :
    Option Response × World :=
  let resp := env.Do (w.sent.map (fun s => s.request)) req
  (resp, { w with sent := w.sent ++ [⟨purpose, req, resp⟩] })

/-- Go `ensureAdmin`, between `AdminSessionMu.Lock()` and the deferred
`Unlock()`.  The clock is read in the test of the cached credential only when
the credential is not empty (`&&` does not evaluate its second operand
otherwise), and once more when a new credential is stored. -/
def ensureAdmin (k : Backend) (env : Env) (m : ClientOIDC) (w : World) : Outcome Unit :=
  if m.AdminSession ≠ [] ∧ env.Now w.clockReads < m.AdminSessionExp then
    ⟨.ok (), m, { w with clockReads := w.clockReads + 1 }⟩
  else
    let w := if m.AdminSession ≠ [] then { w with clockReads := w.clockReads + 1 } else w
    match send env .adminLogin (loginRequest k env m) w with
    | (none, w) => ⟨.error .transport, m, w⟩
    | (some resp, w) =>
      if resp.StatusCode ≠ 200 then
        ⟨.error (.adminLoginFailed (Strings.TrimSpace resp.Body)), m, w⟩
      else
        match env.Decode resp.Body with
        | none => ⟨.error .decodeFailed, m, w⟩
        | some id =>
          if id = [] then ⟨.error .emptyCredential, m, w⟩
          else
            ⟨.ok (),
              { m with AdminSession := id,
                       AdminSessionExp := env.Now w.clockReads + 8 * GoTime.Hour },
              { w with clockReads := w.clockReads + 1 }⟩

/-- Go `http.NewRequestWithContext` followed by the two `Header.Set` of
`doJSON`.  `body` is the `io.Reader` handed over: `none` is the nil interface,
`some rest` a `*strings.Reader` with the bytes `rest` left to read.  The
request carries what is left in the reader (`ContentLength` is `v.Len()`, and a
reader with nothing left gives `http.NoBody`). -/
def newCallRequest (k : Backend) (method url : Bytes) (body : Option Bytes)
    (credential : Bytes) : Request :=
  { Method := method, URL := url,
    Header := [(bytesOf "Content-Type", bytesOf "application/json"),
      (credentialHeader k, credential)],
    Body := body.getD [] }

/-- Go `doJSON`.  `input` is `none` when the argument `in` is nil and the
bytes of `json.Marshal(in)` otherwise.  Sending a request reads its body to the
end, so after the first `HTTP.Do` the reader `body` has nothing left; the
second request is built from the same reader. -/
def doJSON (k : Backend) (env : Env) (m : ClientOIDC) (w : World) (method urlPath : Bytes)
    (input : Option Bytes) : Outcome Response :=
  match ensureAdmin k env m w with
  | ⟨.error e, m, w⟩ => ⟨.error e, m, w⟩
  | ⟨.ok _, m, w⟩ =>
    let u := env.ResolveReference m.BaseURL urlPath
    let body : Option Bytes := input
    match send env .call (newCallRequest k method u body m.AdminSession) w with
    | (none, w) => ⟨.error .transport, m, w⟩
    | (some resp, w) =>
      let body : Option Bytes := body.map (fun _ => [])
      if resp.StatusCode = 401 then
        let m := { m with AdminSession := [], AdminSessionExp := GoTime.zeroTime }
        match ensureAdmin k env m w with
        | ⟨.error e, m, w⟩ => ⟨.error e, m, w⟩
        | ⟨.ok _, m, w⟩ =>
          match send env .call (newCallRequest k method u body m.AdminSession) w with
          | (none, w) => ⟨.error .transport, m, w⟩
          | (some resp, w) => ⟨.ok resp, m, w⟩
      else ⟨.ok resp, m, w⟩

/-- The place of a caller of `ensureAdmin` that runs next to others: before
`AdminSessionMu.Lock()` returns, between `Lock()` and the deferred `Unlock()`,
or after its return. -/
inductive CallerState where
  | start
  | locked
  | finished (result : Except ClientError Unit)
deriving DecidableEq

/-- An adapter instance with its concurrent callers of `ensureAdmin`: the
client, the world, the caller that holds `AdminSessionMu` and the place of each
caller. -/
structure Adapter where
  client : ClientOIDC
  world : World
  holder : Option Nat
  callers : List CallerState

/-- One step of caller `i`.  At `start` it takes the mutex when the mutex is
free and stays blocked in `Lock()` otherwise; when it holds the mutex it runs
the body of `ensureAdmin` and releases the mutex on return. -/
def stepCaller (k : Backend) (env : Env) (i : Nat) (s : Adapter) : Adapter :=
  match s.callers.get? i with
  | some .start =>
    if s.holder = none then { s with holder := some i, callers := s.callers.set i .locked }
    else s
  | some .locked =>
    let out := ensureAdmin k env s.client s.world
    { client := out.client, world := out.world, holder := none,
      callers := s.callers.set i (.finished out.result) }
  | _ => s

/-- The adapter after the steps of a schedule, a list of callers in the order
in which they are given the processor. -/
def runSchedule (k : Backend) (env : Env) (schedule : List Nat) (s : Adapter) : Adapter :=
  schedule.foldl (fun s i => stepCaller k env i s) s

/-! ## pkg/oidc/utils.go: one-time passwords -/

/-- The constant `letters` of `GenPassword`. -/
def letters : Bytes := bytesOf "abcdefghijklmnopqrstuvwxyzABCDEFGHIJKLMNOPQRSTUVWXYZ0123456789-_@#"

/-- The random sources of one call of `GenPassword`.  `cryptoRead` stands for
`cryptoRand.Read(b)`: `none` when it returns an error, otherwise the byte it
has written at each index of `b`.  `Intn bound i` is the result of the call
number `i` of `rand.Intn(bound)`, which is below `bound`. -/
structure RandomSource where
  cryptoRead : Option (Nat → Byte)
  Intn : Nat → Nat → Nat
  Intn_lt : ∀ bound i, 0 < bound → Intn bound i < bound

/-- Go `GenPassword(n)` for `n >= 0`.  `letters[j]` is written `getD j 0`: an
index out of range would give the byte 0, which is no letter. -/
def GenPassword (n : Nat) (src : RandomSource) : Bytes :=
  match src.cryptoRead with
  | some b => (List.range n).map (fun i => letters.getD ((b i).val % letters.length) 0)
  | none => (List.range n).map (fun i => letters.getD (src.Intn letters.length i) 0)

/-! ## strings.TrimPrefix and the Location header of app.go -/

namespace Strings

/-- Go `strings.TrimPrefix(s, pre)`. -/
def TrimPrefix (s pre : Bytes) : Bytes := if HasPrefix s pre then s.drop pre.length else s

/-- Go `strings.HasSuffix(s, suffix)`. -/
def HasSuffix (s suffix : Bytes) : Bool := s.drop (s.length - suffix.length) = suffix

end Strings

/-- The function `proxy.ModifyResponse` of `routes` in app.go, on the values of
the `Location` header of the upstream response (no value: the header is
absent).  `Header.Get` gives the first value or the empty string, `Header.Set`
leaves the new value as the only one. -/
def ModifyResponse (ProxyURL ExternalURL : Bytes) (location : List Bytes) : List Bytes :=
  let loc := location.headD []
  if loc = [] then location
  else if Strings.HasPrefix loc ProxyURL then
    [ExternalURL ++ Strings.TrimPrefix loc ProxyURL]
  else location

/-- The `Location` header the reverse proxy of `routes` sends to the browser:
`ModifyResponse` is installed only when `ProxyRewriteLocationHeader` is
set. -/
def proxiedLocation (ProxyRewriteLocationHeader : Bool) (ProxyURL ExternalURL : Bytes)
    (location : List Bytes) : List Bytes :=
  if ProxyRewriteLocationHeader then ModifyResponse ProxyURL ExternalURL location else location

/-! ## config.go and app.go: start-up -/

namespace Main

/-- Go `Config` of package main, with the fields that the checks of
`loadConfig`, `getBackend`, `newApp` and the Location rewriting read (the
listen address, the timeouts, the log level and the user-info cookie are left
out).  `BackendType` is the field `Type`. -/
structure Config where
  ExternalURL : Bytes
  BackendType : Bytes
  ProxyURL : Bytes
  MetabaseAdminEmail : Bytes
  MetabaseAdminPassword : Bytes
  MetabaseSessionCookieName : Bytes
  NocodbAdminEmail : Bytes
  NocodbAdminPassword : Bytes
  PlaneDSN : Bytes
  OIDCIssuer : Bytes
  OIDCClientID : Bytes
  OIDCClientSecret : Bytes
  OIDCPath : Bytes
  OIDCScope : List Bytes
  StateSecret : Bytes
  StateTTL : Duration
  SecureCookies : Bool
  AllowedEmailDomains : List Bytes
  ProxyRewriteLocationHeader : Bool
deriving DecidableEq

/-- The errors of `loadConfig`, one for each `errors.New`. -/
inductive ConfigError where
  | missingRequired   -- "missing required ENV: EXTERNAL_URL, ..."
  | missingProxyURL   -- "missing required ENV by metabase: PROXY_URL"
  | missingMetabase   -- "missing required ENV by metabase: METABASE_ADMIN_EMAIL, ..."
  | missingNocodb     -- "missing required ENV by metabase: NOCODB_ADMIN_EMAIL, ..."
  | missingPlane      -- "missing required ENV by metabase: PLANE_DSN"
deriving DecidableEq, Repr

/-- Go `getenv`; `env` stands for `os.Getenv`. -/
def getenv (env : Bytes → Bytes) (key def_ : Bytes) : Bytes :=
  if env key ≠ [] then env key else def_

/-- Go `getenvBool`. -/
def getenvBool (caseTable : Nat → Nat) (env : Bytes → Bytes) (key : Bytes) (def_ : Bool) : Bool :=
  if env key ≠ [] then
    let v := Strings.ToLowerRunes caseTable (env key)
    if v ∈ [bytesOf "1", bytesOf "true", bytesOf "yes", bytesOf "y", bytesOf "on"] then true
    else if v ∈ [bytesOf "0", bytesOf "false", bytesOf "no", bytesOf "n", bytesOf "off"] then
      false
    else def_
  else def_

/-- Go `getenvDuration`; `parseDuration` stands for `time.ParseDuration`. -/
def getenvDuration (parseDuration : Bytes → Option Duration) (env : Bytes → Bytes) (key : Bytes)
    (def_ : Duration) : Duration :=
  if env key ≠ [] then
    match parseDuration (env key) with
    | some d => d
    | none => def_
  else def_

/-- Go `getenvCSV`. -/
def getenvCSV (env : Bytes → Bytes) (key : Bytes) : List Bytes :=
  let v := Strings.TrimSpace (env key)
  if v ≠ [] then
    ((Strings.Split v 0x2C).map Strings.TrimSpace).filter (fun p => p ≠ [])
  else []

/-- Go `loadConfig`. -/
def loadConfig (caseTable : Nat → Nat) (parseDuration : Bytes → Option Duration)
    (env : Bytes → Bytes) : Except ConfigError Config :=
  let cfg : Config :=
    { ExternalURL := env (bytesOf "EXTERNAL_URL"),
      BackendType := env (bytesOf "TYPE"),
      ProxyURL := env (bytesOf "PROXY_URL"),
      MetabaseAdminEmail := env (bytesOf "METABASE_ADMIN_EMAIL"),
      MetabaseAdminPassword := env (bytesOf "METABASE_ADMIN_PASSWORD"),
      MetabaseSessionCookieName :=
        getenv env (bytesOf "METABASE_SESSION_COOKIE_NAME") (bytesOf "metabase.SESSION"),
      NocodbAdminEmail := env (bytesOf "NOCODB_ADMIN_EMAIL"),
      NocodbAdminPassword := env (bytesOf "NOCODB_ADMIN_PASSWORD"),
      PlaneDSN := env (bytesOf "PLANE_DSN"),
      OIDCIssuer := env (bytesOf "OIDC_ISSUER"),
      OIDCClientID := env (bytesOf "OIDC_CLIENT_ID"),
      OIDCClientSecret := env (bytesOf "OIDC_CLIENT_SECRET"),
      OIDCPath := getenv env (bytesOf "OIDC_PATH") (bytesOf "/openid/"),
      OIDCScope := getenvCSV env (bytesOf "OIDC_SCOPE"),
      StateSecret := env (bytesOf "STATE_SECRET"),
      StateTTL := getenvDuration parseDuration env (bytesOf "STATE_TTL") (600 * GoTime.Second),
      SecureCookies := getenvBool caseTable env (bytesOf "SECURE_COOKIES") true,
      AllowedEmailDomains := getenvCSV env (bytesOf "ALLOWED_EMAIL_DOMAINS"),
      ProxyRewriteLocationHeader :=
        getenvBool caseTable env (bytesOf "PROXY_REWRITE_LOCATION") true }
  if cfg.ExternalURL = [] ∨ cfg.OIDCIssuer = [] ∨ cfg.OIDCClientID = [] ∨
      cfg.OIDCClientSecret = [] ∨ cfg.StateSecret = [] then
    .error .missingRequired
  else
    let cfg :=
      if !Strings.HasPrefix cfg.OIDCPath (bytesOf "/") then
        { cfg with OIDCPath := bytesOf "/" ++ cfg.OIDCPath }
      else cfg
    let cfg :=
      if !Strings.HasSuffix cfg.OIDCPath (bytesOf "/") then
        { cfg with OIDCPath := cfg.OIDCPath ++ bytesOf "/" }
      else cfg
    let cfg :=
      if cfg.OIDCScope.length = 0 then
        { cfg with OIDCScope := [bytesOf "openid", bytesOf "email", bytesOf "profile"] }
      else cfg
    if cfg.ProxyURL = [] then .error .missingProxyURL
    else if cfg.BackendType = bytesOf "metabase" ∧
        (cfg.MetabaseAdminEmail = [] ∨ cfg.MetabaseAdminPassword = []) then
      .error .missingMetabase
    else if cfg.BackendType = bytesOf "nocodb" ∧
        (cfg.NocodbAdminEmail = [] ∨ cfg.NocodbAdminPassword = []) then
      .error .missingNocodb
    else if cfg.BackendType = bytesOf "plane" ∧ cfg.PlaneDSN = [] then .error .missingPlane
    else .ok cfg

/-- The errors of `getBackend` and `newApp`. -/
inductive AppError where
  | invalidBackendType   -- "invalid backend type"
  | invalidBaseURL       -- "invalid base URL: %w"
  | joinPath             -- the error of url.JoinPath
  | provider             -- "failed to create OIDC provider: %w"
deriving DecidableEq, Repr

/-- A value of the interface `backend.Backend` made by `getBackend`: the
Metabase or the NocoDB backend with its client. -/
structure BackendValue where
  kind : Backend
  client : ClientOIDC
deriving DecidableEq

/-- Go `NewMetabaseBackend` and `NewNocodbBackend`, which differ in the type
they return only.  `urlParse` tells whether `url.Parse` accepts the base
URL. -/
def NewBackend (urlParse : Bytes → Bool) (kind : Backend)
    (baseURL adminEmail adminPassword : Bytes) : Except AppError BackendValue :=
  if !urlParse baseURL then .error .invalidBaseURL
  else
    .ok { kind := kind,
          client := { BaseURL := baseURL, AdminEmail := adminEmail,
                      AdminPassword := adminPassword, AdminSession := [],
                      AdminSessionExp := GoTime.zeroTime } }

/-- Go `getBackend`. -/
def getBackend (urlParse : Bytes → Bool) (cfg : Config) : Except AppError BackendValue :=
  if cfg.BackendType = bytesOf "metabase" then
    NewBackend urlParse .metabase cfg.ProxyURL cfg.MetabaseAdminEmail cfg.MetabaseAdminPassword
  else if cfg.BackendType = bytesOf "nocodb" then
    NewBackend urlParse .nocodb cfg.ProxyURL cfg.NocodbAdminEmail cfg.NocodbAdminPassword
  else .error .invalidBackendType

/-- Go `App`.  `backend` is an interface value: `none` is the nil interface.
`secureCookies` and `cookieName` are the fields of the cookie manager. -/
structure App where
  oidcAuth : OIDCAuthenticator
  backend : Option BackendValue
  secureCookies : Bool
  cookieName : Bytes
  config : Config
deriving DecidableEq

/-- Go `newApp`.  `joinPath` stands for `url.JoinPath` and `provider` tells
whether `oidc.NewProvider` succeeds.  The variable `err` assigned by
`getBackend` is assigned again by `url.JoinPath` before it is read;
`mbBackend` is the nil interface when `getBackend` returned an error. -/
def newApp (caseTable : Nat → Nat) (urlParse : Bytes → Bool)
    (joinPath : Bytes → List Bytes → Option Bytes) (provider : Bool) (cfg : Config) :
    Except AppError App :=
  let mbBackend : Option BackendValue :=
    match getBackend urlParse cfg with
    | .ok b => some b
    | .error _ => none
  match joinPath cfg.ExternalURL [cfg.OIDCPath, bytesOf "callback"] with
  | none => .error .joinPath
  | some _ =>
    let oidcConfig : OidcProxy.Config :=
      { StateSecret := cfg.StateSecret, StateTTL := cfg.StateTTL,
        AllowedDomains := cfg.AllowedEmailDomains, AllowedEmails := [] }
    match NewOIDCAuthenticator (Strings.Map (Unicode.ToLower caseTable)) oidcConfig provider with
    | none => .error .provider
    | some oidcAuth =>
      .ok { oidcAuth := oidcAuth, backend := mbBackend, secureCookies := cfg.SecureCookies,
            cookieName := cfg.MetabaseSessionCookieName, config := cfg }

end Main

/-! ## pkg/backend/metabase and pkg/backend/nocodb: users -/

namespace Strconv

/-- Go `strconv.Atoi(s)`: an optional sign and one or more decimal digits that
make a value in the range of int64; `none` is the error. -/
def Atoi (s : Bytes) : Option Int :=
  let neg : Bool := s.head? = some 0x2D
  let ds : Bytes := if s.head? = some 0x2D ∨ s.head? = some 0x2B then s.drop 1 else s
  if ds = [] ∨ !ds.all (fun d => 0x30 ≤ d.val && d.val ≤ 0x39) then none
  else
    let v : Int := ds.foldl (fun acc d => acc * 10 + ((d.val : Int) - 48)) 0
    let n : Int := if neg then -v else v
    if n < -9223372036854775808 ∨ n > 9223372036854775807 then none else some n

end Strconv

/-- Go `json.Marshal` of a map whose values are already encoded: the members
are written in the order of the sorted keys, in which they are given here. -/
def marshalMap (members : List (Bytes × Bytes)) : Bytes :=
  bytesOf "\x7b" ++
    Strings.Join (members.map (fun kv => Json.encodeString kv.1 ++ bytesOf ":" ++ kv.2))
      (bytesOf ",") ++
    bytesOf "\x7d"

/-- The end of a call of a method of a backend: its result, the text of the
error being the error, the fields of the client and the world afterwards. -/
structure BackendOutcome (α : Type) where
  result : Except Bytes α
  client : ClientOIDC
  world : World

/-- Go `LoginUser` of both clients: the login request of `ensureAdmin` with the
email and the password of the user, sent without the admin credential.
`setCookie` stands for `resp.Header.Values("Set-Cookie")`. -/
def LoginUser (k : Backend) (env : Env) (setCookie : Response → List Bytes) (m : ClientOIDC)
    (w : World) (email password : Bytes) : Outcome (Bytes × List Bytes) :=
  match send env .call
      (loginRequest k env { m with AdminEmail := email, AdminPassword := password }) w with
  | (none, w) => ⟨.error .transport, m, w⟩
  | (some resp, w) =>
    if resp.StatusCode ≠ 200 then
      ⟨.error (.requestFailed (bytesOf "user login") (Strings.TrimSpace resp.Body)), m, w⟩
    else
      match env.Decode resp.Body with
      | none => ⟨.error .decodeFailed, m, w⟩
      | some id => ⟨.ok (id, setCookie resp), m, w⟩

namespace Metabase

/-- Go `metabase.User`. -/
structure User where
  ID : Int
  Email : Bytes
  FirstName : Bytes
  LastName : Bytes
  IsActive : Bool
deriving DecidableEq, Repr

/-- The library functions the methods of the Metabase client call besides
those of `Env`.  `DecodeUsers` stands for `Decode(&data)` into `UserData` and
gives `data.Data`, `DecodeUser` for `Decode(&u)` into `User` (`none` is the
error), `EqualFold` for `strings.EqualFold`, `SetCookie` for
`resp.Header.Values("Set-Cookie")`. -/
structure Codec where
  DecodeUsers : Bytes → Option (List User)
  DecodeUser : Bytes → Option User
  EqualFold : Bytes → Bytes → Bool
  SetCookie : Response → List Bytes

/-- Go `ListUsers`. -/
def ListUsers (codec : Codec) (env : Env) (m : ClientOIDC) (w : World) : Outcome (List User) :=
  match doJSON .metabase env m w (bytesOf "GET") (bytesOf "/api/user?status=all") none with
  | ⟨.error e, m, w⟩ => ⟨.error e, m, w⟩
  | ⟨.ok resp, m, w⟩ =>
    if resp.StatusCode ≠ 200 then
      ⟨.error (.requestFailed (bytesOf "list users") (Strings.TrimSpace resp.Body)), m, w⟩
    else
      match codec.DecodeUsers resp.Body with
      | none => ⟨.error .decodeFailed, m, w⟩
      | some users => ⟨.ok users, m, w⟩

/-- Go `FindUserByEmail`: `none` is the nil user.  `ListUsers` returns no nil
list without an error, so the branch `users == nil` is never taken. -/
def FindUserByEmail (codec : Codec) (env : Env) (m : ClientOIDC) (w : World) (email : Bytes) :
    Outcome (Option User) :=
  match ListUsers codec env m w with
  | ⟨.error e, m, w⟩ => ⟨.error e, m, w⟩
  | ⟨.ok users, m, w⟩ =>
    ⟨.ok (users.find? (fun u =>
      codec.EqualFold (Strings.TrimSpace u.Email) (Strings.TrimSpace email))), m, w⟩

/-- Go `CreateUser`. -/
def CreateUser (codec : Codec) (env : Env) (m : ClientOIDC) (w : World)
    (email first last password : Bytes) : Outcome User :=
  let body := marshalMap
    [(bytesOf "email", Json.encodeString email), (bytesOf "first_name", Json.encodeString first),
     (bytesOf "is_active", bytesOf "true"), (bytesOf "last_name", Json.encodeString last),
     (bytesOf "password", Json.encodeString password)]
  match doJSON .metabase env m w (bytesOf "POST") (bytesOf "/api/user") (some body) with
  | ⟨.error e, m, w⟩ => ⟨.error e, m, w⟩
  | ⟨.ok resp, m, w⟩ =>
    if resp.StatusCode ≠ 200 ∧ resp.StatusCode ≠ 201 then
      ⟨.error (.requestFailed (bytesOf "create user") (Strings.TrimSpace resp.Body)), m, w⟩
    else
      match codec.DecodeUser resp.Body with
      | none => ⟨.error .decodeFailed, m, w⟩
      | some u => ⟨.ok u, m, w⟩

/-- Go `UpdateUser`; `patch` is the encoded map. -/
def UpdateUser (env : Env) (m : ClientOIDC) (w : World) (id : Int) (patch : Bytes) :
    Outcome Unit :=
  match doJSON .metabase env m w (bytesOf "PUT") (bytesOf "/api/user/" ++ Strconv.FormatInt id)
      (some patch) with
  | ⟨.error e, m, w⟩ => ⟨.error e, m, w⟩
  | ⟨.ok resp, m, w⟩ =>
    if resp.StatusCode ≠ 200 then
      ⟨.error (.requestFailed (bytesOf "update user") (Strings.TrimSpace resp.Body)), m, w⟩
    else ⟨.ok (), m, w⟩

/-- Go `ReactivateUser`. -/
def ReactivateUser (env : Env) (m : ClientOIDC) (w : World) (id : Int) : Outcome Unit :=
  match doJSON .metabase env m w (bytesOf "PUT")
      (bytesOf "/api/user/" ++ Strconv.FormatInt id ++ bytesOf "/reactivate") none with
  | ⟨.error e, m, w⟩ => ⟨.error e, m, w⟩
  | ⟨.ok resp, m, w⟩ =>
    if resp.StatusCode ≠ 200 then
      ⟨.error (.requestFailed (bytesOf "reactivate user") (Strings.TrimSpace resp.Body)), m, w⟩
    else ⟨.ok (), m, w⟩

/-- Go `ResetPassword`: every path returns the nil error. -/
def ResetPassword (env : Env) (m : ClientOIDC) (w : World) (id : Int) (newPassword : Bytes) :
    Outcome Unit :=
  let out := doJSON .metabase env m w (bytesOf "PUT")
    (bytesOf "/api/user/" ++ Strconv.FormatInt id ++ bytesOf "/password")
    (some (marshalMap [(bytesOf "password", Json.encodeString newPassword)]))
  ⟨.ok (), out.client, out.world⟩

/-- Go `FindOrCreateUser` of the Metabase client. -/
def FindOrCreateUser (codec : Codec) (env : Env) (m : ClientOIDC) (w : World)
    (email first last password : Bytes) : Outcome User :=
  match FindUserByEmail codec env m w email with
  | ⟨.error e, m, w⟩ => ⟨.error e, m, w⟩
  | ⟨.ok (some u), m, w⟩ => ⟨.ok u, m, w⟩
  | ⟨.ok none, m, w⟩ => CreateUser codec env m w email first last password

/-- Go `MetabaseBackend.ProvisionUser`.  `src` is the random source of the
call of `GenPassword`. -/
def ProvisionUser (codec : Codec) (env : Env) (src : RandomSource) (m : ClientOIDC) (w : World)
    (user : UserData) : BackendOutcome Bytes :=
  let randomPwd := GenPassword 24 src
  match FindOrCreateUser codec env m w user.Email user.FirstName user.LastName randomPwd with
  | ⟨.error _, m, w⟩ => ⟨.error (bytesOf "metabase provision failed"), m, w⟩
  | ⟨.ok userExternal, m, w⟩ =>
    let out := UpdateUser env m w userExternal.ID
      (marshalMap [(bytesOf "email", Json.encodeString user.Email),
        (bytesOf "first_name", Json.encodeString user.FirstName),
        (bytesOf "last_name", Json.encodeString user.LastName)])
    let out := ReactivateUser env out.client out.world userExternal.ID
    ⟨.ok (Strconv.FormatInt userExternal.ID), out.client, out.world⟩

/-- Go `MetabaseBackend.Login`.  `none` is the end of the process: when
`strconv.Atoi` refuses the user id, `log.Fatalf` exits. -/
def Login (codec : Codec) (env : Env) (src : RandomSource) (m : ClientOIDC) (w : World)
    (userID : Bytes) (userData : UserData) : Option (BackendOutcome (List Bytes)) :=
  let randomPwd := GenPassword 24 src
  match Strconv.Atoi userID with
  | none => none
  | some userExternalId =>
    let out := ResetPassword env m w userExternalId randomPwd
    match LoginUser .metabase env codec.SetCookie out.client out.world userData.Email
        randomPwd with
    | ⟨.error _, m, w⟩ => some ⟨.error (bytesOf "metabase login failed"), m, w⟩
    | ⟨.ok (sessionID, setCookies), m, w⟩ =>
      if sessionID = [] then some ⟨.error (bytesOf "metabase login failed"), m, w⟩
      else some ⟨.ok setCookies, m, w⟩

end Metabase

namespace Nocodb

/-- Go `nocodb.User`. -/
structure User where
  ID : Bytes
  Email : Bytes
  DisplayName : Bytes
  InviteToken : Bytes
  Roles : Bytes
deriving DecidableEq, Repr

/-- The library functions the methods of the NocoDB client call besides those
of `Env`.  `DecodeUsers` stands for `Decode(&userList)` into `UserList` and
gives `userList.List`, `DecodeUser` for `Decode(&user)`, `DecodeResetToken` for
`Decode(&data)` into `ResetPasswordToken` (`none` is the error), `EqualFold`
for `strings.EqualFold`, `SetCookie` for `resp.Header.Values("Set-Cookie")`. -/
structure Codec where
  DecodeUsers : Bytes → Option (List User)
  DecodeUser : Bytes → Option User
  DecodeResetToken : Bytes → Option Bytes
  EqualFold : Bytes → Bytes → Bool
  SetCookie : Response → List Bytes

/-- Go `ListUsersByEmail`. -/
def ListUsersByEmail (codec : Codec) (env : Env) (m : ClientOIDC) (w : World) (email : Bytes) :
    Outcome (List User) :=
  match doJSON .nocodb env m w (bytesOf "GET") (bytesOf "/api/v1/users?query=" ++ email)
      none with
  | ⟨.error e, m, w⟩ => ⟨.error e, m, w⟩
  | ⟨.ok resp, m, w⟩ =>
    if resp.StatusCode ≠ 200 then
      ⟨.error (.requestFailed (bytesOf "list users") (Strings.TrimSpace resp.Body)), m, w⟩
    else
      match codec.DecodeUsers resp.Body with
      | none => ⟨.error .decodeFailed, m, w⟩
      | some users => ⟨.ok users, m, w⟩

/-- Go `FindUserByEmail` of the NocoDB client: `none` is the nil user; an
empty list is the error `no users found`. -/
def FindUserByEmail (codec : Codec) (env : Env) (m : ClientOIDC) (w : World) (email : Bytes) :
    Outcome (Option User) :=
  match ListUsersByEmail codec env m w email with
  | ⟨.error e, m, w⟩ => ⟨.error e, m, w⟩
  | ⟨.ok users, m, w⟩ =>
    if users.length = 0 then ⟨.error .noUsersFound, m, w⟩
    else
      ⟨.ok (users.find? (fun u =>
        codec.EqualFold (Strings.TrimSpace u.Email) (Strings.TrimSpace email))), m, w⟩

/-- Go `CreateUser` of the NocoDB client. -/
def CreateUser (codec : Codec) (env : Env) (m : ClientOIDC) (w : World)
    (email first last password : Bytes) : Outcome User :=
  let body := marshalMap
    [(bytesOf "email", Json.encodeString email), (bytesOf "firstname", Json.encodeString first),
     (bytesOf "lastname", Json.encodeString last),
     (bytesOf "password", Json.encodeString password),
     (bytesOf "roles", Json.encodeString (bytesOf "org-level-creator"))]
  match doJSON .nocodb env m w (bytesOf "POST") (bytesOf "/api/v1/users") (some body) with
  | ⟨.error e, m, w⟩ => ⟨.error e, m, w⟩
  | ⟨.ok resp, m, w⟩ =>
    if resp.StatusCode ≠ 200 ∧ resp.StatusCode ≠ 201 then
      ⟨.error (.requestFailed (bytesOf "create user") (Strings.TrimSpace resp.Body)), m, w⟩
    else
      match codec.DecodeUser resp.Body with
      | none => ⟨.error .decodeFailed, m, w⟩
      | some u => ⟨.ok u, m, w⟩

/-- Go `PasswordGenerateResetUrl`. -/
def PasswordGenerateResetUrl (codec : Codec) (env : Env) (m : ClientOIDC) (w : World)
    (id : Bytes) : Outcome Bytes :=
  match doJSON .nocodb env m w (bytesOf "POST")
      (bytesOf "/api/v1/users/" ++ id ++ bytesOf "/generate-reset-url") none with
  | ⟨.error e, m, w⟩ => ⟨.error e, m, w⟩
  | ⟨.ok resp, m, w⟩ =>
    if resp.StatusCode ≠ 200 then
      ⟨.error (.requestFailed (bytesOf "reset password") (Strings.TrimSpace resp.Body)), m, w⟩
    else
      match codec.DecodeResetToken resp.Body with
      | none => ⟨.error .decodeFailed, m, w⟩
      | some token => ⟨.ok token, m, w⟩

/-- Go `PasswordSet`. -/
def PasswordSet (env : Env) (m : ClientOIDC) (w : World) (token newPassword : Bytes) :
    Outcome Unit :=
  match doJSON .nocodb env m w (bytesOf "POST")
      (bytesOf "/api/v1/auth/password/reset/" ++ token)
      (some (marshalMap [(bytesOf "password", Json.encodeString newPassword)])) with
  | ⟨.error e, m, w⟩ => ⟨.error e, m, w⟩
  | ⟨.ok resp, m, w⟩ =>
    if resp.StatusCode ≠ 200 then
      ⟨.error (.requestFailed (bytesOf "reset password 2nd factor")
        (Strings.TrimSpace resp.Body)), m, w⟩
    else ⟨.ok (), m, w⟩

/-- Go `FindOrCreateUser` of the NocoDB client: the error of `FindUserByEmail`
is assigned to the blank identifier. -/
def FindOrCreateUser (codec : Codec) (env : Env) (m : ClientOIDC) (w : World)
    (email first last password : Bytes) : Outcome User :=
  match FindUserByEmail codec env m w email with
  | ⟨.ok (some u), m, w⟩ => ⟨.ok u, m, w⟩
  | ⟨_, m, w⟩ => CreateUser codec env m w email first last password

/-- Go `NocodbBackend.ProvisionUser`. -/
def ProvisionUser (codec : Codec) (env : Env) (src : RandomSource) (m : ClientOIDC) (w : World)
    (user : UserData) : BackendOutcome Bytes :=
  let randomPwd := GenPassword 24 src
  match FindOrCreateUser codec env m w user.Email user.FirstName user.LastName randomPwd with
  | ⟨.error _, m, w⟩ => ⟨.error (bytesOf "nocodb provision failed"), m, w⟩
  | ⟨.ok userExternal, m, w⟩ => ⟨.ok userExternal.ID, m, w⟩

/-- Go `NocodbBackend.Login`. -/
def Login (codec : Codec) (env : Env) (src : RandomSource) (m : ClientOIDC) (w : World)
    (userID : Bytes) (userData : UserData) : BackendOutcome (List Bytes) :=
  let randomPwd := GenPassword 24 src
  match PasswordGenerateResetUrl codec env m w userID with
  | ⟨.error _, m, w⟩ => ⟨.error (bytesOf "nocodb password reset error"), m, w⟩
  | ⟨.ok token, m, w⟩ =>
    match PasswordSet env m w token randomPwd with
    | ⟨.error _, m, w⟩ => ⟨.error (bytesOf "nocodb password set error"), m, w⟩
    | ⟨.ok _, m, w⟩ =>
      match LoginUser .nocodb env codec.SetCookie m w userData.Email randomPwd with
      | ⟨.error _, m, w⟩ => ⟨.error (bytesOf "metabase login failed"), m, w⟩
      | ⟨.ok (sessionID, setCookies), m, w⟩ =>
        if sessionID = [] then ⟨.error (bytesOf "metabase login failed"), m, w⟩
        else ⟨.ok setCookies, m, w⟩

end Nocodb

/-! ## pkg/backend/plane: login -/

namespace Plane

/-- The surroundings of the Plane backend.  `Do` stands for `client.Do` of the
client made in `loginUser`: the answer to a request given the requests sent
before, or the text of the error.  `DecodeCsrf` stands for `Decode(&cr)` into
`csrfResp`: the token, or the text of the error.  `FormEncode` stands for
`url.Values.Encode`, `SetCookie` for `resp.Header.Values("Set-Cookie")`.
`createOrUpdateUser` gives the error of `pb.createOrUpdateUser` (db.go), which
is an error of the password hashing or of the database; `none` is the nil
error. -/
structure PlaneEnv where
  Do : List Request → Request → Except Bytes Response
  DecodeCsrf : Bytes → Except Bytes Bytes
  FormEncode : List (Bytes × Bytes) → Bytes
  SetCookie : Response → List Bytes
  createOrUpdateUser : Bytes → Bytes → Bytes → Bytes → Option Bytes

/-- Go `loginUser` of the Plane backend: its result, the error being its text,
and the requests it has sent.  The cookies that the jar of the client adds to
the second request are not part of `Request`. -/
def loginUser (env : PlaneEnv) (baseURL email password : Bytes) :
    Except Bytes (List Bytes) × List Request :=
  let reqCSRF : Request :=
    { Method := bytesOf "GET", URL := baseURL ++ bytesOf "/auth/get-csrf-token/", Header := [],
      Body := [] }
  match env.Do [] reqCSRF with
  | .error err => (.error (bytesOf "get csrf: " ++ err), [reqCSRF])
  | .ok respCSRF =>
    if respCSRF.StatusCode ≠ 200 then
      (.error (bytesOf "get csrf: status " ++ Strconv.FormatInt respCSRF.StatusCode ++
        bytesOf ": " ++ respCSRF.Body), [reqCSRF])
    else
      match env.DecodeCsrf respCSRF.Body with
      | .error err => (.error (bytesOf "decode csrf json: " ++ err), [reqCSRF])
      | .ok token =>
        if token = [] then (.error (bytesOf "empty csrf_token"), [reqCSRF])
        else
          let reqSign : Request :=
            { Method := bytesOf "POST", URL := baseURL ++ bytesOf "/auth/sign-in/",
              Header :=
                [(bytesOf "Content-Type", bytesOf "application/x-www-form-urlencoded"),
                 (bytesOf "Accept", bytesOf ("text/html,application/xhtml+xml," ++
                    "application/xml;q=0.9,image/avif,image/webp,image/apng,*/*;q=0.8," ++
                    "application/signed-exchange;v=b3;q=0.7"))],
              Body := env.FormEncode
                [(bytesOf "csrfmiddlewaretoken", token), (bytesOf "email", email),
                 (bytesOf "password", password)] }
          match env.Do [reqCSRF] reqSign with
          | .error err => (.error (bytesOf "sign-in request: " ++ err), [reqCSRF, reqSign])
          | .ok respSign =>
            if respSign.StatusCode ≠ 200 ∧ respSign.StatusCode ≠ 302 ∧
                respSign.StatusCode ≠ 303 then
              (.error (bytesOf "sign-in: status " ++ Strconv.FormatInt respSign.StatusCode ++
                bytesOf ": " ++ respSign.Body), [reqCSRF, reqSign])
            else (.ok (env.SetCookie respSign), [reqCSRF, reqSign])

/-- Go `PlaneBackend.ProvisionUser`. -/
def ProvisionUser (user : UserData) : Except Bytes Bytes := .ok user.Email

/-- Go `PlaneBackend.Login`: the errors of `createOrUpdateUser` and of
`loginUser` are returned as they are. -/
def Login (env : PlaneEnv) (src : RandomSource) (baseURL : Bytes) (userData : UserData) :
    Except Bytes (List Bytes) :=
  let randomPwd := GenPassword 24 src
  match env.createOrUpdateUser userData.Email userData.FirstName userData.LastName
      randomPwd with
  | some err => .error err
  | none =>
    match (loginUser env baseURL userData.Email randomPwd).1 with
    | .error err => .error err
    | .ok cookies => .ok cookies

end Plane

/-! ## Notions used to state the properties -/

/-- The token made of payload `p` and its signature under `secret`, both in
base64url, the way `createState` puts them together. -/
def signedToken (secret p : Bytes) : Bytes :=
  Base64.EncodeToString p ++ bytesOf "." ++ Base64.EncodeToString (Hmac.Sum secret p)

/-- The issued-at timestamp of a decoded payload: the member `ts` when it is a
number (Go: `state["ts"].(float64)`). -/
def payloadTs (state : List (Bytes × Json.Value)) : Option Float64 :=
  match Json.lookup (bytesOf "ts") state with
  | some (.number ts) => some ts
  | _ => none

/-- The destination of a decoded payload: the member `redirect` when it is a
string (Go: `state["redirect"].(string)`). -/
def payloadRedirect (state : List (Bytes × Json.Value)) : Option Bytes :=
  match Json.lookup (bytesOf "redirect") state with
  | some (.string r) => some r
  | _ => none

/-- What `validateState` does with a payload whose signature it has accepted:
the JSON, expiry and destination steps, in the words of the function. -/
def payloadResult (a : OIDCAuthenticator) (now : Time) (stateJSON : Bytes) :
    Except StateError Bytes :=
  match Json.Unmarshal stateJSON with
  | none => .error .invalidStateJSON
  | some state =>
    let expired : Bool :=
      match Json.lookup (bytesOf "ts") state with
      | some (.number ts) => GoTime.Since now (GoTime.Unix ts.toInt64) > a.stateTTL
      | _ => false
    if expired then .error .stateExpired
    else
      match Json.lookup (bytesOf "redirect") state with
      | some (.string redirect) => if redirect = [] then .ok (bytesOf "/") else .ok redirect
      | _ => .ok (bytesOf "/")

/-- The destination `validateState` returns for a decoded payload: its
`redirect` when that is a non-empty string, the root path otherwise. -/
def redirectOrRoot (state : List (Bytes × Json.Value)) : Bytes :=
  match payloadRedirect state with
  | some r => if r = [] then bytesOf "/" else r
  | none => bytesOf "/"

mutual
/-- Decidable equality of JSON values. -/
def Json.Value.decEq : (x y : Json.Value) → Decidable (x = y)
  | .null, .null => isTrue rfl
  | .bool a, .bool b => if h : a = b then isTrue (by rw [h]) else isFalse (by intro e; cases e; exact h rfl)
  | .number a, .number b => if h : a = b then isTrue (by rw [h]) else isFalse (by intro e; cases e; exact h rfl)
  | .string a, .string b => if h : a = b then isTrue (by rw [h]) else isFalse (by intro e; cases e; exact h rfl)
  | .array a, .array b =>
    match Json.Value.decEqList a b with
    | isTrue h => isTrue (by rw [h])
    | isFalse h => isFalse (by intro e; cases e; exact h rfl)
  | .object a, .object b =>
    match Json.Value.decEqMembers a b with
    | isTrue h => isTrue (by rw [h])
    | isFalse h => isFalse (by intro e; cases e; exact h rfl)
  | .null, .bool _ | .null, .number _ | .null, .string _ | .null, .array _ | .null, .object _
  | .bool _, .null | .bool _, .number _ | .bool _, .string _ | .bool _, .array _ | .bool _, .object _
  | .number _, .null | .number _, .bool _ | .number _, .string _ | .number _, .array _ | .number _, .object _
  | .string _, .null | .string _, .bool _ | .string _, .number _ | .string _, .array _ | .string _, .object _
  | .array _, .null | .array _, .bool _ | .array _, .number _ | .array _, .string _ | .array _, .object _
  | .object _, .null | .object _, .bool _ | .object _, .number _ | .object _, .string _ | .object _, .array _ =>
    isFalse (by intro e; cases e)
/-- Decidable equality of lists of JSON values. -/
def Json.Value.decEqList : (x y : List Json.Value) → Decidable (x = y)
  | [], [] => isTrue rfl
  | a :: as, b :: bs =>
    match Json.Value.decEq a b, Json.Value.decEqList as bs with
    | isTrue h1, isTrue h2 => isTrue (by rw [h1, h2])
    | isFalse h1, _ => isFalse (by intro e; cases e; exact h1 rfl)
    | _, isFalse h2 => isFalse (by intro e; cases e; exact h2 rfl)
  | [], _ :: _ => isFalse (by intro e; cases e)
  | _ :: _, [] => isFalse (by intro e; cases e)
/-- Decidable equality of member lists. -/
def Json.Value.decEqMembers : (x y : List (Bytes × Json.Value)) → Decidable (x = y)
  | [], [] => isTrue rfl
  | (k, a) :: as, (l, b) :: bs =>
    if hk : k = l then
      match Json.Value.decEq a b, Json.Value.decEqMembers as bs with
      | isTrue h1, isTrue h2 => isTrue (by rw [hk, h1, h2])
      | isFalse h1, _ => isFalse (by intro e; cases e; exact h1 rfl)
      | _, isFalse h2 => isFalse (by intro e; cases e; exact h2 rfl)
    else isFalse (by intro e; cases e; exact hk rfl)
  | [], _ :: _ => isFalse (by intro e; cases e)
  | _ :: _, [] => isFalse (by intro e; cases e)
end

/-- Equality of JSON values is decidable. -/
instance instDecidableEqJsonValue : DecidableEq Json.Value := Json.Value.decEq

/-- The string a Go string becomes when it is encoded as JSON and decoded
again: every byte that is not part of a valid UTF-8 sequence is replaced by
U+FFFD. -/
def coerceUtf8 (s : Bytes) : Bytes := (Utf8.runes s).flatMap (fun p => Utf8.EncodeRune p.1)

/-- A rune together with the bytes it was decoded from: an ASCII byte, a byte
that is no valid UTF-8 and reads as U+FFFD, or a valid sequence of several
bytes. -/
def RuneOk (r : Nat) (bs : Bytes) : Prop :=
  (∃ b : Byte, bs = [b] ∧ b.val < 0x80 ∧ r = b.val) ∨
  (∃ b : Byte, bs = [b] ∧ 0x80 ≤ b.val ∧ r = Utf8.RuneError) ∨
  (2 ≤ bs.length ∧ (∃ b t, bs = b :: t ∧ 0x80 ≤ b.val) ∧ Utf8.EncodeRune r = bs ∧
    ∀ t, Utf8.DecodeRune (bs ++ t) = (r, bs.length))

/-- The bytes of a list of six-bit values, group by group: what the decoding
loop computes once the characters are mapped to their values. -/
def unpack : List Nat → Option Bytes
  | s0 :: s1 :: s2 :: s3 :: rest =>
    (unpack rest).map (fun r =>
      byte ((s0 * 262144 + s1 * 4096 + s2 * 64 + s3) / 65536) ::
      byte ((s0 * 262144 + s1 * 4096 + s2 * 64 + s3) / 256) ::
      byte (s0 * 262144 + s1 * 4096 + s2 * 64 + s3) :: r)
  | [s0, s1, s2] =>
    some [byte ((s0 * 262144 + s1 * 4096 + s2 * 64) / 65536),
      byte ((s0 * 262144 + s1 * 4096 + s2 * 64) / 256)]
  | [s0, s1] => some [byte ((s0 * 262144 + s1 * 4096) / 65536)]
  | [_] => none
  | [] => some []

/-- The divisor that removes the unused low bits of the last six-bit value of
a text of `n` characters: two bits when the last group has three characters,
four bits when it has two. -/
def slack (n : Nat) : Nat := if n % 4 = 3 then 4 else if n % 4 = 2 then 16 else 1

/-- The six-bit value of a character, 0 for a byte outside the alphabet. -/
def sextetOf (c : Byte) : Nat := (Base64.decodeSextet c).getD 0

/-- The payload segment of the token `createState` makes. -/
def payloadSegment (redirectURL nonce : Bytes) (t0 : Time) : Bytes :=
  Base64.EncodeToString (Json.marshalState redirectURL (GoTime.unixSeconds t0) nonce)

/-- The signature segment of the token `createState` makes. -/
def signatureSegment (a : OIDCAuthenticator) (redirectURL nonce : Bytes) (t0 : Time) : Bytes :=
  Base64.EncodeToString
    (Hmac.Sum a.stateSecret (Json.marshalState redirectURL (GoTime.unixSeconds t0) nonce))

/-- The token `createState` makes, with the character at position `i` of its
signature segment replaced by `c`. -/
def alteredState (a : OIDCAuthenticator) (redirectURL nonce : Bytes) (t0 : Time) (i : Nat)
    (c : Byte) : Bytes :=
  payloadSegment redirectURL nonce t0 ++ 0x2E :: (signatureSegment a redirectURL nonce t0).set i c

/-- The event is a call of the provider or of the backend. -/
def Event.isUpstreamCall : Event → Bool
  | .exchange _ | .verify _ | .provisionUser _ | .login _ _ => true
  | _ => false

/-- The event is a call of `ProvisionUser` or of `Login`. -/
def Event.isBackendCall : Event → Bool
  | .provisionUser _ | .login _ _ => true
  | _ => false

/-- The event adds a `Set-Cookie` header or writes the redirect. -/
def Event.isResponseWrite : Event → Bool
  | .setCookie _ | .redirect _ => true
  | _ => false

/-- The attributes of a Set-Cookie value: its pieces between the `;`, each
without the white space around it; the first is the `name=value` pair. -/
def attributesOf (s : Bytes) : List Bytes := (Strings.Split s 0x3B).map Strings.TrimSpace

/-- The attribute is a Domain attribute: in lower case it starts with
`domain=`, the test of the loop of `rewriteSetCookieDomain`. -/
def isDomainAttr (caseTable : Nat → Nat) (k : Bytes) : Bool :=
  Strings.HasPrefix (Strings.ToLowerRunes caseTable k) (bytesOf "domain=")

/-- The attribute is a SameSite attribute: in lower case it starts with
`samesite=`, the test of `hasSameSiteAttr`. -/
def isSameSiteAttr (caseTable : Nat → Nat) (k : Bytes) : Bool :=
  Strings.HasPrefix (Strings.ToLowerRunes caseTable k) (bytesOf "samesite=")

/-- The attribute is the Secure attribute: in lower case it is `secure`, the
test of `containsAttr` for `Secure`. -/
def isSecureAttr (caseTable : Nat → Nat) (k : Bytes) : Bool :=
  Strings.ToLowerRunes caseTable k = Strings.ToLowerRunes caseTable (bytesOf "Secure")

/-- What the loop of `rewriteSetCookieDomain` appends for the attribute `k`. -/
def replaceDomain (caseTable : Nat → Nat) (host k : Bytes) : Bytes :=
  if isDomainAttr caseTable k then bytesOf "Domain=" ++ host else k

/-- The slice `out` that `rewriteSetCookieDomain` joins at its end. -/
def rewrittenAttrs (caseTable : Nat → Nat) (sc host : Bytes) (secure : Bool) : List Bytes :=
  let out := (attributesOf sc).map (replaceDomain caseTable host)
  let out := if secure && !containsAttr caseTable out (bytesOf "Secure") then
    out ++ [bytesOf "Secure"] else out
  if !hasSameSiteAttr caseTable out then out ++ [bytesOf "SameSite=Lax"] else out

/-- The attributes `rewriteSetCookieDomain` appends to a cookie with the
attributes `attrs`: `Secure` when the flag is set and no attribute is the
Secure attribute, then `SameSite=Lax` when no attribute is a SameSite
attribute. -/
def appendedAttrs (caseTable : Nat → Nat) (attrs : List Bytes) (secure : Bool) : List Bytes :=
  (if secure && !attrs.any (isSecureAttr caseTable) then [bytesOf "Secure"] else []) ++
  (if !attrs.any (isSameSiteAttr caseTable) then [bytesOf "SameSite=Lax"] else [])

/-- The request is an admin login. -/
def Sent.isLogin (s : Sent) : Bool :=
  match s.purpose with
  | .adminLogin => true
  | .call => false

/-- The request is a call of `doJSON`. -/
def Sent.isCall (s : Sent) : Bool :=
  match s.purpose with
  | .adminLogin => false
  | .call => true

/-- The cached credential is accepted at the next reading of the clock: it is
not empty and the reading is before its expiry. -/
def cacheValid (env : Env) (m : ClientOIDC) (w : World) : Prop :=
  m.AdminSession ≠ [] ∧ env.Now w.clockReads < m.AdminSessionExp

/-- The admin login answered by `resp` succeeds with the credential `id`: the
status is 200 and the body decodes to the non-empty `id`. -/
def loginGives (env : Env) (resp : Option Response) (id : Bytes) : Prop :=
  ∃ r, resp = some r ∧ r.StatusCode = 200 ∧ env.Decode r.Body = some id ∧ id ≠ []

/-- The admin login answered by `resp` fails: an error of the transport, a
status other than 200, a body that does not decode, or an empty credential. -/
def loginFails (env : Env) (resp : Option Response) : Prop :=
  resp = none ∨
    ∃ r, resp = some r ∧
      (r.StatusCode ≠ 200 ∨ env.Decode r.Body = none ∨ env.Decode r.Body = some [])

/-- The number of the clock reading that `ensureAdmin` takes after a login:
the test of a cached credential that is not empty has taken one before. -/
def readsBeforeStore (m : ClientOIDC) (w : World) : Nat :=
  if m.AdminSession ≠ [] then w.clockReads + 1 else w.clockReads

/-- The number of admin logins among the requests sent. -/
def loginCount (w : World) : Nat := w.sent.countP Sent.isLogin

/-- An adapter with `n` callers that are about to call `ensureAdmin`. -/
def initialAdapter (m : ClientOIDC) (w : World) (n : Nat) : Adapter :=
  { client := m, world := w, holder := none, callers := List.replicate n .start }

/-- The caller has returned from `ensureAdmin`. -/
def CallerState.hasReturned : CallerState → Bool
  | .finished _ => true
  | _ => false

/-- Every admin login of the client `m` gives a credential, whatever the
upstream has received before. -/
def loginSucceeds (k : Backend) (env : Env) (m : ClientOIDC) : Prop :=
  ∀ hist, ∃ id, loginGives env (env.Do hist (loginRequest k env m)) id

/-- What holds of an adapter whose callers of `ensureAdmin` started on an
empty cache of the client `m` in the world `w`: the login request is the one
of `m`; the caller between `Lock()` and `Unlock()` is the holder of the mutex;
every caller that has returned has returned the nil error; and either the
cache is empty, no login has been sent and no caller has returned, or the
cache holds a credential that expires eight hours after a reading of the clock
and one login has been sent. -/
def singleRefresh (k : Backend) (env : Env) (m : ClientOIDC) (w : World) (s : Adapter) : Prop :=
  loginRequest k env s.client = loginRequest k env m ∧
  (∀ i, s.callers.get? i = some .locked ↔ s.holder = some i) ∧
  (∀ i r, s.callers.get? i = some (.finished r) → r = .ok ()) ∧
  ((s.client.AdminSession = [] ∧ loginCount s.world = loginCount w ∧
      ∀ i c, s.callers.get? i = some c → c.hasReturned = false) ∨
    (s.client.AdminSession ≠ [] ∧
      (∃ j, s.client.AdminSessionExp = env.Now j + 8 * GoTime.Hour) ∧
      loginCount s.world = loginCount w + 1))

/-! ## Values used in the examples -/

/-- An authenticator with the secret `s3cret`, a TTL of ten minutes and no
allow-list. -/
def exampleAuth : OIDCAuthenticator :=
  { stateSecret := bytesOf "s3cret", stateTTL := 600 * GoTime.Second,
    allowedDomains := [], allowedEmails := [] }

/-- A configuration that allows the domains `B.com` and `c.org`. -/
def exampleConfig : Config :=
  { StateSecret := bytesOf "s3cret", StateTTL := 600 * GoTime.Second,
    AllowedDomains := [bytesOf "B.com", bytesOf "c.org"], AllowedEmails := [] }

/-- A reading of the clock: 14 November 2023, 22:13:20.9 UTC. -/
def exampleNow : Time := 1700000000900000000

/-- The instant exactly ten minutes after `exampleNow`. -/
def exampleTenMinutesLater : Time := 1700000600900000000

/-- A nonce as `uuid.New().String()` writes it. -/
def exampleNonce : Bytes := bytesOf "123e4567-e89b-42d3-a456-426614174000"

/-- A destination with characters that the JSON encoder escapes. -/
def exampleRedirect : Bytes := bytesOf "/dash?x=1&y=<2>"

/-- A payload with a destination and a timestamp within the TTL of
`exampleNow`. -/
def examplePayload : Bytes := bytesOf "\x7b\"redirect\":\"/a\",\"ts\":1700000000\x7d"

/-- A payload with a destination and no timestamp. -/
def exampleUnstamped : Bytes := bytesOf "\x7b\"redirect\":\"/a\"\x7d"

/-- A payload with a timestamp within the TTL of `exampleNow` and an empty
destination. -/
def exampleNoDestination : Bytes := bytesOf "\x7b\"redirect\":\"\",\"ts\":1700000000\x7d"

/-- A verifier that accepts every raw ID token and reads from it the claims
`sub`, `email` and the three name claims given. -/
def exampleVerify (name givenName familyName : Bytes) : Bytes → Option IDToken :=
  fun _ => some ⟨some ⟨bytesOf "sub-1", bytesOf "a@b.com", name, familyName, givenName, []⟩⟩

/-- A configuration whose only allowed email is `a@b.com`. -/
def exampleEmailConfig : Config :=
  { StateSecret := bytesOf "s3cret", StateTTL := 600 * GoTime.Second,
    AllowedDomains := [], AllowedEmails := [bytesOf "a@b.com"] }

/-- A configuration whose only allowed email is written `A@B.com`. -/
def exampleMixedCaseConfig : Config :=
  { StateSecret := bytesOf "s3cret", StateTTL := 600 * GoTime.Second,
    AllowedDomains := [], AllowedEmails := [bytesOf "A@B.com"] }

/-- An authenticator with the secret `s3cret`, a TTL of ten minutes and the
allowed domain `b.com`. -/
def exampleDomainAuth : OIDCAuthenticator :=
  { stateSecret := bytesOf "s3cret", stateTTL := 600 * GoTime.Second,
    allowedDomains := [bytesOf "b.com"], allowedEmails := [] }

/-- A provider that hands out an ID token with the claims `sub`, `email` and
`name`, and a backend that provisions every user as user `7` and logs it in
with one session cookie. -/
def exampleCollaborators (email : Bytes) : Collaborators :=
  { exchange := fun _ => some (some (bytesOf "raw-id-token")),
    verify := fun _ => some ⟨some ⟨bytesOf "sub-1", email, bytesOf "Ann Lee", [], [], []⟩⟩,
    provisionUser := fun _ => some (bytesOf "7"),
    login := fun _ _ => some [bytesOf "sid=abc; Domain=old.internal; Path=/"] }

/-- A callback request that carries the state made by `createState` at
`exampleNow` for the destination `exampleRedirect`. -/
def exampleCallback : CallbackRequest :=
  { state := createState exampleAuth exampleNow exampleNonce exampleRedirect,
    code := bytesOf "code-1", Host := bytesOf "app.example.com" }

/-- A callback request whose state has the payload of another destination in
front of the signature made for `exampleRedirect`. -/
def exampleTamperedCallback : CallbackRequest :=
  { state := payloadSegment (bytesOf "/other") exampleNonce exampleNow ++
      0x2E :: signatureSegment exampleAuth exampleRedirect exampleNonce exampleNow,
    code := bytesOf "code-1", Host := bytesOf "app.example.com" }

/-- A decoder for the examples: the string member `id` of a JSON object, the
empty string when the member is absent or null, an error for any other
body. -/
def exampleDecode (body : Bytes) : Option Bytes :=
  match Json.Unmarshal body with
  | none => none
  | some o =>
    match Json.lookup (bytesOf "id") o with
    | some (.string s) => some s
    | some .null => some []
    | none => some []
    | _ => none

/-- A Metabase client whose cache holds the credential `old`, good until one
hour after `exampleNow`. -/
def exampleClient : ClientOIDC :=
  { BaseURL := bytesOf "http://metabase:3000", AdminEmail := bytesOf "admin@b.com",
    AdminPassword := bytesOf "pw", AdminSession := bytesOf "old",
    AdminSessionExp := exampleNow + GoTime.Hour }

/-- The same client with an empty cache. -/
def exampleEmptyClient : ClientOIDC :=
  { exampleClient with AdminSession := [], AdminSessionExp := GoTime.zeroTime }

/-- A world in which nothing has happened yet. -/
def exampleWorld : World := { sent := [], clockReads := 0 }

/-- Surroundings in which every admin login is answered with the credential
`new`, a call that carries the credential `new` is answered 200 with its own
body, and every other call is answered 401; the clock stands at
`exampleNow`. -/
def exampleEnv : Env :=
  { Do := fun _ req =>
      if req.Header.length = 1 then some ⟨200, bytesOf "\x7b\"id\":\"new\"\x7d"⟩
      else if (bytesOf "X-Metabase-Session", bytesOf "new") ∈ req.Header then
        some ⟨200, req.Body⟩
      else some ⟨401, bytesOf "Unauthenticated"⟩,
    Now := fun _ => exampleNow,
    Decode := exampleDecode,
    ResolveReference := fun base ref => base ++ ref }

/-- Surroundings in which every admin login is answered with the credential
`new` and every call is answered 401. -/
def exampleRejectingEnv : Env :=
  { exampleEnv with
    Do := fun _ req =>
      if req.Header.length = 1 then some ⟨200, bytesOf "\x7b\"id\":\"new\"\x7d"⟩
      else some ⟨401, bytesOf "Unauthenticated"⟩ }

/-- Surroundings in which no request gets through and the clock stands two
hours after `exampleNow`. -/
def exampleDownEnv : Env :=
  { exampleEnv with Do := fun _ _ => none, Now := fun _ => exampleNow + 2 * GoTime.Hour }

/-- The JSON body of a call that creates a user. -/
def exampleBody : Bytes := bytesOf "\x7b\"email\":\"ann@b.com\"\x7d"

/-- An environment with every required variable set and `TYPE` unset. -/
def exampleEnviron (key : Bytes) : Bytes :=
  ([(bytesOf "EXTERNAL_URL", bytesOf "https://bi.example.com"),
    (bytesOf "PROXY_URL", bytesOf "http://metabase:3000"),
    (bytesOf "OIDC_ISSUER", bytesOf "https://idp.example.com"),
    (bytesOf "OIDC_CLIENT_ID", bytesOf "proxy"),
    (bytesOf "OIDC_CLIENT_SECRET", bytesOf "client-secret"),
    (bytesOf "OIDC_PATH", bytesOf "sso"),
    (bytesOf "STATE_SECRET", bytesOf "s3cret")].lookup key).getD []

/-- The same environment with `TYPE=plane` and a DSN. -/
def examplePlaneEnviron (key : Bytes) : Bytes :=
  if key = bytesOf "TYPE" then bytesOf "plane"
  else if key = bytesOf "PLANE_DSN" then bytesOf "postgres://plane" else exampleEnviron key

/-- The configuration `loadConfig` makes of `exampleEnviron`. -/
def exampleMainConfig : Main.Config :=
  { ExternalURL := bytesOf "https://bi.example.com", BackendType := [],
    ProxyURL := bytesOf "http://metabase:3000", MetabaseAdminEmail := [],
    MetabaseAdminPassword := [], MetabaseSessionCookieName := bytesOf "metabase.SESSION",
    NocodbAdminEmail := [], NocodbAdminPassword := [], PlaneDSN := [],
    OIDCIssuer := bytesOf "https://idp.example.com", OIDCClientID := bytesOf "proxy",
    OIDCClientSecret := bytesOf "client-secret", OIDCPath := bytesOf "/sso/",
    OIDCScope := [bytesOf "openid", bytesOf "email", bytesOf "profile"],
    StateSecret := bytesOf "s3cret", StateTTL := 600 * GoTime.Second, SecureCookies := true,
    AllowedEmailDomains := [], ProxyRewriteLocationHeader := true }

/-- A stand-in for `url.JoinPath` that puts the elements behind the base
without looking at them. -/
def exampleJoinPath (base : Bytes) (elem : List Bytes) : Option Bytes :=
  some (base ++ elem.foldl (fun acc e => acc ++ e) [])

/-- A random source whose cryptographic source writes the bytes 0, 1, 2 and so
on. -/
def exampleRandom : RandomSource :=
  { cryptoRead := some (fun i => byte i), Intn := fun _ _ => 0, Intn_lt := fun _ _ h => h }

/-- The user of the examples. -/
def exampleUser : UserData :=
  { Email := bytesOf "ann@b.com", FirstName := bytesOf "Ann", LastName := bytesOf "Lee",
    Subject := bytesOf "sub-1" }

/-- Decoders for the NocoDB examples: every user body decodes to the user
`u-1`, every list to the empty list, and strings are compared as they are. -/
def exampleNocodbCodec : Nocodb.Codec :=
  { DecodeUsers := fun _ => some [],
    DecodeUser := fun _ => some ⟨bytesOf "u-1", bytesOf "ann@b.com", [], [], []⟩,
    DecodeResetToken := fun _ => none,
    EqualFold := fun a b => a = b,
    SetCookie := fun _ => [] }

/-- Decoders for the Metabase examples, of the same kind. -/
def exampleMetabaseCodec : Metabase.Codec :=
  { DecodeUsers := fun _ => some [],
    DecodeUser := fun _ => some ⟨7, bytesOf "ann@b.com", bytesOf "Ann", bytesOf "Lee", true⟩,
    EqualFold := fun a b => a = b,
    SetCookie := fun _ => [] }

/-- Surroundings in which every GET is answered 500 with the body `boom` and
every other request 200; the clock stands at `exampleNow`. -/
def exampleLookupDownEnv : Env :=
  { exampleEnv with
    Do := fun _ req =>
      if req.Method = bytesOf "GET" then some ⟨500, bytesOf "boom"⟩
      else some ⟨200, bytesOf "\x7b\"id\":\"u-1\"\x7d"⟩ }

/-- Surroundings in which no GET gets through and every other request is
answered 200. -/
def exampleLookupCutEnv : Env :=
  { exampleEnv with
    Do := fun _ req =>
      if req.Method = bytesOf "GET" then none
      else some ⟨200, bytesOf "\x7b\"id\":\"u-1\"\x7d"⟩ }

/-- Surroundings of the Plane backend in which the CSRF request is answered
500 with the body `body`. -/
def examplePlaneEnv (body : Bytes) : Plane.PlaneEnv :=
  { Do := fun _ _ => .ok ⟨500, body⟩,
    DecodeCsrf := fun _ => .ok (bytesOf "csrf"),
    FormEncode := fun _ => [],
    SetCookie := fun _ => [],
    createOrUpdateUser := fun _ _ _ _ => none }

/-- Surroundings of the Plane backend in which no request gets through, the
error of the transport being `text`. -/
def examplePlaneCutEnv (text : Bytes) : Plane.PlaneEnv :=
  { examplePlaneEnv [] with Do := fun _ _ => .error text }

/-! # Theorems -/

open Utf8 Json Strconv Base64

/-! ## The library models on known values -/

/-- SHA-256 of `abc` (FIPS 180-4, first example). -/
theorem Sum256_abc :
    Sha256.Sum256 (bytesOf "abc") =
      [0xba, 0x78, 0x16, 0xbf, 0x8f, 0x01, 0xcf, 0xea, 0x41, 0x41, 0x40, 0xde, 0x5d, 0xae, 0x22,
       0x23, 0xb0, 0x03, 0x61, 0xa3, 0x96, 0x17, 0x7a, 0x9c, 0xb4, 0x10, 0xff, 0x61, 0xf2, 0x00,
       0x15, 0xad] := by
  decide!

/-- HMAC-SHA256 of RFC 4231, test case 2. -/
theorem Hmac_Sum_rfc4231 :
    Hmac.Sum (bytesOf "Jefe") (bytesOf "what do ya want for nothing?") =
      [0x5b, 0xdc, 0xc1, 0x46, 0xbf, 0x60, 0x75, 0x4e, 0x6a, 0x04, 0x24, 0x26, 0x08, 0x95, 0x75,
       0xc7, 0x5a, 0x00, 0x3f, 0x08, 0x9d, 0x27, 0x39, 0x83, 0x9d, 0xec, 0x58, 0xb9, 0x64, 0xec,
       0x38, 0x43] := by
  decide!

/-- The payload `createState` signs for the example values. -/
theorem marshalState_example :
    marshalState exampleRedirect (GoTime.unixSeconds exampleNow) exampleNonce =
      bytesOf ("\x7b\"nonce\":\"123e4567-e89b-42d3-a456-426614174000\"," ++
        "\"redirect\":\"/dash?x=1\\u0026y=\\u003c2\\u003e\",\"ts\":1700000000\x7d") := by
  decide!

/-- The token `createState` returns for the example values. -/
theorem createState_example :
    createState exampleAuth exampleNow exampleNonce exampleRedirect =
      bytesOf ("eyJub25jZSI6IjEyM2U0NTY3LWU4OWItNDJkMy1hNDU2LTQyNjYxNDE3NDAwMCIsInJlZGlyZWN0Ijoi" ++
        "L2Rhc2g_eD0xXHUwMDI2eT1cdTAwM2MyXHUwMDNlIiwidHMiOjE3MDAwMDAwMDB9." ++
        "Ncn2dWQ0QBUhDA27IEjajciNUoKpKhD_QZficljXvt0") := by
  decide!

/-- The float64 nearest to the decimal 0.1 and the largest float64; the next
decimal above the largest float64 is out of range. -/
theorem ParseFloat_examples :
    ParseFloat false 1 (-1) = some ⟨false, 7205759403792794, -56⟩ ∧
    ParseFloat false 17976931348623157 292 = some ⟨false, 9007199254740991, 971⟩ ∧
    ParseFloat false 17976931348623159 292 = none := by
  decide!

/-- The decoder on a text with escapes, a surrogate pair, nested values and a
repeated key. -/
theorem decode_example :
    decode (bytesOf "\x7b\"a\": [1, true, null, \"x\\u0041\\ud83d\\ude00\"], \"a\": \"b\"\x7d") =
      some (.object [(bytesOf "a", .array [.number ⟨false, 4503599627370496, -52⟩, .bool true,
        .null, .string (bytesOf "xA😀")]), (bytesOf "a", .string (bytesOf "b"))]) := by
  decide!

/-! ## Facts about strings.Split -/

theorem Split_ne_nil (s : Bytes) (sep : Byte) : Strings.Split s sep ≠ [] := by
  induction s with
  | nil => simp [Strings.Split]
  | cons c cs ih =>
    unfold Strings.Split
    split
    · simp
    · split <;> simp

theorem Split_no_sep (s : Bytes) (sep : Byte) (h : sep ∉ s) : Strings.Split s sep = [s] := by
  induction s with
  | nil => simp [Strings.Split]
  | cons c cs ih =>
    have hc : c ≠ sep := fun e => h (by simp [e])
    have hcs : sep ∉ cs := fun e => h (by simp [e])
    simp [Strings.Split, hc, ih hcs]

theorem Split_append (s t : Bytes) (sep : Byte) (h : sep ∉ s) :
    Strings.Split (s ++ sep :: t) sep = s :: Strings.Split t sep := by
  induction s with
  | nil => simp [Strings.Split]
  | cons c cs ih =>
    have hc : c ≠ sep := fun e => h (by simp [e])
    have hcs : sep ∉ cs := fun e => h (by simp [e])
    simp [Strings.Split, hc, ih hcs]

theorem Split_two (s t : Bytes) (sep : Byte) (hs : sep ∉ s) (ht : sep ∉ t) :
    Strings.Split (s ++ sep :: t) sep = [s, t] := by
  rw [Split_append s t sep hs, Split_no_sep t sep ht]

/-- The pieces of a split contain no separator and give the string back when
joined by it. -/
theorem Split_spec (s : Bytes) (sep : Byte) :
    (∀ p ∈ Strings.Split s sep, sep ∉ p) ∧ Strings.Join (Strings.Split s sep) [sep] = s := by
  induction s with
  | nil => simp [Strings.Split, Strings.Join]
  | cons c cs ih =>
    obtain ⟨ih1, ih2⟩ := ih
    unfold Strings.Split
    split
    · next h =>
      subst h
      constructor
      · intro p hp
        simp at hp
        rcases hp with rfl | hp
        · simp
        · exact ih1 p hp
      · have hne := Split_ne_nil cs c
        cases hsp : Strings.Split cs c with
        | nil => exact absurd hsp hne
        | cons q qs =>
          rw [hsp] at ih2
          simp [Strings.Join, ih2]
    · next h =>
      split
      · next hsp => exact absurd hsp (Split_ne_nil cs sep)
      · next q qs hsp =>
        rw [hsp] at ih1 ih2
        constructor
        · intro p hp
          simp at hp
          rcases hp with rfl | hp
          · have := ih1 q (by simp)
            simp
            exact ⟨fun e => h e.symm, this⟩
          · exact ih1 p (by simp [hp])
        · cases qs with
          | nil => simp [Strings.Join] at ih2 ⊢; exact ih2
          | cons q2 qs2 => simp [Strings.Join] at ih2 ⊢; exact ih2

theorem Split_eq_two (s p0 p1 : Bytes) (sep : Byte) (h : Strings.Split s sep = [p0, p1]) :
    s = p0 ++ sep :: p1 ∧ sep ∉ p0 ∧ sep ∉ p1 := by
  have := Split_spec s sep
  rw [h] at this
  obtain ⟨h1, h2⟩ := this
  refine ⟨?_, h1 p0 (by simp), h1 p1 (by simp)⟩
  simp [Strings.Join] at h2
  exact h2.symm

/-! ## Facts about encoding/base64 -/

theorem byte_val (n : Nat) : (byte n).val = n % 256 := rfl

theorem byte_self (b : Byte) : byte b.val = b := by
  apply Fin.ext; simp [byte_val]

theorem decodeSextet_lt (c : Byte) (v : Nat) (h : decodeSextet c = some v) : v < 64 := by
  unfold decodeSextet at h
  split_ifs at h <;> simp at h <;> omega

theorem decodeSextet_encodeSextet (n : Nat) (h : n < 64) :
    decodeSextet (encodeSextet n) = some n := by
  unfold encodeSextet
  split_ifs with h1 h2 h3 h4
  · simp only [decodeSextet, byte_val]
    split_ifs <;> first | omega | (simp; omega)
  · simp only [decodeSextet, byte_val]
    split_ifs <;> first | omega | (simp; omega)
  · simp only [decodeSextet, byte_val]
    split_ifs <;> first | omega | (simp; omega)
  · subst h4; decide
  · have : n = 63 := by omega
    subst this; decide

theorem encodeSextet_decodeSextet (c : Byte) (v : Nat) (h : decodeSextet c = some v) :
    encodeSextet v = c := by
  unfold decodeSextet at h
  split_ifs at h with h1 h2 h3 h4 h5 <;> simp at h <;> subst h <;> apply Fin.ext <;>
    simp only [encodeSextet] <;> split_ifs <;>
    first | omega | rfl | (simp only [byte_val]; omega)

/-- Every character written by the encoder belongs to the alphabet. -/
theorem EncodeToString_alphabet (bs : Bytes) :
    ∀ c ∈ EncodeToString bs, ∃ v, decodeSextet c = some v := by
  induction bs using EncodeToString.induct with
  | case1 b0 b1 b2 rest ih =>
    intro c hc
    simp only [EncodeToString, List.mem_cons] at hc
    rcases hc with rfl | rfl | rfl | rfl | hc
    · exact ⟨_, decodeSextet_encodeSextet _ (by omega)⟩
    · exact ⟨_, decodeSextet_encodeSextet _ (by omega)⟩
    · exact ⟨_, decodeSextet_encodeSextet _ (by omega)⟩
    · exact ⟨_, decodeSextet_encodeSextet _ (by omega)⟩
    · exact ih c hc
  | case2 b0 b1 =>
    intro c hc
    simp only [EncodeToString, List.mem_cons, List.mem_singleton] at hc
    rcases hc with rfl | rfl | rfl | hc
    · exact ⟨_, decodeSextet_encodeSextet _ (by omega)⟩
    · exact ⟨_, decodeSextet_encodeSextet _ (by omega)⟩
    · exact ⟨_, decodeSextet_encodeSextet _ (by omega)⟩
    · simp at hc
  | case3 b0 =>
    intro c hc
    simp only [EncodeToString, List.mem_cons, List.mem_singleton] at hc
    rcases hc with rfl | rfl | hc
    · exact ⟨_, decodeSextet_encodeSextet _ (by omega)⟩
    · exact ⟨_, decodeSextet_encodeSextet _ (by omega)⟩
    · simp at hc
  | case4 => simp [EncodeToString]

/-- A character of the alphabet is not the separator. -/
theorem alphabet_ne_dot (c : Byte) (v : Nat) (h : decodeSextet c = some v) : c ≠ 0x2E := by
  rintro rfl
  have hn : decodeSextet 0x2E = none := by decide
  rw [hn] at h
  cases h

theorem dot_not_mem_EncodeToString (bs : Bytes) : (0x2E : Byte) ∉ EncodeToString bs := by
  intro h
  obtain ⟨v, hv⟩ := EncodeToString_alphabet bs _ h
  exact alphabet_ne_dot _ v hv rfl

/-- Decoding inverts encoding. -/
theorem DecodeString_EncodeToString (bs : Bytes) :
    DecodeString (EncodeToString bs) = some bs := by
  unfold DecodeString
  induction bs using EncodeToString.induct with
  | case1 b0 b1 b2 rest ih =>
    simp only [EncodeToString, decodeLoop]
    rw [decodeSextet_encodeSextet _ (by omega)]
    simp only [List.length_nil, List.nil_append, decodeLoop]
    rw [decodeSextet_encodeSextet _ (by omega)]
    simp only [List.length_cons, List.length_nil, List.cons_append, List.nil_append, decodeLoop]
    rw [decodeSextet_encodeSextet _ (by omega)]
    simp only [List.length_cons, List.length_nil, List.cons_append, List.nil_append, decodeLoop]
    rw [decodeSextet_encodeSextet _ (by omega), ih]
    simp only [List.length_cons, List.length_nil, List.cons_append, List.nil_append,
      quantumBytes]
    simp
    refine ⟨?_, ?_, ?_⟩ <;> apply Fin.ext <;> simp only [byte_val] <;> omega
  | case2 b0 b1 =>
    simp only [EncodeToString, decodeLoop]
    rw [decodeSextet_encodeSextet _ (by omega)]
    simp only [List.length_nil, List.nil_append, decodeLoop]
    rw [decodeSextet_encodeSextet _ (by omega)]
    simp only [List.length_cons, List.length_nil, List.cons_append, List.nil_append, decodeLoop]
    rw [decodeSextet_encodeSextet _ (by omega)]
    simp only [List.length_cons, List.length_nil, List.cons_append, List.nil_append,
      decodeLoop, quantumBytes]
    simp
    refine ⟨?_, ?_⟩ <;> apply Fin.ext <;> simp only [byte_val] <;> omega
  | case3 b0 =>
    simp only [EncodeToString, decodeLoop]
    rw [decodeSextet_encodeSextet _ (by omega)]
    simp only [List.length_nil, List.nil_append, decodeLoop]
    rw [decodeSextet_encodeSextet _ (by omega)]
    simp only [List.length_cons, List.length_nil, List.cons_append, List.nil_append,
      decodeLoop, quantumBytes]
    simp
    apply Fin.ext; simp only [byte_val]; omega
  | case4 => simp [EncodeToString, decodeLoop, quantumBytes]

/-! ## The steps of validateState -/

theorem bytesOf_dot : bytesOf "." = [(0x2E : Byte)] := by decide

/-- A segment that decodes holds no separator. -/
theorem decodeLoop_no_dot (cs : Bytes) : ∀ (buf : List Nat) (r : Bytes),
    decodeLoop cs buf = some r → (0x2E : Byte) ∉ cs := by
  induction cs with
  | nil => intro buf r _; simp
  | cons c cs ih =>
    intro buf r h
    have hc : c ≠ 0x2E := by
      rintro rfl
      have hn : decodeSextet 0x2E = none := by decide
      simp [decodeLoop, hn] at h
      exact absurd h.1 (by decide)
    have hcs : (0x2E : Byte) ∉ cs := by
      simp only [decodeLoop] at h
      split at h
      · split at h
        · split at h
          · next hq hr => exact ih _ _ hr
          · cases h
        · exact ih _ _ h
      · split at h
        · exact ih _ _ h
        · cases h
    simp only [List.mem_cons, not_or]
    exact ⟨fun e => hc e.symm, hcs⟩

theorem DecodeString_no_dot (cs r : Bytes) (h : DecodeString cs = some r) :
    (0x2E : Byte) ∉ cs := decodeLoop_no_dot cs [] r h

theorem append_sep_inj (sep : Byte) (a c b d : Bytes) (hb : sep ∉ b) (hd : sep ∉ d)
    (h : a ++ sep :: b = c ++ sep :: d) : a = c ∧ b = d := by
  induction a generalizing c with
  | nil =>
    cases c with
    | nil => simpa using h
    | cons y c' =>
      simp at h
      obtain ⟨rfl, rfl⟩ := h
      exact absurd (by simp) hb
  | cons x a' ih =>
    cases c with
    | nil =>
      simp at h
      obtain ⟨rfl, rfl⟩ := h
      exact absurd (by simp) hd
    | cons y c' =>
      simp at h
      obtain ⟨rfl, h⟩ := h
      obtain ⟨rfl, rfl⟩ := ih c' h
      exact ⟨rfl, rfl⟩

/-- The state is accepted only after the format, encoding and signature
checks; what is left then depends on the payload alone. -/
theorem validateState_ok_inv (a : OIDCAuthenticator) (now : Time) (rawState r : Bytes)
    (h : validateState a now rawState = .ok r) :
    ∃ p0 p1 p, Strings.Split rawState 0x2E = [p0, p1] ∧ DecodeString p0 = some p ∧
      DecodeString p1 = some (Hmac.Sum a.stateSecret p) ∧ payloadResult a now p = .ok r := by
  unfold validateState at h
  split at h
  · next p0 p1 hsplit =>
    split at h
    · cases h
    · next p hp =>
      split at h
      · cases h
      · next s hs =>
        simp only at h
        split at h
        · cases h
        · next hsig =>
          simp only [ne_eq, Decidable.not_not] at hsig
          exact ⟨p0, p1, p, hsplit, hp, hsig ▸ hs, h⟩
  · cases h

/-- A token whose two segments decode to a payload and to its signature gets
the result of the payload. -/
theorem validateState_segments (a : OIDCAuthenticator) (now : Time) (p0 p1 p : Bytes)
    (hp : DecodeString p0 = some p) (hs : DecodeString p1 = some (Hmac.Sum a.stateSecret p)) :
    validateState a now (p0 ++ 0x2E :: p1) = payloadResult a now p := by
  unfold validateState
  rw [Split_two p0 p1 0x2E (DecodeString_no_dot _ _ hp) (DecodeString_no_dot _ _ hs)]
  simp only [hp, hs, ne_eq, not_true_eq_false, if_false]
  rfl

/-- A payload that does not decode as JSON is refused. -/
theorem payloadResult_invalid (a : OIDCAuthenticator) (now : Time) (p : Bytes)
    (h : Json.Unmarshal p = none) : payloadResult a now p = .error .invalidStateJSON := by
  simp [payloadResult, h]

/-- A payload with a numeric `ts` older than the TTL is refused. -/
theorem payloadResult_expired (a : OIDCAuthenticator) (now : Time) (p : Bytes)
    (state : List (Bytes × Json.Value)) (ts : Float64) (h : Json.Unmarshal p = some state)
    (hts : payloadTs state = some ts)
    (hexp : GoTime.Since now (GoTime.Unix ts.toInt64) > a.stateTTL) :
    payloadResult a now p = .error .stateExpired := by
  unfold payloadTs at hts
  simp only [payloadResult, h]
  cases hl : Json.lookup (bytesOf "ts") state with
  | none => simp [hl] at hts
  | some v =>
    cases v <;> simp [hl] at hts
    subst hts
    simp [hexp]

/-- A payload whose numeric `ts`, if any, is within the TTL is accepted, with
its destination or the root path. -/
theorem payloadResult_fresh (a : OIDCAuthenticator) (now : Time) (p : Bytes)
    (state : List (Bytes × Json.Value)) (h : Json.Unmarshal p = some state)
    (hts : ∀ ts, payloadTs state = some ts →
      GoTime.Since now (GoTime.Unix ts.toInt64) ≤ a.stateTTL) :
    payloadResult a now p = .ok (redirectOrRoot state) := by
  unfold payloadTs at hts
  simp only [payloadResult, h, redirectOrRoot, payloadRedirect]
  have hred : (match Json.lookup (bytesOf "redirect") state with
      | some (.string redirect) =>
        if redirect = [] then (Except.ok (bytesOf "/") : Except StateError Bytes)
        else .ok redirect
      | _ => .ok (bytesOf "/")) =
      .ok (match (match Json.lookup (bytesOf "redirect") state with
        | some (.string r) => some r
        | _ => none) with
      | some r => if r = [] then bytesOf "/" else r
      | none => bytesOf "/") := by
    cases hr : Json.lookup (bytesOf "redirect") state with
    | none => rfl
    | some v => cases v <;> simp; split <;> simp_all
  cases hl : Json.lookup (bytesOf "ts") state with
  | none => simpa using hred
  | some v =>
    cases v
    case number f =>
      have := hts f (by simp [hl])
      simp only [gt_iff_lt, decide_eq_true_eq, not_lt.mpr this, if_false]
      exact hred
    all_goals simpa using hred

/-- An accepted payload decodes, is fresh, and yields its destination or the
root path. -/
theorem payloadResult_ok_inv (a : OIDCAuthenticator) (now : Time) (p r : Bytes)
    (h : payloadResult a now p = .ok r) :
    ∃ state, Json.Unmarshal p = some state ∧
      (∀ ts, payloadTs state = some ts →
        GoTime.Since now (GoTime.Unix ts.toInt64) ≤ a.stateTTL) ∧
      r = redirectOrRoot state := by
  cases hu : Json.Unmarshal p with
  | none => rw [payloadResult_invalid a now p hu] at h; cases h
  | some state =>
    have hfresh : ∀ ts, payloadTs state = some ts →
        GoTime.Since now (GoTime.Unix ts.toInt64) ≤ a.stateTTL := by
      intro ts hts
      by_contra hc
      rw [payloadResult_expired a now p state ts hu hts (not_le.mp hc)] at h
      cases h
    rw [payloadResult_fresh a now p state hu hfresh] at h
    exact ⟨state, rfl, hfresh, by injection h with h; exact h.symm⟩

theorem validateState_signedToken (a : OIDCAuthenticator) (now : Time) (p : Bytes) :
    validateState a now (signedToken a.stateSecret p) = payloadResult a now p := by
  unfold signedToken
  rw [bytesOf_dot, List.append_assoc, List.singleton_append]
  exact validateState_segments a now _ _ p (DecodeString_EncodeToString p)
    (DecodeString_EncodeToString _)

theorem createState_eq (a : OIDCAuthenticator) (now : Time) (nonce redirectURL : Bytes) :
    createState a now nonce redirectURL =
      signedToken a.stateSecret (Json.marshalState redirectURL (GoTime.unixSeconds now) nonce) :=
  rfl

/-! ## Claims on what an accepted state guarantees -/

/-- C2. Authenticity of accepted states.  If `validateState` accepts a raw
state, the state is two segments joined by one dot, the segments decode from
base64url to a payload `p` and a signature `s`, and `s` is the HMAC-SHA256 of
`p` under the state secret.  Consequently, when a signature segment `p1` that
decodes to `s` is kept and put behind any other payload segment `p0`, the
state is refused unless `p0` decodes to a payload whose HMAC is `s`. -/
theorem C2_accepted_state_is_authentic (a : OIDCAuthenticator) (now : Time) :
    (∀ rawState r, validateState a now rawState = .ok r →
      ∃ p0 p1 p s, Strings.Split rawState 0x2E = [p0, p1] ∧ rawState = p0 ++ 0x2E :: p1 ∧
        DecodeString p0 = some p ∧ DecodeString p1 = some s ∧
        s = Hmac.Sum a.stateSecret p) ∧
    (∀ p0 p1 s, DecodeString p1 = some s →
      (∀ p, DecodeString p0 = some p → Hmac.Sum a.stateSecret p ≠ s) →
      ∃ e, validateState a now (p0 ++ 0x2E :: p1) = .error e) := by
  have part1 : ∀ rawState r, validateState a now rawState = .ok r →
      ∃ p0 p1 p s, Strings.Split rawState 0x2E = [p0, p1] ∧ rawState = p0 ++ 0x2E :: p1 ∧
        DecodeString p0 = some p ∧ DecodeString p1 = some s ∧
        s = Hmac.Sum a.stateSecret p := by
    intro rawState r h
    obtain ⟨p0, p1, p, hsplit, hp, hs, _⟩ := validateState_ok_inv a now rawState r h
    exact ⟨p0, p1, p, _, hsplit, (Split_eq_two _ _ _ _ hsplit).1, hp, hs, rfl⟩
  refine ⟨part1, ?_⟩
  intro p0 p1 s hs hmac
  cases hv : validateState a now (p0 ++ 0x2E :: p1) with
  | error e => exact ⟨e, rfl⟩
  | ok r =>
    exfalso
    obtain ⟨q0, q1, p, s', hsplit, heq, hq0, hq1, hsig⟩ := part1 _ r hv
    obtain ⟨_, _, hd1⟩ := Split_eq_two _ _ _ _ hsplit
    obtain ⟨h0, h1⟩ := append_sep_inj 0x2E p0 q0 p1 q1 (DecodeString_no_dot _ _ hs) hd1 heq
    subst h0 h1
    rw [hs] at hq1
    injection hq1 with hq1
    exact hmac p hq0 (by rw [hq1, hsig])

/-- Witness of C2: a token signed under the secret is accepted and splits as
stated; the signature segment `AAAA` behind the payload segment `!` is
refused. -/
theorem C2_accepted_state_is_authentic_witness :
    (∃ p0 p1 p s,
      Strings.Split (signedToken exampleAuth.stateSecret
        examplePayload) 0x2E = [p0, p1] ∧
      signedToken exampleAuth.stateSecret examplePayload
        = p0 ++ 0x2E :: p1 ∧
      DecodeString p0 = some p ∧ DecodeString p1 = some s ∧
      s = Hmac.Sum exampleAuth.stateSecret p) ∧
    (∃ e, validateState exampleAuth exampleNow (bytesOf "!" ++ 0x2E :: bytesOf "AAAA")
      = .error e) :=
  ⟨(C2_accepted_state_is_authentic exampleAuth exampleNow).1
      (signedToken exampleAuth.stateSecret examplePayload)
      (bytesOf "/a") (by decide!),
   (C2_accepted_state_is_authentic exampleAuth exampleNow).2 (bytesOf "!") (bytesOf "AAAA")
      [0, 0, 0] (by decide)
      (by
        intro p hp
        have hn : DecodeString (bytesOf "!") = none := by decide
        rw [hn] at hp
        cases hp)⟩

/-- C5, the claim fails as stated.  The payload of `exampleUnstamped` has no
`ts` member, and its token, signed under the secret, is accepted. -/
theorem C5_unstamped_state_is_accepted :
    (Json.Unmarshal exampleUnstamped).map payloadTs = some none ∧
    validateState exampleAuth exampleNow (signedToken exampleAuth.stateSecret exampleUnstamped)
      = .ok (bytesOf "/a") := by
  decide!

/-- C5, amended.  If `validateState` accepts a raw state, the payload segment
decodes to a JSON payload, and if that payload has a numeric `ts` then the
time elapsed since `ts` is at most the TTL.  A correctly signed payload whose
`ts` is absent or not a number is accepted without a freshness check. -/
theorem C5_accepted_state_is_fresh_when_stamped (a : OIDCAuthenticator) (now : Time) :
    (∀ rawState r, validateState a now rawState = .ok r →
      ∃ p0 p1 p state, Strings.Split rawState 0x2E = [p0, p1] ∧ DecodeString p0 = some p ∧
        Json.Unmarshal p = some state ∧
        ∀ ts, payloadTs state = some ts →
          GoTime.Since now (GoTime.Unix ts.toInt64) ≤ a.stateTTL) ∧
    (∀ p state, Json.Unmarshal p = some state → payloadTs state = none →
      validateState a now (signedToken a.stateSecret p) = .ok (redirectOrRoot state)) := by
  constructor
  · intro rawState r h
    obtain ⟨p0, p1, p, hsplit, hp, _, hres⟩ := validateState_ok_inv a now rawState r h
    obtain ⟨state, hu, hfresh, _⟩ := payloadResult_ok_inv a now p r hres
    exact ⟨p0, p1, p, state, hsplit, hp, hu, hfresh⟩
  · intro p state hu hts
    rw [validateState_signedToken]
    exact payloadResult_fresh a now p state hu (by intro ts h; rw [hts] at h; cases h)

/-- Witness of C5 amended: the token of `examplePayload`, stamped 0.9 s before
`exampleNow`, and the token of `exampleUnstamped`. -/
theorem C5_accepted_state_is_fresh_when_stamped_witness :
    (∃ p0 p1 p state,
      Strings.Split (signedToken exampleAuth.stateSecret examplePayload) 0x2E = [p0, p1] ∧
      DecodeString p0 = some p ∧ Json.Unmarshal p = some state ∧
      ∀ ts, payloadTs state = some ts →
        GoTime.Since exampleNow (GoTime.Unix ts.toInt64) ≤ exampleAuth.stateTTL) ∧
    validateState exampleAuth exampleNow (signedToken exampleAuth.stateSecret exampleUnstamped)
      = .ok (redirectOrRoot [(bytesOf "redirect", .string (bytesOf "/a"))]) :=
  ⟨(C5_accepted_state_is_fresh_when_stamped exampleAuth exampleNow).1
      (signedToken exampleAuth.stateSecret examplePayload) (bytesOf "/a") (by decide!),
   (C5_accepted_state_is_fresh_when_stamped exampleAuth exampleNow).2 exampleUnstamped
      [(bytesOf "redirect", .string (bytesOf "/a"))] (by decide!) (by decide!)⟩

/-- C6. Destination fallback.  Take a token whose segments decode to a payload
and to its signature under the secret, the payload being JSON that
`json.Unmarshal` accepts and whose numeric `ts`, if any, is within the TTL.
If the member `redirect` is absent, is not a string, or is the empty string,
`validateState` succeeds and returns the root path. -/
theorem C6_destination_fallback (a : OIDCAuthenticator) (now : Time) (p0 p1 p : Bytes)
    (state : List (Bytes × Json.Value))
    (hp : DecodeString p0 = some p) (hs : DecodeString p1 = some (Hmac.Sum a.stateSecret p))
    (hu : Json.Unmarshal p = some state)
    (hfresh : ∀ ts, payloadTs state = some ts →
      GoTime.Since now (GoTime.Unix ts.toInt64) ≤ a.stateTTL)
    (hred : Json.lookup (bytesOf "redirect") state = none ∨
      (∃ v, Json.lookup (bytesOf "redirect") state = some v ∧ ∀ s, v ≠ .string s) ∨
      Json.lookup (bytesOf "redirect") state = some (.string [])) :
    validateState a now (p0 ++ 0x2E :: p1) = .ok (bytesOf "/") := by
  rw [validateState_segments a now p0 p1 p hp hs, payloadResult_fresh a now p state hu hfresh]
  congr 1
  unfold redirectOrRoot payloadRedirect
  rcases hred with h | ⟨v, h, hv⟩ | h
  · simp [h]
  · rw [h]
    cases v <;> first | rfl | exact absurd rfl (hv _)
  · simp [h]

/-- Witness of C6: the token of `exampleNoDestination`, whose `redirect` is the
empty string. -/
theorem C6_destination_fallback_witness :
    validateState exampleAuth exampleNow
      (EncodeToString exampleNoDestination ++ 0x2E ::
        EncodeToString (Hmac.Sum exampleAuth.stateSecret exampleNoDestination))
      = .ok (bytesOf "/") :=
  C6_destination_fallback exampleAuth exampleNow (EncodeToString exampleNoDestination)
    (EncodeToString (Hmac.Sum exampleAuth.stateSecret exampleNoDestination))
    exampleNoDestination
    [(bytesOf "redirect", .string []), (bytesOf "ts", .number ⟨false, 7130316800000000, -22⟩)]
    (by decide!) (by decide!) (by decide!)
    (by
      intro ts h
      have hts : ts = ⟨false, 7130316800000000, -22⟩ := by
        have h2 : payloadTs [(bytesOf "redirect", Json.Value.string []),
          (bytesOf "ts", .number ⟨false, 7130316800000000, -22⟩)]
          = some ⟨false, 7130316800000000, -22⟩ := by decide!
        rw [h2] at h
        injection h with h
        exact h.symm
      subst hts
      decide!)
    (Or.inr (Or.inr (by decide!)))

/-! ## Facts about unicode/utf8 -/

/-- The five outcomes of `DecodeRune` on a non-empty input. -/
theorem DecodeRune_cases (b : Byte) (bs : Bytes) :
    (b.val < 0x80 ∧ DecodeRune (b :: bs) = (b.val, 1)) ∨
    (0x80 ≤ b.val ∧ DecodeRune (b :: bs) = (RuneError, 1)) ∨
    (∃ b1 t, bs = b1 :: t ∧ 0xC2 ≤ b.val ∧ b.val < 0xE0 ∧ 0x80 ≤ b1.val ∧ b1.val ≤ 0xBF ∧
      DecodeRune (b :: bs) = ((b.val % 32) * 64 + b1.val % 64, 2)) ∨
    (∃ b1 b2 t, bs = b1 :: b2 :: t ∧ 0xE0 ≤ b.val ∧ b.val < 0xF0 ∧
      0x80 ≤ b1.val ∧ b1.val ≤ 0xBF ∧ (b.val = 0xE0 → 0xA0 ≤ b1.val) ∧
      (b.val = 0xED → b1.val ≤ 0x9F) ∧ 0x80 ≤ b2.val ∧ b2.val ≤ 0xBF ∧
      DecodeRune (b :: bs) = ((b.val % 16) * 4096 + (b1.val % 64) * 64 + b2.val % 64, 3)) ∨
    (∃ b1 b2 b3 t, bs = b1 :: b2 :: b3 :: t ∧ 0xF0 ≤ b.val ∧ b.val < 0xF5 ∧
      0x80 ≤ b1.val ∧ b1.val ≤ 0xBF ∧ (b.val = 0xF0 → 0x90 ≤ b1.val) ∧
      (b.val = 0xF4 → b1.val ≤ 0x8F) ∧ 0x80 ≤ b2.val ∧ b2.val ≤ 0xBF ∧
      0x80 ≤ b3.val ∧ b3.val ≤ 0xBF ∧
      DecodeRune (b :: bs) =
        ((b.val % 8) * 262144 + (b1.val % 64) * 4096 + (b2.val % 64) * 64 + b3.val % 64, 4)) := by
  by_cases h1 : b.val < 0x80
  · left; exact ⟨h1, by simp [DecodeRune, h1]⟩
  right
  by_cases h2 : b.val < 0xC2
  · left; exact ⟨by omega, by simp [DecodeRune, h1, h2]⟩
  by_cases h3 : b.val < 0xE0
  · rcases bs with _ | ⟨b1, t⟩
    · left; exact ⟨by omega, by simp [DecodeRune, h1, h2, h3]⟩
    · by_cases hc : isCont b1 = true
      · right; left
        have hc' := hc
        simp only [isCont, Bool.and_eq_true, decide_eq_true_eq] at hc'
        exact ⟨b1, t, rfl, by omega, h3, hc'.1, hc'.2, by simp [DecodeRune, h1, h2, h3, hc]⟩
      · left; exact ⟨by omega, by simp [DecodeRune, h1, h2, h3, hc]⟩
  by_cases h4 : b.val < 0xF0
  · rcases bs with _ | ⟨b1, _ | ⟨b2, t⟩⟩
    · left; exact ⟨by omega, by simp [DecodeRune, h1, h2, h3, h4]⟩
    · left; exact ⟨by omega, by simp [DecodeRune, h1, h2, h3, h4]⟩
    · by_cases hc : ((if b.val = 0xE0 then 0xA0 else 0x80) ≤ b1.val ∧
          b1.val ≤ (if b.val = 0xED then 0x9F else 0xBF)) ∧ isCont b2 = true
      · right; right; left
        have hd : DecodeRune (b :: b1 :: b2 :: t) =
            ((b.val % 16) * 4096 + (b1.val % 64) * 64 + b2.val % 64, 3) := by
          simp only [DecodeRune, h1, h2, h3, h4, if_false, if_true, Bool.and_eq_true,
            decide_eq_true_eq, hc, and_self]
        obtain ⟨⟨hlo, hhi⟩, hc2⟩ := hc
        simp only [isCont, Bool.and_eq_true, decide_eq_true_eq] at hc2
        refine ⟨b1, b2, t, rfl, by omega, h4, ?_, ?_, ?_, ?_, hc2.1, hc2.2, hd⟩
        · split_ifs at hlo <;> omega
        · split_ifs at hhi <;> omega
        · intro e; simp [e] at hlo; exact hlo
        · intro e; simp [e] at hhi; exact hhi
      · left
        refine ⟨by omega, ?_⟩
        simp only [DecodeRune, h1, h2, h3, h4, if_false, if_true, Bool.and_eq_true,
          decide_eq_true_eq, hc]
  by_cases h5 : b.val < 0xF5
  · rcases bs with _ | ⟨b1, _ | ⟨b2, _ | ⟨b3, t⟩⟩⟩
    · left; exact ⟨by omega, by simp [DecodeRune, h1, h2, h3, h4, h5]⟩
    · left; exact ⟨by omega, by simp [DecodeRune, h1, h2, h3, h4, h5]⟩
    · left; exact ⟨by omega, by simp [DecodeRune, h1, h2, h3, h4, h5]⟩
    · by_cases hc : (((if b.val = 0xF0 then 0x90 else 0x80) ≤ b1.val ∧
          b1.val ≤ (if b.val = 0xF4 then 0x8F else 0xBF)) ∧ isCont b2 = true) ∧
          isCont b3 = true
      · right; right; right
        have hd : DecodeRune (b :: b1 :: b2 :: b3 :: t) =
            ((b.val % 8) * 262144 + (b1.val % 64) * 4096 + (b2.val % 64) * 64 + b3.val % 64,
              4) := by
          simp only [DecodeRune, h1, h2, h3, h4, h5, if_false, if_true, Bool.and_eq_true,
            decide_eq_true_eq, hc, and_self]
        obtain ⟨⟨⟨hlo, hhi⟩, hc2⟩, hc3⟩ := hc
        simp only [isCont, Bool.and_eq_true, decide_eq_true_eq] at hc2 hc3
        refine ⟨b1, b2, b3, t, rfl, by omega, h5, ?_, ?_, ?_, ?_, hc2.1, hc2.2, hc3.1, hc3.2,
          hd⟩
        · split_ifs at hlo <;> omega
        · split_ifs at hhi <;> omega
        · intro e; simp [e] at hlo; exact hlo
        · intro e; simp [e] at hhi; exact hhi
      · left
        refine ⟨by omega, ?_⟩
        simp only [DecodeRune, h1, h2, h3, h4, h5, if_false, if_true, Bool.and_eq_true,
          decide_eq_true_eq, hc]
  · left; exact ⟨by omega, by simp [DecodeRune, h1, h2, h3, h4, h5]⟩

theorem DecodeRune_two (b b1 : Byte) (t : Bytes) (h1 : 0xC2 ≤ b.val) (h2 : b.val < 0xE0)
    (h3 : 0x80 ≤ b1.val) (h4 : b1.val ≤ 0xBF) :
    DecodeRune (b :: b1 :: t) = ((b.val % 32) * 64 + b1.val % 64, 2) := by
  have e1 : ¬ b.val < 0x80 := by omega
  have e2 : ¬ b.val < 0xC2 := by omega
  simp [DecodeRune, isCont, e1, e2, h2, h3, h4]

theorem DecodeRune_three (b b1 b2 : Byte) (t : Bytes) (h1 : 0xE0 ≤ b.val) (h2 : b.val < 0xF0)
    (h3 : 0x80 ≤ b1.val) (h4 : b1.val ≤ 0xBF) (h5 : b.val = 0xE0 → 0xA0 ≤ b1.val)
    (h6 : b.val = 0xED → b1.val ≤ 0x9F) (h7 : 0x80 ≤ b2.val) (h8 : b2.val ≤ 0xBF) :
    DecodeRune (b :: b1 :: b2 :: t) =
      ((b.val % 16) * 4096 + (b1.val % 64) * 64 + b2.val % 64, 3) := by
  have e1 : ¬ b.val < 0x80 := by omega
  have e2 : ¬ b.val < 0xC2 := by omega
  have e3 : ¬ b.val < 0xE0 := by omega
  have hlo : (if b.val = 0xE0 then 0xA0 else 0x80) ≤ b1.val := by split_ifs with e <;> [exact h5 e; exact h3]
  have hhi : b1.val ≤ (if b.val = 0xED then 0x9F else 0xBF) := by split_ifs with e <;> [exact h6 e; exact h4]
  simp only [DecodeRune, isCont, e1, e2, e3, h2, if_false, if_true, Bool.and_eq_true,
    decide_eq_true_eq, hlo, hhi, h7, h8, and_self]

theorem DecodeRune_four (b b1 b2 b3 : Byte) (t : Bytes) (h1 : 0xF0 ≤ b.val) (h2 : b.val < 0xF5)
    (h3 : 0x80 ≤ b1.val) (h4 : b1.val ≤ 0xBF) (h5 : b.val = 0xF0 → 0x90 ≤ b1.val)
    (h6 : b.val = 0xF4 → b1.val ≤ 0x8F) (h7 : 0x80 ≤ b2.val) (h8 : b2.val ≤ 0xBF)
    (h9 : 0x80 ≤ b3.val) (h10 : b3.val ≤ 0xBF) :
    DecodeRune (b :: b1 :: b2 :: b3 :: t) =
      ((b.val % 8) * 262144 + (b1.val % 64) * 4096 + (b2.val % 64) * 64 + b3.val % 64, 4) := by
  have e1 : ¬ b.val < 0x80 := by omega
  have e2 : ¬ b.val < 0xC2 := by omega
  have e3 : ¬ b.val < 0xE0 := by omega
  have e4 : ¬ b.val < 0xF0 := by omega
  have hlo : (if b.val = 0xF0 then 0x90 else 0x80) ≤ b1.val := by split_ifs with e <;> [exact h5 e; exact h3]
  have hhi : b1.val ≤ (if b.val = 0xF4 then 0x8F else 0xBF) := by split_ifs with e <;> [exact h6 e; exact h4]
  simp only [DecodeRune, isCont, e1, e2, e3, e4, h2, if_false, if_true, Bool.and_eq_true,
    decide_eq_true_eq, hlo, hhi, h7, h8, h9, h10, and_self]

/-- The rune decoded at the head of a string and the bytes it takes. -/
theorem RuneOk_DecodeRune (b : Byte) (bs : Bytes) :
    RuneOk (DecodeRune (b :: bs)).1 ((b :: bs).take (DecodeRune (b :: bs)).2) := by
  rcases DecodeRune_cases b bs with ⟨h, hd⟩ | ⟨h, hd⟩ | ⟨b1, t, rfl, h1, h2, h3, h4, hd⟩ |
    ⟨b1, b2, t, rfl, h1, h2, h3, h4, h5, h6, h7, h8, hd⟩ |
    ⟨b1, b2, b3, t, rfl, h1, h2, h3, h4, h5, h6, h7, h8, h9, h10, hd⟩
  · rw [hd]; left; exact ⟨b, by simp, h, rfl⟩
  · rw [hd]; right; left; exact ⟨b, by simp, h, rfl⟩
  · rw [hd]; right; right
    refine ⟨by simp, ⟨b, [b1], by simp, by omega⟩, ?_, ?_⟩
    · have e1 : ¬ (b.val % 32 * 64 + b1.val % 64 < 0x80) := by omega
      have e2 : b.val % 32 * 64 + b1.val % 64 < 0x800 := by omega
      simp only [EncodeRune, e1, e2, if_false, if_true, List.take_succ_cons, List.take_zero]
      simp only [List.cons.injEq, and_true]
      constructor <;> apply Fin.ext <;> simp only [byte_val] <;> omega
    · intro t'
      simp only [List.take_succ_cons, List.take_zero, List.cons_append, List.nil_append,
        List.length_cons, List.length_nil]
      exact DecodeRune_two b b1 t' h1 h2 h3 h4
  · rw [hd]; right; right
    refine ⟨by simp, ⟨b, [b1, b2], by simp, by omega⟩, ?_, ?_⟩
    · have e1 : ¬ (b.val % 16 * 4096 + b1.val % 64 * 64 + b2.val % 64 < 0x80) := by omega
      have e2 : ¬ (b.val % 16 * 4096 + b1.val % 64 * 64 + b2.val % 64 < 0x800) := by omega
      have e3 : ¬ (b.val % 16 * 4096 + b1.val % 64 * 64 + b2.val % 64 > 0x10FFFF ∨
          (0xD800 ≤ b.val % 16 * 4096 + b1.val % 64 * 64 + b2.val % 64 ∧
           b.val % 16 * 4096 + b1.val % 64 * 64 + b2.val % 64 ≤ 0xDFFF)) := by omega
      have e4 : b.val % 16 * 4096 + b1.val % 64 * 64 + b2.val % 64 < 0x10000 := by omega
      simp only [EncodeRune, e1, e2, e3, e4, if_false, if_true, List.take_succ_cons,
        List.take_zero]
      simp only [List.cons.injEq, and_true]
      refine ⟨?_, ?_, ?_⟩ <;> apply Fin.ext <;> simp only [byte_val] <;> omega
    · intro t'
      simp only [List.take_succ_cons, List.take_zero, List.cons_append, List.nil_append,
        List.length_cons, List.length_nil]
      exact DecodeRune_three b b1 b2 t' h1 h2 h3 h4 h5 h6 h7 h8
  · rw [hd]; right; right
    refine ⟨by simp, ⟨b, [b1, b2, b3], by simp, by omega⟩, ?_, ?_⟩
    · have e1 : ¬ (b.val % 8 * 262144 + b1.val % 64 * 4096 + b2.val % 64 * 64 + b3.val % 64
          < 0x80) := by omega
      have e2 : ¬ (b.val % 8 * 262144 + b1.val % 64 * 4096 + b2.val % 64 * 64 + b3.val % 64
          < 0x800) := by omega
      have e3 : ¬ (b.val % 8 * 262144 + b1.val % 64 * 4096 + b2.val % 64 * 64 + b3.val % 64
          > 0x10FFFF ∨
          (0xD800 ≤ b.val % 8 * 262144 + b1.val % 64 * 4096 + b2.val % 64 * 64 + b3.val % 64 ∧
           b.val % 8 * 262144 + b1.val % 64 * 4096 + b2.val % 64 * 64 + b3.val % 64
            ≤ 0xDFFF)) := by omega
      have e4 : ¬ (b.val % 8 * 262144 + b1.val % 64 * 4096 + b2.val % 64 * 64 + b3.val % 64
          < 0x10000) := by omega
      simp only [EncodeRune, e1, e2, e3, e4, if_false, if_true, List.take_succ_cons,
        List.take_zero]
      simp only [List.cons.injEq, and_true]
      refine ⟨?_, ?_, ?_, ?_⟩ <;> apply Fin.ext <;> simp only [byte_val] <;> omega
    · intro t'
      simp only [List.take_succ_cons, List.take_zero, List.cons_append, List.nil_append,
        List.length_cons, List.length_nil]
      exact DecodeRune_four b b1 b2 b3 t' h1 h2 h3 h4 h5 h6 h7 h8 h9 h10

theorem DecodeRune_width (b : Byte) (bs : Bytes) :
    1 ≤ (DecodeRune (b :: bs)).2 ∧ (DecodeRune (b :: bs)).2 ≤ (b :: bs).length := by
  rcases DecodeRune_cases b bs with ⟨_, hd⟩ | ⟨_, hd⟩ | ⟨b1, t, rfl, _, _, _, _, hd⟩ |
    ⟨b1, b2, t, rfl, _, _, _, _, _, _, _, _, hd⟩ |
    ⟨b1, b2, b3, t, rfl, _, _, _, _, _, _, _, _, _, _, hd⟩ <;> rw [hd] <;> simp

/-- The runes of a string are well formed and their bytes make up the
string. -/
theorem runesAux_spec : ∀ (fuel : Nat) (s : Bytes), s.length ≤ fuel →
    (∀ p ∈ runesAux fuel s, RuneOk p.1 p.2) ∧ (runesAux fuel s).flatMap (fun p => p.2) = s := by
  intro fuel
  induction fuel with
  | zero =>
    intro s hs
    have : s = [] := List.length_eq_zero.mp (by omega)
    subst this
    simp [runesAux]
  | succ n ih =>
    intro s hs
    cases s with
    | nil => simp [runesAux]
    | cons b bs =>
      have hw := DecodeRune_width b bs
      have hlen : ((b :: bs).drop (DecodeRune (b :: bs)).2).length ≤ n := by
        simp only [List.length_drop, List.length_cons] at hs ⊢
        omega
      obtain ⟨ih1, ih2⟩ := ih _ hlen
      simp only [runesAux]
      constructor
      · intro p hp
        simp only [List.mem_cons] at hp
        rcases hp with rfl | hp
        · exact RuneOk_DecodeRune b bs
        · exact ih1 p hp
      · simp only [List.flatMap_cons, ih2]
        exact List.take_append_drop _ _

theorem runes_ok (s : Bytes) : ∀ p ∈ runes s, RuneOk p.1 p.2 :=
  (runesAux_spec s.length s (le_refl _)).1

theorem runes_bytes (s : Bytes) : (runes s).flatMap (fun p => p.2) = s :=
  (runesAux_spec s.length s (le_refl _)).2

/-! ## Facts about encoding/json -/

theorem flatMap_congr_mem {α β : Type} (L : List α) (f g : α → List β)
    (h : ∀ p ∈ L, f p = g p) : L.flatMap f = L.flatMap g := by
  induction L with
  | nil => rfl
  | cons x xs ih =>
    simp only [List.flatMap_cons]
    rw [h x (by simp), ih (fun p hp => h p (by simp [hp]))]

theorem EncodeRune_ascii (b : Byte) (h : b.val < 0x80) : EncodeRune b.val = [b] := by
  simp [EncodeRune, h, byte_self]

/-- A valid UTF-8 string is unchanged by encoding and decoding. -/
theorem coerceUtf8_of_valid (s : Bytes) (h : Valid s = true) : coerceUtf8 s = s := by
  unfold coerceUtf8
  conv_rhs => rw [← runes_bytes s]
  apply flatMap_congr_mem
  intro p hp
  unfold Valid at h
  rw [List.all_eq_true] at h
  have hv := h p hp
  rcases runes_ok s p hp with ⟨b, hb, hlt, hr⟩ | ⟨b, hb, hge, hr⟩ | ⟨_, _, henc, _⟩
  · rw [hb, hr]; exact EncodeRune_ascii b hlt
  · exfalso
    simp [hb, hr] at hv
  · exact henc

theorem lex_str_skip : ∀ (xs : Bytes) (acc tail : Bytes),
    lex (.str acc xs.length) (xs ++ tail) = lex (.str acc 0) tail := by
  intro xs
  induction xs with
  | nil => intro acc tail; rfl
  | cons x xs ih =>
    intro acc tail
    simp only [List.length_cons, List.cons_append, lex]
    exact ih acc tail

theorem lex_str_quote (acc cs : Bytes) :
    lex (.str acc 0) (0x22 :: cs) = (lex .top cs).map (fun ts => Token.str acc :: ts) := by
  rw [lex]
  rfl

theorem lex_str_backslash (acc cs out : Bytes) (k : Nat) (h : unescape cs = some (out, k)) :
    lex (.str acc 0) (0x5C :: cs) = lex (.str (acc ++ out) k) cs := by
  simp only [lex, h]
  rfl

theorem lex_str_plain (acc cs : Bytes) (c : Byte) (h1 : c.val ≠ 0x22) (h2 : c.val ≠ 0x5C)
    (h3 : 0x20 ≤ c.val) (h4 : c.val < 0x80) :
    lex (.str acc 0) (c :: cs) = lex (.str (acc ++ [c]) 0) cs := by
  have h5 : ¬ c.val < 0x20 := by omega
  simp [lex, h1, h2, h4, h5]

theorem lex_str_multi (acc cs : Bytes) (c : Byte) (h : 0x80 ≤ c.val) :
    lex (.str acc 0) (c :: cs) =
      lex (.str (acc ++ EncodeRune (DecodeRune (c :: cs)).1) ((DecodeRune (c :: cs)).2 - 1))
        cs := by
  have h1 : c.val ≠ 0x22 := by omega
  have h2 : c.val ≠ 0x5C := by omega
  have h3 : ¬ c.val < 0x20 := by omega
  have h4 : ¬ c.val < 0x80 := by omega
  simp [lex, h1, h2, h3, h4]

theorem hexVal_hexDigit (n : Nat) (h : n < 16) : hexVal (hexDigit n) = some n := by
  unfold hexDigit
  split_ifs with h1
  · simp only [hexVal, byte_val]
    split_ifs <;> first | omega | (simp; omega)
  · simp only [hexVal, byte_val]
    split_ifs <;> first | omega | (simp; omega)

/-- The escape `\uXXXX` of a rune below 0x10000 that is no surrogate. -/
theorem unescape_u4 (h1 h2 h3 h4 : Byte) (a b c d : Nat) (tail : Bytes)
    (e1 : hexVal h1 = some a) (e2 : hexVal h2 = some b) (e3 : hexVal h3 = some c)
    (e4 : hexVal h4 = some d)
    (hns : ¬ (0xD800 ≤ a * 4096 + b * 256 + c * 16 + d ∧ a * 4096 + b * 256 + c * 16 + d < 0xE000)) :
    unescape (0x75 :: h1 :: h2 :: h3 :: h4 :: tail) =
      some (EncodeRune (a * 4096 + b * 256 + c * 16 + d), 5) := by
  simp [unescape, getu4, e1, e2, e3, e4, hns, Fin.coe_ofNat_eq_mod]

theorem unescape_simple (c : Byte) (rest : Bytes)
    (h : c.val = 0x22 ∨ c.val = 0x5C ∨ c.val = 0x2F) : unescape (c :: rest) = some ([c], 1) := by
  simp [unescape, h]

theorem lex_str_skip5 (acc tail : Bytes) (x1 x2 x3 x4 x5 : Byte) :
    lex (.str acc 5) (x1 :: x2 :: x3 :: x4 :: x5 :: tail) = lex (.str acc 0) tail :=
  lex_str_skip [x1, x2, x3, x4, x5] acc tail

theorem lex_str_skip1 (acc tail : Bytes) (x1 : Byte) :
    lex (.str acc 1) (x1 :: tail) = lex (.str acc 0) tail :=
  lex_str_skip [x1] acc tail

/-- The escape of a control character: backslash, a letter, and the byte it
stands for. -/
theorem lex_str_letter (acc tail : Bytes) (l b : Byte)
    (h : unescape (l :: tail) = some ([b], 1)) :
    lex (.str acc 0) (0x5C :: l :: tail) = lex (.str (acc ++ [b]) 0) tail := by
  rw [lex_str_backslash acc (l :: tail) [b] 1 h, lex_str_skip1]

/-- The escape of a rune by four hexadecimal digits. -/
theorem lex_str_u4 (acc tail : Bytes) (h1 h2 h3 h4 : Byte) (a b c d r : Nat)
    (e1 : hexVal h1 = some a) (e2 : hexVal h2 = some b) (e3 : hexVal h3 = some c)
    (e4 : hexVal h4 = some d) (hr : a * 4096 + b * 256 + c * 16 + d = r)
    (hns : ¬ (0xD800 ≤ r ∧ r < 0xE000)) :
    lex (.str acc 0) (0x5C :: 0x75 :: h1 :: h2 :: h3 :: h4 :: tail) =
      lex (.str (acc ++ EncodeRune r) 0) tail := by
  subst hr
  rw [lex_str_backslash acc _ _ 5 (unescape_u4 h1 h2 h3 h4 a b c d tail e1 e2 e3 e4 hns),
    lex_str_skip5]

/-- The decoder reads back what the encoder writes for one rune. -/
theorem lex_escapeRune (r : Nat) (bs : Bytes) (h : RuneOk r bs) (acc tail : Bytes) :
    lex (.str acc 0) (escapeRune r bs ++ tail) = lex (.str (acc ++ EncodeRune r) 0) tail := by
  rcases h with ⟨b, rfl, hlt, rfl⟩ | ⟨b, rfl, hge, rfl⟩ | ⟨hlen, ⟨b, t, rfl, hb⟩, henc, hdec⟩
  · rw [EncodeRune_ascii b hlt]
    simp only [escapeRune, hlt, if_true]
    split_ifs with c1 c2 c3 c4 c5 c6 c7
    · exact lex_str_letter acc tail b b (unescape_simple b tail (by omega))
    · have : b = 0x08 := Fin.ext c2
      subst this
      exact lex_str_letter acc tail 0x62 0x08 (by simp [unescape, Fin.coe_ofNat_eq_mod])
    · have : b = 0x0C := Fin.ext c3
      subst this
      exact lex_str_letter acc tail 0x66 0x0C (by simp [unescape, Fin.coe_ofNat_eq_mod])
    · have : b = 0x0A := Fin.ext c4
      subst this
      exact lex_str_letter acc tail 0x6E 0x0A (by simp [unescape, Fin.coe_ofNat_eq_mod])
    · have : b = 0x0D := Fin.ext c5
      subst this
      exact lex_str_letter acc tail 0x72 0x0D (by simp [unescape, Fin.coe_ofNat_eq_mod])
    · have : b = 0x09 := Fin.ext c6
      subst this
      exact lex_str_letter acc tail 0x74 0x09 (by simp [unescape, Fin.coe_ofNat_eq_mod])
    · have := lex_str_u4 acc tail 0x30 0x30 (hexDigit (b.val / 16)) (hexDigit (b.val % 16))
        0 0 (b.val / 16) (b.val % 16) b.val (by decide) (by decide)
        (hexVal_hexDigit _ (by omega)) (hexVal_hexDigit _ (by omega)) (by omega) (by omega)
      rw [EncodeRune_ascii b hlt] at this
      exact this
    · exact lex_str_plain acc tail b (by omega) (by omega) (by omega) hlt
  · have hnl : ¬ b.val < 0x80 := by omega
    simp only [escapeRune, hnl, if_false]
    exact lex_str_u4 acc tail 0x66 0x66 0x66 0x64 15 15 15 13 RuneError (by decide) (by decide)
      (by decide) (by decide) (by decide) (by decide)
  · cases t with
    | nil => simp at hlen
    | cons b1 t =>
      simp only [escapeRune]
      split_ifs with c1
      · rcases c1 with rfl | rfl
        · exact lex_str_u4 acc tail 0x32 0x30 0x32 (hexDigit (0x2028 % 16)) 2 0 2 8 0x2028
            (by decide) (by decide) (by decide) (by decide) (by decide) (by decide)
        · exact lex_str_u4 acc tail 0x32 0x30 0x32 (hexDigit (0x2029 % 16)) 2 0 2 9 0x2029
            (by decide) (by decide) (by decide) (by decide) (by decide) (by decide)
      · have hd := hdec tail
        simp only [List.cons_append] at hd ⊢
        rw [lex_str_multi acc _ b hb, hd]
        simp only [List.length_cons, Nat.add_sub_cancel]
        exact lex_str_skip (b1 :: t) _ tail

/-- The decoder reads back an encoded string body up to its closing quote. -/
theorem lex_flatMap_escapeRune (L : List (Nat × Bytes)) (h : ∀ p ∈ L, RuneOk p.1 p.2) :
    ∀ (acc rest : Bytes),
      lex (.str acc 0) (L.flatMap (fun p => escapeRune p.1 p.2) ++ 0x22 :: rest) =
        (lex .top rest).map
          (fun ts => Token.str (acc ++ L.flatMap (fun p => EncodeRune p.1)) :: ts) := by
  induction L with
  | nil =>
    intro acc rest
    simp only [List.flatMap_nil, List.nil_append, List.append_nil]
    exact lex_str_quote acc rest
  | cons p L ih =>
    intro acc rest
    simp only [List.flatMap_cons, List.append_assoc]
    rw [lex_escapeRune p.1 p.2 (h p (by simp)), ih (fun q hq => h q (by simp [hq])),
      List.append_assoc]

/-- The decoder turns the JSON text of a string into one string token. -/
theorem lex_encodeString (s rest : Bytes) :
    lex .top (encodeString s ++ rest) =
      (lex .top rest).map (fun ts => Token.str (coerceUtf8 s) :: ts) := by
  unfold encodeString escapeString
  simp only [List.cons_append, List.append_assoc, List.singleton_append]
  rw [lex]
  have ht : topStep 0x22 = .enter (.str [] 0) := rfl
  simp only [ht]
  rw [lex_flatMap_escapeRune _ (runes_ok s)]
  rfl

/-! ## Facts about strconv -/

theorem floorLog2Aux_spec : ∀ (fuel n : Nat), n ≤ fuel → 0 < n →
    2 ^ floorLog2Aux fuel n ≤ n ∧ n < 2 ^ (floorLog2Aux fuel n + 1) := by
  intro fuel
  induction fuel with
  | zero => intro n h1 h2; omega
  | succ k ih =>
    intro n h1 h2
    simp only [floorLog2Aux]
    split_ifs with hn
    · obtain ⟨i1, i2⟩ := ih (n / 2) (by omega) (by omega)
      rw [pow_succ] at i2 ⊢
      rw [pow_succ]
      constructor <;> omega
    · have : n = 1 := by omega
      subst this
      simp

theorem floorLog2_spec (n : Nat) (h : 0 < n) :
    2 ^ floorLog2 n ≤ n ∧ n < 2 ^ (floorLog2 n + 1) :=
  floorLog2Aux_spec n n (le_refl _) h

theorem floorLog2_lt (n k : Nat) (h : 0 < n) (hk : n < 2 ^ k) : floorLog2 n < k := by
  by_contra hc
  have h1 := (floorLog2_spec n h).1
  have : 2 ^ k ≤ 2 ^ floorLog2 n := Nat.pow_le_pow_right (by omega) (by omega)
  omega

/-- A natural number below `2 ^ 53` is a float64, and converting that float64
to int64 gives the number back. -/
theorem ParseFloat_nat (n : Nat) (h : n < 2 ^ 53) :
    ∃ f, ParseFloat false n 0 = some f ∧ f.toInt64 = (n : Int) := by
  by_cases h0 : n = 0
  · subst h0
    exact ⟨⟨false, 0, 0⟩, by decide, by decide⟩
  have hpos : 0 < n := by omega
  obtain ⟨hl1, hl2⟩ := floorLog2_spec n hpos
  have hL : floorLog2 n < 53 := floorLog2_lt n 53 hpos h
  have h1 : floorLog2 1 = 0 := by decide
  set L := floorLog2 n with hLdef
  have hnf : nearestFloat64 n 1 = some (n * 2 ^ (52 - L), (L : Int) - 52) := by
    unfold nearestFloat64
    simp only [h0, if_false, h1, ← hLdef]
    have e0 : ((L : Int) - ((0 : Nat) : Int)) = (L : Int) := by simp
    simp only [e0]
    have e1 : (-(L : Int)).toNat = 0 := by omega
    have e2 : ((L : Int)).toNat = L := by omega
    simp only [e1, e2, pow_zero, mul_one, one_mul]
    have e3 : n ≥ 2 ^ L := hl1
    simp only [e3, if_true]
    have e4 : max (L : Int) (-1022) - 52 = (L : Int) - 52 := by omega
    simp only [e4]
    have e5 : (-((L : Int) - 52)).toNat = 52 - L := by omega
    have e6 : ((L : Int) - 52).toNat = 0 := by omega
    simp only [e5, e6, pow_zero, mul_one]
    have e7 : roundHalfEven (n * 2 ^ (52 - L)) 1 = n * 2 ^ (52 - L) := by
      simp [roundHalfEven, Nat.mod_one]
    simp only [e7]
    have e8 : n * 2 ^ (52 - L) < 2 ^ 1024 := by
      calc n * 2 ^ (52 - L) < 2 ^ (L + 1) * 2 ^ (52 - L) :=
            Nat.mul_lt_mul_of_pos_right hl2 (by positivity)
        _ = 2 ^ 53 := by rw [← pow_add]; congr 1; omega
        _ < 2 ^ 1024 := by norm_num
    have e9 : ¬ (n * 2 ^ (52 - L) ≥ 2 ^ 1024) := by omega
    simp only [e9, if_false]
  refine ⟨⟨false, n * 2 ^ (52 - L), (L : Int) - 52⟩, ?_, ?_⟩
  · simp only [ParseFloat]
    have t1 : (0 : Int).toNat = 0 := rfl
    have t2 : (-(0 : Int)).toNat = 0 := rfl
    simp only [t1, t2, pow_zero, mul_one, hnf]
  · unfold Float64.toInt64
    have hn63 : (n : Int) < 9223372036854775808 := by
      have : n < 9223372036854775808 := by
        calc n < 2 ^ 53 := h
          _ < 9223372036854775808 := by norm_num
      exact_mod_cast this
    have hval : (if (L : Int) - 52 ≥ 0 then ((n * 2 ^ (52 - L) : Nat) : Int) * 2 ^ ((L : Int) - 52).toNat
        else ((n * 2 ^ (52 - L) : Nat) : Int) / 2 ^ (-((L : Int) - 52)).toNat) = (n : Int) := by
      split_ifs with hc
      · have : L = 52 := by omega
        simp [this]
      · have e5 : (-((L : Int) - 52)).toNat = 52 - L := by omega
        rw [e5]
        have : ((n * 2 ^ (52 - L) : Nat) : Int) / 2 ^ (52 - L) = (n : Int) := by
          have hp : (0 : Int) < 2 ^ (52 - L) := by positivity
          push_cast
          exact Int.mul_ediv_cancel _ (ne_of_gt hp)
        exact this
    simp only [hval]
    simp only [Bool.false_eq_true, if_false]
    have hnn : (0 : Int) ≤ n := Int.ofNat_nonneg n
    have hr : (-9223372036854775808 : Int) ≤ n ∧ (n : Int) < 9223372036854775808 :=
      ⟨by omega, hn63⟩
    simp only [hr, and_self, if_true]

/-- The number read from decimal digits `ds` after the number `m`. -/
theorem lex_int_digits : ∀ (ds : Bytes) (m : Nat) (rest : Bytes),
    (∀ d ∈ ds, 0x30 ≤ d.val ∧ d.val ≤ 0x39) →
    lex (.num ⟨.int, false, m, 0, false, 0⟩) (ds ++ rest) =
      lex (.num ⟨.int, false, ds.foldl (fun a d => a * 10 + (d.val - 0x30)) m, 0, false, 0⟩)
        rest := by
  intro ds
  induction ds with
  | nil => intro m rest _; rfl
  | cons d ds ih =>
    intro m rest h
    have hd := h d (by simp)
    simp only [List.cons_append, List.foldl_cons]
    rw [lex]
    have hs : numStep ⟨.int, false, m, 0, false, 0⟩ d =
        some ⟨.int, false, m * 10 + (d.val - 0x30), 0, false, 0⟩ := by
      simp [numStep, hd]
    simp only [hs]
    exact ih _ rest (fun x hx => h x (by simp [hx]))

theorem topStep_digit (n : Nat) (h1 : 1 ≤ n) (h2 : n ≤ 9) :
    topStep (byte (0x30 + n)) = .enter (.num ⟨.int, false, n, 0, false, 0⟩) := by
  have hv : (byte (0x30 + n)).val = 0x30 + n := by simp only [byte_val]; omega
  unfold topStep
  rw [hv]
  have e1 : ¬ (0x30 + n = 0x20 ∨ 0x30 + n = 0x09 ∨ 0x30 + n = 0x0D ∨ 0x30 + n = 0x0A) := by
    omega
  have e2 : ¬ (0x30 + n = 0x7B) := by omega
  have e3 : ¬ (0x30 + n = 0x7D) := by omega
  have e4 : ¬ (0x30 + n = 0x5B) := by omega
  have e5 : ¬ (0x30 + n = 0x5D) := by omega
  have e6 : ¬ (0x30 + n = 0x3A) := by omega
  have e7 : ¬ (0x30 + n = 0x2C) := by omega
  have e8 : ¬ (0x30 + n = 0x22) := by omega
  have e9 : ¬ (0x30 + n = 0x2D) := by omega
  have e10 : ¬ (0x30 + n = 0x30) := by omega
  have e11 : 0x31 ≤ 0x30 + n ∧ 0x30 + n ≤ 0x39 := by omega
  simp only [e1, e2, e3, e4, e5, e6, e7, e8, e9, e10, e11, if_false, if_true, and_self]
  simp

/-- The decimal text of a positive number, followed by digits `ds`, is read
as one number. -/
theorem lex_digitsAux : ∀ (fuel n : Nat) (ds rest : Bytes), n < fuel → 0 < n →
    (∀ d ∈ ds, 0x30 ≤ d.val ∧ d.val ≤ 0x39) →
    lex .top (digitsAux fuel n ds ++ rest) =
      lex (.num ⟨.int, false, ds.foldl (fun a d => a * 10 + (d.val - 0x30)) n, 0, false, 0⟩)
        rest := by
  intro fuel
  induction fuel with
  | zero => intro n ds rest h; omega
  | succ k ih =>
    intro n ds rest hlt hpos hds
    simp only [digitsAux]
    split_ifs with h10
    · simp only [List.cons_append]
      rw [lex, topStep_digit n (by omega) (by omega)]
      exact lex_int_digits ds n rest hds
    · have hv : (byte (0x30 + n % 10)).val = 0x30 + n % 10 := by simp only [byte_val]; omega
      rw [ih (n / 10) _ rest (by omega) (by omega)]
      · simp only [List.foldl_cons, hv]
        have : n / 10 * 10 + (0x30 + n % 10 - 0x30) = n := by omega
        rw [this]
      · intro d hd
        simp only [List.mem_cons] at hd
        rcases hd with rfl | hd
        · rw [hv]; omega
        · exact hds d hd

/-- The decoder reads the number the encoder writes for a timestamp that is
not negative, together with the closing brace behind it. -/
theorem lex_FormatInt_rbrace (ts : Int) (h : 0 ≤ ts) (f : Float64) (rest : Bytes)
    (hf : ParseFloat false ts.toNat 0 = some f) :
    lex .top (FormatInt ts ++ 0x7D :: rest) =
      (lex .top rest).map (fun tks => Token.num f :: Token.rbrace :: tks) := by
  have hn : ¬ ts < 0 := by omega
  have habs : ts.natAbs = ts.toNat := by omega
  simp only [FormatInt, hn, if_false, habs]
  by_cases h0 : ts.toNat = 0
  · rw [h0] at hf ⊢
    have hd : digitsAux (0 + 1) 0 [] = [0x30] := by decide
    rw [hd]
    simp only [List.cons_append, List.nil_append]
    rw [lex]
    have t1 : topStep 0x30 = .enter (.num ⟨.zero, false, 0, 0, false, 0⟩) := rfl
    simp only [t1]
    rw [lex]
    have t2 : numStep ⟨.zero, false, 0, 0, false, 0⟩ 0x7D = none := rfl
    have t3 : finishNum ⟨.zero, false, 0, 0, false, 0⟩ = some f := by
      simp only [finishNum]
      simpa using hf
    have t4 : topStep 0x7D = .emit .rbrace := rfl
    simp only [t2, t3, t4]
  · rw [lex_digitsAux (ts.toNat + 1) ts.toNat [] _ (by omega) (by omega) (by simp)]
    simp only [List.foldl_nil]
    rw [lex]
    have t2 : numStep ⟨.int, false, ts.toNat, 0, false, 0⟩ 0x7D = none := rfl
    have t3 : finishNum ⟨.int, false, ts.toNat, 0, false, 0⟩ = some f := by
      simp only [finishNum]
      simpa using hf
    have t4 : topStep 0x7D = .emit .rbrace := rfl
    simp only [t2, t3, t4]

theorem lex_lbrace (rest : Bytes) :
    lex .top (0x7B :: rest) = (lex .top rest).map (fun ts => Token.lbrace :: ts) := by
  rw [lex]; rfl

theorem lex_colon (rest : Bytes) :
    lex .top (0x3A :: rest) = (lex .top rest).map (fun ts => Token.colon :: ts) := by
  rw [lex]; rfl

theorem lex_comma (rest : Bytes) :
    lex .top (0x2C :: rest) = (lex .top rest).map (fun ts => Token.comma :: ts) := by
  rw [lex]; rfl

/-- The tokens of the payload `createState` signs. -/
theorem lex_marshalState (redirect nonce : Bytes) (ts : Int) (h : 0 ≤ ts) (f : Float64)
    (hf : ParseFloat false ts.toNat 0 = some f) :
    lex .top (marshalState redirect ts nonce) =
      some [.lbrace, .str (bytesOf "nonce"), .colon, .str (coerceUtf8 nonce), .comma,
        .str (bytesOf "redirect"), .colon, .str (coerceUtf8 redirect), .comma,
        .str (bytesOf "ts"), .colon, .num f, .rbrace] := by
  have b1 : bytesOf "\x7b" = [(0x7B : Byte)] := by decide
  have b2 : bytesOf ":" = [(0x3A : Byte)] := by decide
  have b3 : bytesOf "," = [(0x2C : Byte)] := by decide
  have b4 : bytesOf "\x7d" = [(0x7D : Byte)] := by decide
  have c1 : coerceUtf8 (bytesOf "nonce") = bytesOf "nonce" := by decide
  have c2 : coerceUtf8 (bytesOf "redirect") = bytesOf "redirect" := by decide
  have c3 : coerceUtf8 (bytesOf "ts") = bytesOf "ts" := by decide
  unfold marshalState
  rw [b1, b2, b3, b4]
  simp only [List.append_assoc, List.singleton_append, List.cons_append, List.nil_append]
  rw [lex_lbrace, lex_encodeString, lex_colon, lex_encodeString, lex_comma, lex_encodeString,
    lex_colon, lex_encodeString, lex_comma, lex_encodeString, lex_colon,
    lex_FormatInt_rbrace ts h f [] hf, c1, c2, c3]
  rfl

/-- The payload `createState` signs decodes to its three members, the two
strings with their invalid bytes replaced. -/
theorem Unmarshal_marshalState (redirect nonce : Bytes) (ts : Int) (h : 0 ≤ ts) (f : Float64)
    (hf : ParseFloat false ts.toNat 0 = some f) :
    Unmarshal (marshalState redirect ts nonce) =
      some [(bytesOf "nonce", .string (coerceUtf8 nonce)),
        (bytesOf "redirect", .string (coerceUtf8 redirect)), (bytesOf "ts", .number f)] := by
  unfold Unmarshal decode
  rw [lex_marshalState redirect nonce ts h f hf]
  rfl

theorem payloadTs_state (x y : Bytes) (f : Float64) :
    payloadTs [(bytesOf "nonce", .string x), (bytesOf "redirect", .string y),
      (bytesOf "ts", .number f)] = some f := rfl

theorem payloadRedirect_state (x y : Bytes) (f : Float64) :
    payloadRedirect [(bytesOf "nonce", .string x), (bytesOf "redirect", .string y),
      (bytesOf "ts", .number f)] = some y := rfl

/-! ## Facts about time -/

/-- The time elapsed at `t1` since the whole second of `t0`, for clock readings
from 1970 to 2262. -/
theorem Since_Unix_unixSeconds (t0 t1 : Int) (h0 : 0 ≤ t0) (h01 : t0 ≤ t1)
    (h1 : t1 < 9223372036854775808) :
    GoTime.Since t1 (GoTime.Unix (GoTime.unixSeconds t0)) =
      t1 - GoTime.unixSeconds t0 * GoTime.Second := by
  have hs : GoTime.unixSeconds t0 = t0 / 1000000000 := rfl
  have hS : GoTime.Second = 1000000000 := rfl
  have hd : (0 : Int) ≤ t0 / 1000000000 ∧ t0 / 1000000000 * 1000000000 ≤ t0 := by
    constructor <;> omega
  unfold GoTime.Since GoTime.Sub GoTime.Unix GoTime.wrap64 GoTime.unixToInternal
    GoTime.maxDuration GoTime.minDuration
  rw [hs, hS]
  have hw : ((t0 / 1000000000 + 62135596800 + 9223372036854775808) % 18446744073709551616
      - 9223372036854775808 - 62135596800) = t0 / 1000000000 := by omega
  rw [hw]
  have hx : ¬ (t1 - t0 / 1000000000 * 1000000000 > 9223372036854775807) := by omega
  have hy : ¬ (t1 - t0 / 1000000000 * 1000000000 < -9223372036854775808) := by omega
  simp only [hx, hy, if_false]

theorem unixSeconds_bounds (t0 : Int) (h0 : 0 ≤ t0) (h1 : t0 < 9223372036854775808) :
    0 ≤ GoTime.unixSeconds t0 ∧ (GoTime.unixSeconds t0).toNat < 2 ^ 53 ∧
      GoTime.unixSeconds t0 * GoTime.Second ≤ t0 := by
  have hs : GoTime.unixSeconds t0 = t0 / 1000000000 := rfl
  have hS : GoTime.Second = 1000000000 := rfl
  rw [hs, hS]
  have e : (2 : Nat) ^ 53 = 9007199254740992 := by norm_num
  rw [e]
  refine ⟨by omega, by omega, by omega⟩

/-! ## Claims on the round trip and the expiry of the state -/

/-- The payload of a token made at `t0` decodes, whatever the destination and
the nonce, and carries the whole second of `t0`. -/
theorem createState_payload (a : OIDCAuthenticator) (redirectURL nonce : Bytes) (t0 t1 : Int)
    (h0 : 0 ≤ t0) (h1 : t0 < 9223372036854775808) :
    ∃ f : Float64, f.toInt64 = GoTime.unixSeconds t0 ∧
      validateState a t1 (createState a t0 nonce redirectURL) =
        payloadResult a t1 (marshalState redirectURL (GoTime.unixSeconds t0) nonce) ∧
      Unmarshal (marshalState redirectURL (GoTime.unixSeconds t0) nonce) =
        some [(bytesOf "nonce", .string (coerceUtf8 nonce)),
          (bytesOf "redirect", .string (coerceUtf8 redirectURL)), (bytesOf "ts", .number f)] := by
  obtain ⟨hs0, hs53, _⟩ := unixSeconds_bounds t0 h0 h1
  obtain ⟨f, hf, hfi⟩ := ParseFloat_nat (GoTime.unixSeconds t0).toNat hs53
  refine ⟨f, ?_, ?_, Unmarshal_marshalState redirectURL nonce _ hs0 f hf⟩
  · rw [hfi]; exact Int.toNat_of_nonneg hs0
  · rw [createState_eq, validateState_signedToken]

/-- C1, the claim fails as stated.  A token made at `exampleNow`, 0.9 s into
a second, is refused as expired exactly ten minutes later, the TTL being ten
minutes; and a destination that is not valid UTF-8 comes back changed. -/
theorem C1_round_trip_fails :
    exampleTenMinutesLater - exampleNow ≤ exampleAuth.stateTTL ∧
    validateState exampleAuth exampleTenMinutesLater
      (createState exampleAuth exampleNow exampleNonce exampleRedirect)
      = .error .stateExpired ∧
    validateState exampleAuth exampleNow
      (createState exampleAuth exampleNow exampleNonce [0x2F, 0xFF])
      = .ok [0x2F, 0xEF, 0xBF, 0xBD] := by
  decide!

/-- C1, amended.  For every secret and TTL, every nonce, every non-empty
destination that is valid UTF-8, and clock readings `t0 ≤ t1` between 1970
and 2262: when `t1` is at most the TTL after the whole second of `t0`,
`validateState` at `t1` accepts the token `createState` made at `t0` and
returns the destination. -/
theorem C1_round_trip_from_whole_second (a : OIDCAuthenticator) (redirectURL nonce : Bytes)
    (t0 t1 : Int) (hvalid : Utf8.Valid redirectURL = true) (hne : redirectURL ≠ [])
    (h0 : 0 ≤ t0) (h01 : t0 ≤ t1) (h1 : t1 < 9223372036854775808)
    (httl : t1 - GoTime.unixSeconds t0 * GoTime.Second ≤ a.stateTTL) :
    validateState a t1 (createState a t0 nonce redirectURL) = .ok redirectURL := by
  obtain ⟨f, hf, hv, hu⟩ := createState_payload a redirectURL nonce t0 t1 h0 (by omega)
  rw [hv, payloadResult_fresh a t1 _ _ hu]
  · simp only [redirectOrRoot, payloadRedirect_state, coerceUtf8_of_valid redirectURL hvalid,
      hne, if_false]
  · intro ts hts
    rw [payloadTs_state] at hts
    injection hts with hts
    subst hts
    rw [hf, Since_Unix_unixSeconds t0 t1 h0 h01 h1]
    exact httl

/-- Witness of C1 amended: a token made at `exampleNow` and validated 599 s
later. -/
theorem C1_round_trip_from_whole_second_witness :
    validateState exampleAuth 1700000599900000000
      (createState exampleAuth exampleNow exampleNonce exampleRedirect) = .ok exampleRedirect :=
  C1_round_trip_from_whole_second exampleAuth exampleRedirect exampleNonce exampleNow
    1700000599900000000 (by decide) (by decide) (by decide) (by decide) (by decide) (by decide)

/-- C3. Expiry.  For every secret and TTL, every destination and nonce, and
clock readings `t0 ≤ t1` between 1970 and 2262 with `t1 - t0` above the TTL,
`validateState` at `t1` refuses the token `createState` made at `t0` with the
error `state expired`. -/
theorem C3_expired_state_is_refused (a : OIDCAuthenticator) (redirectURL nonce : Bytes)
    (t0 t1 : Int) (h0 : 0 ≤ t0) (h01 : t0 ≤ t1) (h1 : t1 < 9223372036854775808)
    (hexp : t1 - t0 > a.stateTTL) :
    validateState a t1 (createState a t0 nonce redirectURL) = .error .stateExpired := by
  obtain ⟨f, hf, hv, hu⟩ := createState_payload a redirectURL nonce t0 t1 h0 (by omega)
  obtain ⟨_, _, hle⟩ := unixSeconds_bounds t0 h0 (by omega)
  rw [hv]
  apply payloadResult_expired a t1 _ _ f hu (payloadTs_state _ _ f)
  rw [hf, Since_Unix_unixSeconds t0 t1 h0 h01 h1]
  have h2 : t1 - t0 ≤ t1 - GoTime.unixSeconds t0 * GoTime.Second := by omega
  exact lt_of_lt_of_le hexp h2

/-- Witness of C3: a token made at `exampleNow` and validated ten minutes and
one nanosecond later. -/
theorem C3_expired_state_is_refused_witness :
    validateState exampleAuth 1700000600900000001
      (createState exampleAuth exampleNow exampleNonce exampleRedirect)
      = .error .stateExpired :=
  C3_expired_state_is_refused exampleAuth exampleRedirect exampleNonce exampleNow
    1700000600900000001 (by decide) (by decide) (by decide) (by decide)

/-! ## Facts about altered base64 text -/

/-- The loop over characters of the alphabet, line feeds and carriage returns
computes `unpack` of the six-bit values. -/
theorem decodeLoop_eq_unpack : ∀ (cs : Bytes) (buf : List Nat), buf.length ≤ 3 →
    (∀ c ∈ cs, decodeSextet c = none → c.val = 0x0A ∨ c.val = 0x0D) →
    decodeLoop cs buf = unpack (buf ++ cs.filterMap decodeSextet) := by
  intro cs
  induction cs with
  | nil =>
    intro buf hb _
    simp only [decodeLoop, List.filterMap_nil, List.append_nil]
    rcases buf with _ | ⟨x, _ | ⟨y, _ | ⟨z, _ | ⟨w, t⟩⟩⟩⟩
    · rfl
    · rfl
    · rfl
    · rfl
    · simp at hb
  | cons c cs ih =>
    intro buf hb hcs
    have hcs' : ∀ c ∈ cs, decodeSextet c = none → c.val = 0x0A ∨ c.val = 0x0D :=
      fun x hx => hcs x (by simp [hx])
    cases hc : decodeSextet c with
    | none =>
      have := hcs c (by simp) hc
      simp only [decodeLoop, hc, this, if_true, List.filterMap_cons]
      exact ih buf hb hcs'
    | some v =>
      simp only [decodeLoop, hc, List.filterMap_cons]
      split_ifs with h3
      · rcases buf with _ | ⟨x, _ | ⟨y, _ | ⟨z, _ | ⟨w, t⟩⟩⟩⟩ <;> simp at h3
        rw [ih [] (by simp) hcs']
        simp only [List.cons_append, List.nil_append, unpack, quantumBytes]
        cases unpack (List.filterMap decodeSextet cs) <;> rfl
      · rw [ih (buf ++ [v]) (by simp; omega) hcs']
        simp only [List.append_assoc, List.singleton_append]

/-- A byte that is neither in the alphabet nor a line break makes the decoding
fail. -/
theorem decodeLoop_bad (c : Byte) (hc : decodeSextet c = none)
    (hnl : ¬ (c.val = 0x0A ∨ c.val = 0x0D)) : ∀ (cs : Bytes) (buf : List Nat), c ∈ cs →
    decodeLoop cs buf = none := by
  intro cs
  induction cs with
  | nil => intro buf h; simp at h
  | cons x xs ih =>
    intro buf h
    simp only [List.mem_cons] at h
    by_cases hx : c = x
    · subst hx
      simp only [decodeLoop, hc, hnl, if_false]
    · have hmem : c ∈ xs := by
        rcases h with h | h
        · exact absurd h hx
        · exact h
      simp only [decodeLoop]
      cases hd : decodeSextet x with
      | none =>
        simp only
        split_ifs
        · exact ih buf hmem
        · rfl
      | some v =>
        simp only
        split_ifs
        · rw [ih [] hmem]
          cases quantumBytes (buf ++ [v]) <;> rfl
        · exact ih _ hmem

theorem unpack_length : ∀ (xs : List Nat) (a : Bytes), unpack xs = some a →
    a.length = xs.length * 3 / 4 ∧ xs.length % 4 ≠ 1 := by
  intro xs
  induction xs using unpack.induct with
  | case1 s0 s1 s2 s3 rest ih =>
    intro a h
    simp only [unpack] at h
    cases hr : unpack rest with
    | none => simp [hr] at h
    | some r =>
      simp only [hr, Option.map_some', Option.some.injEq] at h
      obtain ⟨i1, i2⟩ := ih r hr
      subst h
      simp only [List.length_cons, i1]
      constructor <;> omega
  | case2 s0 s1 s2 =>
    intro a h
    simp only [unpack, Option.some.injEq] at h
    subst h; simp
  | case3 s0 s1 =>
    intro a h
    simp only [unpack, Option.some.injEq] at h
    subst h; simp
  | case4 s0 =>
    intro a h
    simp [unpack] at h
  | case5 =>
    intro a h
    simp only [unpack, Option.some.injEq] at h
    subst h; simp

theorem unpack_isSome : ∀ (xs : List Nat), xs.length % 4 ≠ 1 → ∃ a, unpack xs = some a := by
  intro xs
  induction xs using unpack.induct with
  | case1 s0 s1 s2 s3 rest ih =>
    intro h
    simp only [List.length_cons] at h
    obtain ⟨r, hr⟩ := ih (by omega)
    exact ⟨_, by simp only [unpack, hr, Option.map_some']; rfl⟩
  | case2 s0 s1 s2 => intro _; exact ⟨_, rfl⟩
  | case3 s0 s1 => intro _; exact ⟨_, rfl⟩
  | case4 s0 => intro h; simp at h
  | case5 => intro _; exact ⟨_, rfl⟩

theorem slack_add_four (n : Nat) : slack (n + 4) = slack n := by
  unfold slack
  have : (n + 4) % 4 = n % 4 := by omega
  rw [this]

/-- Replacing one six-bit value changes the decoded bytes, unless it is the
last value and only its unused low bits change. -/
theorem unpack_set : ∀ (xs : List Nat) (a : Bytes), (∀ x ∈ xs, x < 64) → unpack xs = some a →
    ∀ (i v : Nat), i < xs.length → v < 64 →
    ∃ a', unpack (xs.set i v) = some a' ∧
      (a' = a ↔ (if i + 1 = xs.length then xs.getD i 0 / slack xs.length = v / slack xs.length
        else xs.getD i 0 = v)) := by
  intro xs
  induction xs using unpack.induct with
  | case1 s0 s1 s2 s3 rest ih =>
    intro a hx h i v hi hv
    have h0 : s0 < 64 := hx s0 (by simp)
    have h1 : s1 < 64 := hx s1 (by simp)
    have h2 : s2 < 64 := hx s2 (by simp)
    have h3 : s3 < 64 := hx s3 (by simp)
    have hrest : ∀ x ∈ rest, x < 64 := fun x hm => hx x (by simp [hm])
    simp only [unpack] at h
    cases hr : unpack rest with
    | none => simp [hr] at h
    | some r =>
      simp only [hr, Option.map_some', Option.some.injEq] at h
      subst h
      rcases i with _ | _ | _ | _ | j
      · refine ⟨_, by simp only [List.set_cons_zero, unpack, hr, Option.map_some']; rfl, ?_⟩
        have hne : ¬ (0 + 1 = (s0 :: s1 :: s2 :: s3 :: rest).length) := by simp
        simp only [hne, if_false, List.getD_cons_zero, List.cons.injEq, and_true, Fin.ext_iff,
          byte_val]
        constructor
        · rintro ⟨e1, e2, e3⟩; omega
        · rintro rfl; exact ⟨rfl, rfl, rfl⟩
      · refine ⟨_, by simp only [List.set_cons_succ, List.set_cons_zero, unpack, hr,
          Option.map_some']; rfl, ?_⟩
        have hne : ¬ (0 + 1 + 1 = (s0 :: s1 :: s2 :: s3 :: rest).length) := by simp
        simp only [hne, if_false, List.getD_cons_succ, List.getD_cons_zero, List.cons.injEq,
          and_true, Fin.ext_iff, byte_val]
        constructor
        · rintro ⟨e1, e2, e3⟩; omega
        · rintro rfl; exact ⟨rfl, rfl, rfl⟩
      · refine ⟨_, by simp only [List.set_cons_succ, List.set_cons_zero, unpack, hr,
          Option.map_some']; rfl, ?_⟩
        have hne : ¬ (0 + 1 + 1 + 1 = (s0 :: s1 :: s2 :: s3 :: rest).length) := by simp
        simp only [hne, if_false, List.getD_cons_succ, List.getD_cons_zero, List.cons.injEq,
          and_true, Fin.ext_iff, byte_val]
        constructor
        · rintro ⟨e1, e2, e3⟩; omega
        · rintro rfl; exact ⟨rfl, rfl, rfl⟩
      · refine ⟨_, by simp only [List.set_cons_succ, List.set_cons_zero, unpack, hr,
          Option.map_some']; rfl, ?_⟩
        simp only [List.getD_cons_succ, List.getD_cons_zero, List.cons.injEq,
          and_true, Fin.ext_iff, byte_val, List.length_cons]
        have hs : slack (rest.length + 1 + 1 + 1 + 1) = slack rest.length := slack_add_four _
        rw [hs]
        split_ifs with hl
        · have : rest.length = 0 := by omega
          rw [this]
          have : slack 0 = 1 := by decide
          rw [this, Nat.div_one, Nat.div_one]
          constructor
          · rintro ⟨e1, e2, e3⟩; omega
          · rintro rfl; exact ⟨rfl, rfl, rfl⟩
        · constructor
          · rintro ⟨e1, e2, e3⟩; omega
          · rintro rfl; exact ⟨rfl, rfl, rfl⟩
      · simp only [List.length_cons] at hi
        obtain ⟨r', hr', hiff⟩ := ih r hrest hr j v (by omega) hv
        refine ⟨_, by simp only [List.set_cons_succ, unpack, hr', Option.map_some']; rfl, ?_⟩
        simp only [List.getD_cons_succ, List.cons.injEq, true_and, List.length_cons]
        have hs : slack (rest.length + 1 + 1 + 1 + 1) = slack rest.length := slack_add_four _
        rw [hs, hiff]
        have hc : (j + 1 + 1 + 1 + 1 + 1 = rest.length + 1 + 1 + 1 + 1) ↔
            (j + 1 = rest.length) := by omega
        simp only [hc]
  | case2 s0 s1 s2 =>
    intro a hx h i v hi hv
    have h0 : s0 < 64 := hx s0 (by simp)
    have h1 : s1 < 64 := hx s1 (by simp)
    have h2 : s2 < 64 := hx s2 (by simp)
    simp only [unpack, Option.some.injEq] at h
    subst h
    have hs : slack 3 = 4 := by decide
    rcases i with _ | _ | _ | j
    · refine ⟨_, by simp only [List.set_cons_zero, unpack]; rfl, ?_⟩
      simp only [List.length_cons, List.length_nil, List.getD_cons_zero, List.cons.injEq,
        and_true, Fin.ext_iff, byte_val]
      simp only [show ¬ (0 + 1 = 0 + 1 + 1 + 1) by omega, if_false]
      constructor
      · rintro ⟨e1, e2⟩; omega
      · rintro rfl; exact ⟨rfl, rfl⟩
    · refine ⟨_, by simp only [List.set_cons_succ, List.set_cons_zero, unpack]; rfl, ?_⟩
      simp only [List.length_cons, List.length_nil, List.getD_cons_succ, List.getD_cons_zero,
        List.cons.injEq, and_true, Fin.ext_iff, byte_val]
      simp only [show ¬ (0 + 1 + 1 = 0 + 1 + 1 + 1) by omega, if_false]
      constructor
      · rintro ⟨e1, e2⟩; omega
      · rintro rfl; exact ⟨rfl, rfl⟩
    · refine ⟨_, by simp only [List.set_cons_succ, List.set_cons_zero, unpack]; rfl, ?_⟩
      simp only [List.length_cons, List.length_nil, List.getD_cons_succ, List.getD_cons_zero,
        List.cons.injEq, and_true, Fin.ext_iff, byte_val]
      simp only [show (0 + 1 + 1 + 1 = 0 + 1 + 1 + 1) from rfl, if_true]
      rw [show (0 + 1 + 1 + 1) = 3 from rfl, hs]
      constructor
      · rintro ⟨e1, e2⟩; omega
      · intro e
        constructor <;> omega
    · simp only [List.length_cons, List.length_nil] at hi; omega
  | case3 s0 s1 =>
    intro a hx h i v hi hv
    have h0 : s0 < 64 := hx s0 (by simp)
    have h1 : s1 < 64 := hx s1 (by simp)
    simp only [unpack, Option.some.injEq] at h
    subst h
    have hs : slack 2 = 16 := by decide
    rcases i with _ | _ | j
    · refine ⟨_, by simp only [List.set_cons_zero, unpack]; rfl, ?_⟩
      simp only [List.length_cons, List.length_nil, List.getD_cons_zero, List.cons.injEq,
        and_true, Fin.ext_iff, byte_val]
      simp only [show ¬ (0 + 1 = 0 + 1 + 1) by omega, if_false]
      constructor
      · intro e1; omega
      · rintro rfl; rfl
    · refine ⟨_, by simp only [List.set_cons_succ, List.set_cons_zero, unpack]; rfl, ?_⟩
      simp only [List.length_cons, List.length_nil, List.getD_cons_succ, List.getD_cons_zero,
        List.cons.injEq, and_true, Fin.ext_iff, byte_val]
      simp only [show (0 + 1 + 1 = 0 + 1 + 1) from rfl, if_true]
      rw [show (0 + 1 + 1) = 2 from rfl, hs]
      constructor
      · intro e1; omega
      · intro e; omega
    · simp only [List.length_cons, List.length_nil] at hi; omega
  | case4 s0 =>
    intro a hx h
    simp [unpack] at h
  | case5 =>
    intro a hx h i v hi
    simp at hi

theorem EncodeToString_length (bs : Bytes) :
    (EncodeToString bs).length = (4 * bs.length + 2) / 3 := by
  induction bs using EncodeToString.induct with
  | case1 b0 b1 b2 rest ih =>
    simp only [EncodeToString, List.length_cons, ih]
    omega
  | case2 b0 b1 => simp [EncodeToString]
  | case3 b0 => simp [EncodeToString]
  | case4 => simp [EncodeToString]

theorem Hmac_Sum_length (key msg : Bytes) : (Hmac.Sum key msg).length = 32 := by
  simp [Hmac.Sum, Sha256.Sum256, Sha256.digest, Sha256.wordBytes]

theorem filterMap_alphabet : ∀ (cs : Bytes), (∀ c ∈ cs, ∃ v, decodeSextet c = some v) →
    cs.filterMap decodeSextet = cs.map sextetOf := by
  intro cs
  induction cs with
  | nil => intro _; rfl
  | cons c cs ih =>
    intro h
    obtain ⟨v, hv⟩ := h c (by simp)
    simp only [List.filterMap_cons, hv, List.map_cons, sextetOf, Option.getD_some]
    rw [ih (fun x hx => h x (by simp [hx]))]

theorem mem_set_cases {α : Type} (l : List α) (i : Nat) (a x : α) (h : x ∈ l.set i a) :
    x = a ∨ x ∈ l := by
  induction l generalizing i with
  | nil => simp at h
  | cons y ys ih =>
    cases i with
    | zero =>
      simp only [List.set_cons_zero, List.mem_cons] at h
      rcases h with h | h
      · exact Or.inl h
      · exact Or.inr (by simp [h])
    | succ j =>
      simp only [List.set_cons_succ, List.mem_cons] at h
      rcases h with h | h
      · exact Or.inr (by simp [h])
      · rcases ih j h with h | h
        · exact Or.inl h
        · exact Or.inr (by simp [h])

theorem sextetOf_lt (c : Byte) : sextetOf c < 64 := by
  unfold sextetOf
  cases h : decodeSextet c with
  | none => simp
  | some v => simpa using decodeSextet_lt c v h

/-- Decoding a text of the alphabet in which one character is replaced by
another character of the alphabet: the bytes change unless the character is
the last one and only its unused low bits change. -/
theorem DecodeString_set_alphabet (mac : Bytes) (i : Nat) (c : Byte) (v w : Nat)
    (hi : i < (EncodeToString mac).length) (hv : decodeSextet c = some v)
    (hw : decodeSextet ((EncodeToString mac).getD i 0) = some w) :
    ∃ s, DecodeString ((EncodeToString mac).set i c) = some s ∧
      (s = mac ↔ (if i + 1 = (EncodeToString mac).length
        then w / slack (EncodeToString mac).length = v / slack (EncodeToString mac).length
        else w = v)) := by
  have halpha := EncodeToString_alphabet mac
  have halpha' : ∀ x ∈ (EncodeToString mac).set i c, ∃ u, decodeSextet x = some u := by
    intro x hx
    rcases mem_set_cases _ _ _ _ hx with rfl | hx
    · exact ⟨v, hv⟩
    · exact halpha x hx
  have h1 : DecodeString (EncodeToString mac) =
      unpack ((EncodeToString mac).map sextetOf) := by
    unfold DecodeString
    rw [decodeLoop_eq_unpack _ [] (by simp)
      (fun x hx hn => by obtain ⟨u, hu⟩ := halpha x hx; rw [hu] at hn; cases hn),
      filterMap_alphabet _ halpha]
    rfl
  have h2 : DecodeString ((EncodeToString mac).set i c) =
      unpack (((EncodeToString mac).map sextetOf).set i v) := by
    unfold DecodeString
    rw [decodeLoop_eq_unpack _ [] (by simp)
      (fun x hx hn => by obtain ⟨u, hu⟩ := halpha' x hx; rw [hu] at hn; cases hn),
      filterMap_alphabet _ halpha', List.map_set]
    have : sextetOf c = v := by simp [sextetOf, hv]
    rw [this]
    rfl
  rw [DecodeString_EncodeToString] at h1
  obtain ⟨s, hs, hiff⟩ := unpack_set ((EncodeToString mac).map sextetOf) mac
    (by
      intro x hx
      simp only [List.mem_map] at hx
      obtain ⟨y, _, rfl⟩ := hx
      exact sextetOf_lt y)
    h1.symm i v (by simpa using hi) (decodeSextet_lt c v hv)
  refine ⟨s, by rw [h2, hs], ?_⟩
  rw [hiff]
  have hg : ((EncodeToString mac).map sextetOf).getD i 0 = w := by
    have hw' : sextetOf ((EncodeToString mac).getD i 0) = w := by
      unfold sextetOf; rw [hw]; rfl
    rw [← hw', List.getD_eq_getElem?_getD, List.getD_eq_getElem?_getD, List.getElem?_map,
      List.getElem?_eq_getElem hi]
    rfl
  simp only [List.length_map, hg]

theorem validateState_sig_undecodable (a : OIDCAuthenticator) (now : Time) (p0 p1 p : Bytes)
    (hp : DecodeString p0 = some p) (hd : (0x2E : Byte) ∉ p1) (hs : DecodeString p1 = none) :
    validateState a now (p0 ++ 0x2E :: p1) = .error .invalidSignatureEncoding := by
  unfold validateState
  rw [Split_two p0 p1 0x2E (DecodeString_no_dot _ _ hp) hd]
  simp only [hp, hs]

theorem validateState_sig_mismatch (a : OIDCAuthenticator) (now : Time) (p0 p1 p s : Bytes)
    (hp : DecodeString p0 = some p) (hs : DecodeString p1 = some s)
    (hne : s ≠ Hmac.Sum a.stateSecret p) :
    validateState a now (p0 ++ 0x2E :: p1) = .error .invalidStateSignature := by
  unfold validateState
  rw [Split_two p0 p1 0x2E (DecodeString_no_dot _ _ hp) (DecodeString_no_dot _ _ hs)]
  simp only [hp, hs, ne_eq, hne, not_false_eq_true, if_true]

theorem validateState_three_segments (a : OIDCAuthenticator) (now : Time) (p0 p1 p2 : Bytes)
    (h0 : (0x2E : Byte) ∉ p0) (h1 : (0x2E : Byte) ∉ p1) :
    validateState a now (p0 ++ 0x2E :: (p1 ++ 0x2E :: p2)) = .error .invalidStateFormat := by
  unfold validateState
  rw [Split_append p0 _ 0x2E h0, Split_append p1 _ 0x2E h1]
  have hne := Split_ne_nil p2 0x2E
  cases hsp : Strings.Split p2 0x2E with
  | nil => exact absurd hsp hne
  | cons q qs => rfl

theorem not_mem_of_not_mem_take {α : Type} (l : List α) (n : Nat) (x : α) (h : x ∉ l) :
    x ∉ l.take n := fun hm => h (List.mem_of_mem_take hm)

/-- The six-bit values of a text of the alphabet in which one character is
replaced by a line break: one value fewer. -/
theorem filterMap_set_linebreak : ∀ (cs : Bytes) (i : Nat) (c : Byte),
    (∀ x ∈ cs, ∃ v, decodeSextet x = some v) → decodeSextet c = none → i < cs.length →
    ((cs.set i c).filterMap decodeSextet).length + 1 = cs.length := by
  intro cs
  induction cs with
  | nil => intro i c _ _ hi; simp at hi
  | cons x xs ih =>
    intro i c h hc hi
    have hxs : ∀ y ∈ xs, ∃ v, decodeSextet y = some v := fun y hy => h y (by simp [hy])
    cases i with
    | zero =>
      simp only [List.set_cons_zero, List.filterMap_cons, hc, List.length_cons]
      rw [filterMap_alphabet xs hxs, List.length_map]
    | succ j =>
      obtain ⟨v, hv⟩ := h x (by simp)
      simp only [List.set_cons_succ, List.filterMap_cons, hv, List.length_cons]
      simp only [List.length_cons] at hi
      rw [ih j c hxs hc (by omega)]

/-! ## Claim on an altered signature -/

/-- C4, the claim fails as stated.  In the token made at `exampleNow` the
signature segment ends in the character `0`.  With that character replaced by
`1` the token is still accepted, and with it replaced by `!` the token is
refused with the error `invalid signature encoding`. -/
theorem C4_altered_signature_counterexample :
    (signatureSegment exampleAuth exampleRedirect exampleNonce exampleNow).getD 42 0 = 0x30 ∧
    validateState exampleAuth exampleNow
      (alteredState exampleAuth exampleRedirect exampleNonce exampleNow 42 0x31)
      = .ok exampleRedirect ∧
    validateState exampleAuth exampleNow
      (alteredState exampleAuth exampleRedirect exampleNonce exampleNow 42 0x21)
      = .error .invalidSignatureEncoding := by
  decide!

theorem signatureSegment_length (a : OIDCAuthenticator) (redirectURL nonce : Bytes) (t0 : Int) :
    (signatureSegment a redirectURL nonce t0).length = 43 := by
  unfold signatureSegment
  rw [EncodeToString_length, Hmac_Sum_length]

theorem createState_segments (a : OIDCAuthenticator) (redirectURL nonce : Bytes) (t0 : Int) :
    createState a t0 nonce redirectURL =
      payloadSegment redirectURL nonce t0 ++ 0x2E :: signatureSegment a redirectURL nonce t0 := by
  unfold createState payloadSegment signatureSegment
  rw [bytesOf_dot]
  simp

/-- C4, amended.  Let the character at position `i` of the 43 characters of
the signature segment be replaced by a different character `c`.  The altered
token is refused with `invalid state signature` when `c` is a character of the
base64url alphabet, unless `i` is the last position and `c` has the same four
leading bits as the character it replaces; in that one case the altered token
is treated as the token itself.  It is also refused with `invalid state
signature` when `c` is a line feed or carriage return, with `invalid state
format` when `c` is the dot, and with `invalid signature encoding` for every
other `c`. -/
theorem C4_altered_signature_is_refused (a : OIDCAuthenticator) (redirectURL nonce : Bytes)
    (t0 now : Int) (i : Nat) (c : Byte) (hi : i < 43)
    (hc : c ≠ (signatureSegment a redirectURL nonce t0).getD i 0) :
    createState a t0 nonce redirectURL =
      payloadSegment redirectURL nonce t0 ++ 0x2E :: signatureSegment a redirectURL nonce t0 ∧
    (signatureSegment a redirectURL nonce t0).length = 43 ∧
    (c = 0x2E →
      validateState a now (alteredState a redirectURL nonce t0 i c)
        = .error .invalidStateFormat) ∧
    (c.val = 0x0A ∨ c.val = 0x0D →
      validateState a now (alteredState a redirectURL nonce t0 i c)
        = .error .invalidStateSignature) ∧
    (decodeSextet c = none → c ≠ 0x2E → ¬ (c.val = 0x0A ∨ c.val = 0x0D) →
      validateState a now (alteredState a redirectURL nonce t0 i c)
        = .error .invalidSignatureEncoding) ∧
    (∀ v, decodeSextet c = some v →
      (i < 42 ∨ v / 4 ≠ sextetOf ((signatureSegment a redirectURL nonce t0).getD i 0) / 4) →
      validateState a now (alteredState a redirectURL nonce t0 i c)
        = .error .invalidStateSignature) ∧
    (∀ v, decodeSextet c = some v → i = 42 →
      v / 4 = sextetOf ((signatureSegment a redirectURL nonce t0).getD i 0) / 4 →
      validateState a now (alteredState a redirectURL nonce t0 i c)
        = validateState a now (createState a t0 nonce redirectURL)) := by
  have hlen := signatureSegment_length a redirectURL nonce t0
  have hseg := createState_segments a redirectURL nonce t0
  set p := Json.marshalState redirectURL (GoTime.unixSeconds t0) nonce with hp
  set mac := Hmac.Sum a.stateSecret p with hmac
  have hsegdef : signatureSegment a redirectURL nonce t0 = EncodeToString mac := rfl
  have hpdef : payloadSegment redirectURL nonce t0 = EncodeToString p := rfl
  have halt : alteredState a redirectURL nonce t0 i c =
      EncodeToString p ++ 0x2E :: (EncodeToString mac).set i c := rfl
  rw [hsegdef] at hlen hc ⊢
  have hi' : i < (EncodeToString mac).length := by omega
  have halpha := EncodeToString_alphabet mac
  have hmem : (EncodeToString mac).getD i 0 ∈ EncodeToString mac := by
    rw [List.getD_eq_getElem?_getD, List.getElem?_eq_getElem hi']
    exact List.getElem_mem hi'
  obtain ⟨w, hw⟩ := halpha _ hmem
  have hsw : sextetOf ((EncodeToString mac).getD i 0) = w := by
    unfold sextetOf; rw [hw]; rfl
  have hp0 : DecodeString (EncodeToString p) = some p := DecodeString_EncodeToString p
  have hdotseg : (0x2E : Byte) ∉ EncodeToString mac := dot_not_mem_EncodeToString mac
  have hslack : slack 43 = 4 := by decide
  refine ⟨by rw [hpdef] at hseg; exact hseg, hlen, ?_, ?_, ?_, ?_, ?_⟩
  · rintro rfl
    rw [halt, List.set_eq_take_append_cons_drop, if_pos hi']
    exact validateState_three_segments a now _ _ _ (dot_not_mem_EncodeToString p)
      (not_mem_of_not_mem_take _ _ _ hdotseg)
  · intro hnl
    have hnone : decodeSextet c = none := by
      rcases hnl with h | h
      · have : c = 0x0A := Fin.ext h
        subst this; decide
      · have : c = 0x0D := Fin.ext h
        subst this; decide
    have hl := filterMap_set_linebreak (EncodeToString mac) i c halpha hnone hi'
    have hdec : DecodeString ((EncodeToString mac).set i c) =
        unpack (((EncodeToString mac).set i c).filterMap decodeSextet) := by
      unfold DecodeString
      rw [decodeLoop_eq_unpack _ [] (by simp)]
      · rfl
      · intro x hx hn
        rcases mem_set_cases _ _ _ _ hx with rfl | hx
        · exact hnl
        · obtain ⟨u, hu⟩ := halpha x hx
          rw [hu] at hn; cases hn
    obtain ⟨s, hs⟩ := unpack_isSome (((EncodeToString mac).set i c).filterMap decodeSextet)
      (by omega)
    have hsl := (unpack_length _ s hs).1
    rw [halt]
    apply validateState_sig_mismatch a now _ _ p s hp0 (by rw [hdec, hs])
    intro e
    have : s.length = 32 := by rw [e]; exact Hmac_Sum_length _ _
    omega
  · intro hnone hnd hnl
    rw [halt]
    apply validateState_sig_undecodable a now _ _ p hp0
    · intro hm
      rcases mem_set_cases _ _ _ _ hm with h | h
      · exact hnd h.symm
      · exact hdotseg h
    · exact decodeLoop_bad c hnone hnl _ [] (List.mem_set _ i hi' c)
  · intro v hv hcond
    obtain ⟨s, hs, hiff⟩ := DecodeString_set_alphabet mac i c v w hi' hv hw
    rw [halt]
    apply validateState_sig_mismatch a now _ _ p s hp0 hs
    intro e
    have hcnd := hiff.mp e
    rw [hlen, hslack] at hcnd
    rw [hsw] at hcond
    split_ifs at hcnd with hl
    · rcases hcond with h | h
      · omega
      · exact h hcnd.symm
    · apply hc
      rw [← encodeSextet_decodeSextet c v hv, ← encodeSextet_decodeSextet _ w hw, hcnd]
  · intro v hv h42 hsame
    obtain ⟨s, hs, hiff⟩ := DecodeString_set_alphabet mac i c v w hi' hv hw
    rw [hlen, hslack] at hiff
    have hse : s = mac := by
      apply hiff.mpr
      rw [if_pos (by omega)]
      rw [hsw] at hsame
      exact hsame.symm
    rw [halt, hseg, hpdef, hsegdef]
    rw [validateState_segments a now _ _ p hp0 (by rw [hs, hse]),
      validateState_segments a now _ _ p hp0 (DecodeString_EncodeToString mac)]

/-- Witness of C4 amended: the token made at `exampleNow` with the first
character of its signature segment, `N`, replaced by `A`. -/
theorem C4_altered_signature_is_refused_witness :
    validateState exampleAuth exampleNow
      (alteredState exampleAuth exampleRedirect exampleNonce exampleNow 0 0x41)
      = .error .invalidStateSignature :=
  (C4_altered_signature_is_refused exampleAuth exampleRedirect exampleNonce exampleNow
    exampleNow 0 0x41 (by decide) (by decide!)).2.2.2.2.2.1 0 (by decide) (Or.inl (by decide))

/-! ## Claims on identity claims and allow-lists -/

/-- C7, the code departs from the claim.  For the name claim `Madonna` and no
`given_name` or `family_name`, `extractUserInfo` returns the first name empty
and the last name `Madonna`: the two results of `splitName` are assigned the
wrong way round. -/
theorem C7_single_token_name_is_last_name :
    extractUserInfo (exampleVerify (bytesOf "Madonna") [] []) (some (bytesOf "raw")) =
      .ret (.ok { Email := bytesOf "a@b.com", FirstName := [], LastName := bytesOf "Madonna",
                  Subject := bytesOf "sub-1" }) := by
  decide

/-- C8, the code departs from the claim.  For an empty name claim and no
`given_name` or `family_name`, `extractUserInfo` returns the first name `OIDC`
and the last name `User`, the two defaults exchanged. -/
theorem C8_default_names_are_exchanged :
    extractUserInfo (exampleVerify [] [] []) (some (bytesOf "raw")) =
      .ret (.ok { Email := bytesOf "a@b.com", FirstName := bytesOf "OIDC",
                  LastName := bytesOf "User", Subject := bytesOf "sub-1" }) := by
  decide

/-- C9, the code departs from the claim.  For a name claim that is a single
space, `given_name` `Ann` and `family_name` `Lee`, `extractUserInfo` does not
return: `splitName` indexes the empty result of `strings.Fields` and
panics. -/
theorem C9_blank_name_panics :
    extractUserInfo (exampleVerify (bytesOf " ") (bytesOf "Ann") (bytesOf "Lee"))
      (some (bytesOf "raw")) = .panic := by
  decide

theorem mem_setInsert (k x : Bytes) (m : List Bytes) : x ∈ setInsert k m ↔ x = k ∨ x ∈ m := by
  unfold setInsert
  split_ifs with h
  · constructor
    · intro hx; exact Or.inr hx
    · rintro (rfl | hx)
      · exact h
      · exact hx
  · simp only [List.mem_append, List.mem_singleton]
    tauto

theorem mem_foldl_setInsert (f : Bytes → Bytes) : ∀ (L : List Bytes) (init : List Bytes)
    (x : Bytes), x ∈ L.foldl (fun m d => setInsert (f d) m) init ↔
      x ∈ init ∨ ∃ e ∈ L, f e = x := by
  intro L
  induction L with
  | nil => intro init x; simp
  | cons d L ih =>
    intro init x
    simp only [List.foldl_cons, ih, mem_setInsert, List.mem_cons, exists_eq_or_imp]
    constructor
    · rintro ((rfl | h) | h)
      · exact Or.inr (Or.inl rfl)
      · exact Or.inl h
      · exact Or.inr (Or.inr h)
    · rintro (h | h | h)
      · exact Or.inl (Or.inr h)
      · exact Or.inl (Or.inl h.symm)
      · exact Or.inr h

/-- C10. Domain allow-list.  Let the authenticator be built from a
configuration, and let the email be `localPart@domain` with no other `@`.
With an empty list of allowed domains `validateEmailDomain` accepts.  With a
non-empty list it accepts if and only if the lower-cased domain is the
lower-cased form of some configured entry, and otherwise returns the error
`email domain not allowed`. -/
theorem C10_domain_allow_list (unicodeLower : Bytes → Bytes) (cfg : Config)
    (a : OIDCAuthenticator) (localPart domain : Bytes)
    (ha : NewOIDCAuthenticator unicodeLower cfg true = some a)
    (hl : (0x40 : Byte) ∉ localPart) (hd : (0x40 : Byte) ∉ domain) :
    (cfg.AllowedDomains = [] →
      validateEmailDomain unicodeLower a (localPart ++ 0x40 :: domain) = .ok ()) ∧
    (cfg.AllowedDomains ≠ [] →
      (validateEmailDomain unicodeLower a (localPart ++ 0x40 :: domain) = .ok () ↔
        ∃ e ∈ cfg.AllowedDomains,
          Strings.ToLower unicodeLower domain = Strings.ToLower unicodeLower e) ∧
      ((¬ ∃ e ∈ cfg.AllowedDomains,
          Strings.ToLower unicodeLower domain = Strings.ToLower unicodeLower e) →
        validateEmailDomain unicodeLower a (localPart ++ 0x40 :: domain)
          = .error .emailDomainNotAllowed)) := by
  simp only [NewOIDCAuthenticator, Bool.not_true, Bool.false_eq_true, if_false,
    Option.some.injEq] at ha
  subst ha
  have hmem : ∀ x, x ∈ cfg.AllowedDomains.foldl
      (fun m d => setInsert (Strings.ToLower unicodeLower d) m) [] ↔
      ∃ e ∈ cfg.AllowedDomains, Strings.ToLower unicodeLower e = x := by
    intro x
    rw [mem_foldl_setInsert]
    simp
  constructor
  · intro hnil
    simp [validateEmailDomain, hnil]
  · intro hne
    have hlen : ¬ ((cfg.AllowedDomains.foldl
        (fun m d => setInsert (Strings.ToLower unicodeLower d) m) []).length = 0) := by
      intro h0
      obtain ⟨e, he⟩ := List.exists_mem_of_ne_nil _ hne
      have := (hmem (Strings.ToLower unicodeLower e)).mpr ⟨e, he, rfl⟩
      rw [List.length_eq_zero.mp h0] at this
      simp at this
    have hval : validateEmailDomain unicodeLower
        { stateSecret := cfg.StateSecret, stateTTL := cfg.StateTTL,
          allowedDomains := cfg.AllowedDomains.foldl
            (fun m d => setInsert (Strings.ToLower unicodeLower d) m) [],
          allowedEmails := cfg.AllowedEmails.foldl
            (fun m d => setInsert (Strings.ToLower unicodeLower d) m) [] }
        (localPart ++ 0x40 :: domain) =
        if (∃ e ∈ cfg.AllowedDomains,
          Strings.ToLower unicodeLower domain = Strings.ToLower unicodeLower e)
        then .ok () else .error .emailDomainNotAllowed := by
      simp only [validateEmailDomain, hlen, if_false, Split_two localPart domain 0x40 hl hd,
        hmem]
      by_cases hex : ∃ e ∈ cfg.AllowedDomains,
          Strings.ToLower unicodeLower domain = Strings.ToLower unicodeLower e
      · have hex' : ∃ e ∈ cfg.AllowedDomains,
            Strings.ToLower unicodeLower e = Strings.ToLower unicodeLower domain := by
          obtain ⟨e, he, h⟩ := hex
          exact ⟨e, he, h.symm⟩
        simp [hex, hex']
      · have hex' : ¬ ∃ e ∈ cfg.AllowedDomains,
            Strings.ToLower unicodeLower e = Strings.ToLower unicodeLower domain := by
          rintro ⟨e, he, h⟩
          exact hex ⟨e, he, h.symm⟩
        simp [hex, hex']
    rw [hval]
    constructor
    · constructor
      · intro h
        by_contra hc
        rw [if_neg hc] at h
        cases h
      · intro h
        rw [if_pos h]
    · intro h
      rw [if_neg h]

/-- Witness of C10: with the domains `B.com` and `c.org` configured, the email
`x@b.COM` is accepted. -/
theorem C10_domain_allow_list_witness :
    validateEmailDomain id
      { stateSecret := bytesOf "s3cret", stateTTL := 600 * GoTime.Second,
        allowedDomains := [bytesOf "b.com", bytesOf "c.org"], allowedEmails := [] }
      (bytesOf "x" ++ 0x40 :: bytesOf "b.COM") = .ok () :=
  ((C10_domain_allow_list id exampleConfig
      { stateSecret := bytesOf "s3cret", stateTTL := 600 * GoTime.Second,
        allowedDomains := [bytesOf "b.com", bytesOf "c.org"], allowedEmails := [] }
      (bytesOf "x") (bytesOf "b.COM") (by decide) (by decide) (by decide)).2 (by decide)).1.mpr
    ⟨bytesOf "B.com", by decide, by decide⟩

/-! ## What extractUserInfo does with the name claims -/

/-- Whenever `extractUserInfo` returns user data, a non-empty `given_name` is
the first name and a non-empty `family_name` is the last name. -/
theorem extractUserInfo_overrides (verify : Bytes → Option IDToken) (raw : Bytes)
    (idToken : IDToken) (claims : Claims) (u : UserData) (hv : verify raw = some idToken)
    (hc : idToken.claims = some claims)
    (h : extractUserInfo verify (some raw) = .ret (.ok u)) :
    (claims.GivenName ≠ [] → u.FirstName = claims.GivenName) ∧
    (claims.FamilyName ≠ [] → u.LastName = claims.FamilyName) ∧
    u.Email = claims.Email ∧ u.Subject = claims.Sub := by
  simp only [extractUserInfo, hv, hc] at h
  cases hs : splitName claims.Name with
  | panic => simp [hs] at h
  | ret p =>
    obtain ⟨l, f⟩ := p
    simp only [hs, Run.ret.injEq, Except.ok.injEq] at h
    subst h
    by_cases hg : claims.GivenName = [] <;> by_cases hf : claims.FamilyName = [] <;>
      simp [hg, hf]

/-- For a name claim of one or more fields and no explicit name claims, the
first field becomes the last name and the other fields, joined by single
spaces, the first name. -/
theorem extractUserInfo_name_fields (verify : Bytes → Option IDToken) (raw : Bytes)
    (idToken : IDToken) (claims : Claims) (p : Bytes) (rest : List Bytes)
    (hv : verify raw = some idToken) (hc : idToken.claims = some claims)
    (hn : claims.Name ≠ []) (hfields : Strings.Fields claims.Name = p :: rest)
    (hg : claims.GivenName = []) (hf : claims.FamilyName = []) :
    extractUserInfo verify (some raw) =
      .ret (.ok { Email := claims.Email, FirstName := Strings.Join rest (bytesOf " "),
                  LastName := p, Subject := claims.Sub }) := by
  simp only [extractUserInfo, hv, hc, splitName, hn, if_false, hfields]
  cases rest with
  | nil => simp [hg, hf, Strings.Join]
  | cons q qs => simp [hg, hf]

/-! ## The email allow-list -/

/-- Claim C11 (fails in the code): with the allowed email `a@b.com`, the
email `A@B.com` is refused with `email not allowed`, although the two are equal
when compared without regard to case.  `NewOIDCAuthenticator` stores the
entries in lower case and `validateEmail` looks the email up as it is written:
an entry configured as `A@B.com` refuses this very spelling, and only the
spelling in lower case is accepted. -/
theorem C11_mixed_case_email_is_refused :
    (NewOIDCAuthenticator id exampleEmailConfig true).map
        (fun a => validateEmail a (bytesOf "A@B.com")) = some (.error .emailNotAllowed) ∧
    (NewOIDCAuthenticator id exampleMixedCaseConfig true).map
        (fun a => validateEmail a (bytesOf "A@B.com")) = some (.error .emailNotAllowed) ∧
    (NewOIDCAuthenticator id exampleMixedCaseConfig true).map
        (fun a => validateEmail a (bytesOf "a@b.com")) = some (.ok ()) ∧
    (NewOIDCAuthenticator id exampleEmailConfig true).map
        (fun a => validateEmailDomain id { a with allowedDomains := [bytesOf "b.com"] }
          (bytesOf "A@B.com")) = some (.ok ()) := by
  decide

/-! ## The callback -/

/-- A callback with a valid state, an allowed email and working collaborators
goes through every step: the four calls, the rewritten cookie and the redirect
to the destination of the state. -/
theorem HandleCallback_example :
    HandleCallback id exampleDomainAuth true (exampleCollaborators (bytesOf "ann@b.com"))
      exampleNow exampleCallback =
    ([.exchange (bytesOf "code-1"), .verify (bytesOf "raw-id-token"),
      .provisionUser ⟨bytesOf "ann@b.com", bytesOf "Lee", bytesOf "Ann", bytesOf "sub-1"⟩,
      .login (bytesOf "7") ⟨bytesOf "ann@b.com", bytesOf "Lee", bytesOf "Ann", bytesOf "sub-1"⟩,
      .setCookie (bytesOf "sid=abc; Domain=app.example.com; Path=/; Secure; SameSite=Lax"),
      .redirect exampleRedirect], .ret (.ok ())) := by
  decide!

/-- Claim C12: the callback stops at the first failure.  For every
authenticator, request, clock reading and every behaviour of the provider and
of the backend: if `validateState` fails, `HandleCallback` calls nothing and
writes nothing; if the ID token gives user data whose email fails the domain
or the email allow-list, neither `ProvisionUser` nor `Login` is called; and
whenever the result is not the nil error (an error or a panic), no
`Set-Cookie` header has been added and no redirect written. -/
theorem C12_hard_stop (caseTable : Nat → Nat) (a : OIDCAuthenticator) (secure : Bool)
    (c : Collaborators) (now : Time) (r : CallbackRequest) :
    ((∃ e, validateState a now r.state = .error e) →
      (HandleCallback caseTable a secure c now r).1 = []) ∧
    (∀ tok userData, c.exchange r.code = some tok →
      extractUserInfo c.verify tok = .ret (.ok userData) →
      (validateEmailDomain (Strings.Map (Unicode.ToLower caseTable)) a userData.Email ≠ .ok () ∨
        validateEmail a userData.Email ≠ .ok ()) →
      ∀ ev ∈ (HandleCallback caseTable a secure c now r).1, ev.isBackendCall = false) ∧
    ((HandleCallback caseTable a secure c now r).2 ≠ .ret (.ok ()) →
      ∀ ev ∈ (HandleCallback caseTable a secure c now r).1, ev.isResponseWrite = false) := by
  refine ⟨?_, ?_, ?_⟩
  · rintro ⟨e, he⟩
    simp [HandleCallback, he]
  · intro tok userData htok hinfo hfail
    unfold HandleCallback
    cases hs : validateState a now r.state with
    | error e => simp
    | ok redirectURL =>
      simp only [htok, hinfo]
      cases hd : validateEmailDomain (Strings.Map (Unicode.ToLower caseTable)) a userData.Email with
      | error e => cases tok <;> simp [Event.isBackendCall]
      | ok u =>
        cases he : validateEmail a userData.Email with
        | error e => cases tok <;> simp [he, Event.isBackendCall]
        | ok v =>
          exfalso
          rcases hfail with h | h
          · exact h hd
          · exact h he
  · unfold HandleCallback
    cases hs : validateState a now r.state with
    | error e => simp
    | ok redirectURL =>
      cases hx : c.exchange r.code with
      | none => simp [Event.isResponseWrite]
      | some tok =>
        cases hi : extractUserInfo c.verify tok with
        | panic => cases tok <;> simp [hi, Event.isResponseWrite]
        | ret res =>
          cases res with
          | error e => cases tok <;> simp [hi, Event.isResponseWrite]
          | ok userData =>
            cases hd : validateEmailDomain (Strings.Map (Unicode.ToLower caseTable)) a
                userData.Email with
            | error e => cases tok <;> simp [hi, hd, Event.isResponseWrite]
            | ok u =>
              cases he : validateEmail a userData.Email with
              | error e => cases tok <;> simp [hi, hd, he, Event.isResponseWrite]
              | ok v =>
                cases hp : c.provisionUser userData with
                | none => cases tok <;> simp [hi, hd, he, hp, Event.isResponseWrite]
                | some userID =>
                  cases hl : c.login userID userData with
                  | none => cases tok <;> simp [hi, hd, he, hp, hl, Event.isResponseWrite]
                  | some cookies => simp [hi, hd, he, hp, hl]

/-- Claim C12 on two requests: a callback whose state was tampered with calls
nothing, and a callback with the email `x@c.com` under the allowed domain
`b.com` calls neither `ProvisionUser` nor `Login`. -/
theorem C12_hard_stop_witness :
    (HandleCallback id exampleDomainAuth true (exampleCollaborators (bytesOf "ann@b.com"))
      exampleNow exampleTamperedCallback).1 = [] ∧
    ∀ ev ∈ (HandleCallback id exampleDomainAuth true (exampleCollaborators (bytesOf "x@c.com"))
      exampleNow exampleCallback).1, ev.isBackendCall = false :=
  ⟨(C12_hard_stop id exampleDomainAuth true (exampleCollaborators (bytesOf "ann@b.com"))
      exampleNow exampleTamperedCallback).1 ⟨.invalidStateSignature, by decide!⟩,
   (C12_hard_stop id exampleDomainAuth true (exampleCollaborators (bytesOf "x@c.com"))
      exampleNow exampleCallback).2.1 (some (bytesOf "raw-id-token"))
      ⟨bytesOf "x@c.com", bytesOf "Lee", bytesOf "Ann", bytesOf "sub-1"⟩ (by decide) (by decide)
      (Or.inl (by decide))⟩

/-! ## Facts about strings.Split, strings.Join and strings.TrimSpace -/

theorem bytesOf_semicolon_space : bytesOf "; " = [0x3B, 0x20] := by decide

theorem Split_cons_ne (c sep : Byte) (s : Bytes) (h : c ≠ sep) (p : Bytes) (ps : List Bytes)
    (hs : Strings.Split s sep = p :: ps) : Strings.Split (c :: s) sep = (c :: p) :: ps := by
  simp [Strings.Split, h, hs]

/-- Splitting at `;` a list of pieces joined by `; ` gives the pieces back,
each but the first with the space in front. -/
theorem Split_Join (p : Bytes) (ps : List Bytes) (h : ∀ q ∈ p :: ps, (0x3B : Byte) ∉ q) :
    Strings.Split (Strings.Join (p :: ps) (bytesOf "; ")) 0x3B =
      p :: ps.map (fun q => 0x20 :: q) := by
  induction ps generalizing p with
  | nil => simp [Strings.Join, Split_no_sep p 0x3B (h p (by simp))]
  | cons q qs ih =>
    have hq : ∀ r ∈ q :: qs, (0x3B : Byte) ∉ r := fun r hr => h r (by simp at hr ⊢; tauto)
    have e : Strings.Join (p :: q :: qs) (bytesOf "; ") =
        p ++ 0x3B :: (0x20 :: Strings.Join (q :: qs) (bytesOf "; ")) := by
      rw [Strings.Join, bytesOf_semicolon_space]; simp
    rw [e, Split_append p _ 0x3B (h p (by simp)),
      Split_cons_ne 0x20 0x3B _ (by decide) _ _ (ih q hq)]
    simp

theorem DecodeRune_nil : DecodeRune [] = (RuneError, 0) := rfl

theorem IsSpace_RuneError : Strings.IsSpace RuneError = false := by decide

theorem trimLeftAux_drop : ∀ (fuel : Nat) (s : Bytes), ∃ n, Strings.trimLeftAux fuel s = s.drop n := by
  intro fuel
  induction fuel with
  | zero => intro s; exact ⟨0, by simp [Strings.trimLeftAux]⟩
  | succ k ih =>
    intro s
    unfold Strings.trimLeftAux
    split
    · obtain ⟨n, hn⟩ := ih (s.drop (DecodeRune s).2)
      exact ⟨(DecodeRune s).2 + n, by rw [hn, List.drop_drop]⟩
    · exact ⟨0, by simp⟩

theorem trimLeftAux_head : ∀ (fuel : Nat) (s : Bytes), s.length ≤ fuel →
    Strings.IsSpace (DecodeRune (Strings.trimLeftAux fuel s)).1 = false := by
  intro fuel
  induction fuel with
  | zero =>
    intro s hs
    have : s = [] := List.length_eq_zero.mp (by omega)
    subst this
    simp [Strings.trimLeftAux, DecodeRune_nil, IsSpace_RuneError]
  | succ k ih =>
    intro s hs
    unfold Strings.trimLeftAux
    split
    · next hsp =>
      cases s with
      | nil => simp [DecodeRune_nil, IsSpace_RuneError] at hsp
      | cons b bs =>
        have hw := DecodeRune_width b bs
        apply ih
        simp only [List.length_drop, List.length_cons] at hs ⊢
        omega
    · next hsp => simpa using hsp

theorem trimLeftAux_fixed (fuel : Nat) (s : Bytes)
    (h : Strings.IsSpace (DecodeRune s).1 = false) : Strings.trimLeftAux fuel s = s := by
  cases fuel with
  | zero => rfl
  | succ k => simp [Strings.trimLeftAux, h]

theorem trimRightAux_take : ∀ (fuel : Nat) (s : Bytes),
    ∃ n, Strings.trimRightAux fuel s = s.take n := by
  intro fuel
  induction fuel with
  | zero => intro s; exact ⟨s.length, by simp [Strings.trimRightAux]⟩
  | succ k ih =>
    intro s
    unfold Strings.trimRightAux
    split
    · obtain ⟨n, hn⟩ := ih (s.take (s.length - (DecodeLastRune s).2))
      exact ⟨min n (s.length - (DecodeLastRune s).2), by rw [hn, List.take_take]⟩
    · exact ⟨s.length, by simp⟩

theorem trimRightAux_fixed (fuel : Nat) (s : Bytes)
    (h : Strings.IsSpace (DecodeLastRune s).1 = false) : Strings.trimRightAux fuel s = s := by
  cases fuel with
  | zero => rfl
  | succ k => simp [Strings.trimRightAux, h]

theorem DecodeRune_ascii (b : Byte) (bs : Bytes) (h : b.val < 0x80) :
    DecodeRune (b :: bs) = (b.val, 1) := by
  simp [DecodeRune, h]

/-- Bytes added behind a string leave the rune decoded at its head as it is,
unless the string alone decodes to U+FFFD. -/
theorem DecodeRune_append (x y : Bytes) :
    (DecodeRune x).1 = RuneError ∨ DecodeRune (x ++ y) = DecodeRune x := by
  cases x with
  | nil => left; rfl
  | cons b bs =>
    rcases DecodeRune_cases b bs with ⟨h1, hd⟩ | ⟨h1, hd⟩ | ⟨b1, t, rfl, h1, h2, h3, h4, hd⟩ |
      ⟨b1, b2, t, rfl, h1, h2, h3, h4, h5, h6, h7, h8, hd⟩ |
      ⟨b1, b2, b3, t, rfl, h1, h2, h3, h4, h5, h6, h7, h8, h9, h10, hd⟩
    · right; rw [hd]; exact DecodeRune_ascii b _ h1
    · left; rw [hd]
    · right; rw [hd]; exact DecodeRune_two b b1 _ h1 h2 h3 h4
    · right; rw [hd]; exact DecodeRune_three b b1 b2 _ h1 h2 h3 h4 h5 h6 h7 h8
    · right; rw [hd]; exact DecodeRune_four b b1 b2 b3 _ h1 h2 h3 h4 h5 h6 h7 h8 h9 h10

/-- Decoding a cut string gives the rune of the whole string or U+FFFD. -/
theorem DecodeRune_take (t : Bytes) (n : Nat) :
    (DecodeRune (t.take n)).1 = RuneError ∨ DecodeRune (t.take n) = DecodeRune t := by
  rcases DecodeRune_append (t.take n) (t.drop n) with h | h
  · exact Or.inl h
  · right; rw [← h, List.take_append_drop]

/-- When a string decodes to one rune over its whole length, it is one ASCII
byte or all its bytes are above the ASCII range. -/
theorem DecodeRune_whole (w : Bytes) (h : (DecodeRune w).2 = w.length) :
    w = [] ∨ (∃ b : Byte, w = [b] ∧ b.val < 0x80) ∨ ∀ b ∈ w, 0x80 ≤ b.val := by
  cases w with
  | nil => left; rfl
  | cons b bs =>
    right
    rcases DecodeRune_cases b bs with ⟨h1, hd⟩ | ⟨h1, hd⟩ | ⟨b1, t, rfl, h1, h2, h3, h4, hd⟩ |
      ⟨b1, b2, t, rfl, h1, h2, h3, h4, h5, h6, h7, h8, hd⟩ |
      ⟨b1, b2, b3, t, rfl, h1, h2, h3, h4, h5, h6, h7, h8, h9, h10, hd⟩
    · rw [hd] at h
      simp at h
      subst h
      left; exact ⟨b, rfl, h1⟩
    · rw [hd] at h
      simp at h
      subst h
      right; simpa using h1
    · rw [hd] at h
      simp at h
      subst h
      right
      intro x hx
      simp at hx
      rcases hx with rfl | rfl <;> omega
    · rw [hd] at h
      simp at h
      subst h
      right
      intro x hx
      simp at hx
      rcases hx with rfl | rfl | rfl <;> omega
    · rw [hd] at h
      simp at h
      subst h
      right
      intro x hx
      simp at hx
      rcases hx with rfl | rfl | rfl | rfl <;> omega

/-- The bytes handed to `DecodeRune` by `DecodeLastRune` are the end of the
string. -/
theorem lastWindow_suffix (b1 : Byte) (rest : Bytes) :
    ∃ pre w, lastWindow b1 rest = w ++ [b1] ∧ rest.reverse ++ [b1] = pre ++ (w ++ [b1]) := by
  rcases rest with _ | ⟨b2, _ | ⟨b3, _ | ⟨b4, t⟩⟩⟩
  · exact ⟨[], [], rfl, rfl⟩
  · refine ⟨[], [b2], ?_, by simp⟩
    simp [lastWindow]
  · by_cases h2 : RuneStart b2 = true
    · exact ⟨[b3], [b2], by simp [lastWindow, h2], by simp⟩
    · refine ⟨[], [b3, b2], ?_, by simp⟩
      simp [lastWindow, h2]
  · by_cases h2 : RuneStart b2 = true
    · exact ⟨t.reverse ++ [b4, b3], [b2], by simp [lastWindow, h2], by simp⟩
    · by_cases h3 : RuneStart b3 = true
      · exact ⟨t.reverse ++ [b4], [b3, b2], by simp [lastWindow, h2, h3], by simp⟩
      · exact ⟨t.reverse, [b4, b3, b2], by simp [lastWindow, h2, h3], by simp⟩

/-- A space rune found at the end of a string takes up a non-empty end of the
string made of one ASCII space or of bytes above the ASCII range. -/
theorem DecodeLastRune_space (s : Bytes) (h : Strings.IsSpace (DecodeLastRune s).1 = true) :
    ∃ pre suf, s = pre ++ suf ∧ suf ≠ [] ∧ suf.length = (DecodeLastRune s).2 ∧
      ∀ b ∈ suf, 0x80 ≤ b.val ∨ Strings.IsSpace b.val = true := by
  unfold DecodeLastRune at h ⊢
  cases hr : s.reverse with
  | nil => rw [hr] at h; simp [IsSpace_RuneError] at h
  | cons b1 rest =>
    have hs : s = rest.reverse ++ [b1] := by
      have := congrArg List.reverse hr
      simpa using this
    rw [hr] at h
    simp only at h ⊢
    by_cases h1 : b1.val < 0x80
    · simp only [h1, if_true] at h ⊢
      exact ⟨rest.reverse, [b1], hs, by simp, rfl, by simpa using Or.inr h⟩
    · simp only [h1, if_false] at h ⊢
      by_cases h2 : (DecodeRune (lastWindow b1 rest)).2 ≠ (lastWindow b1 rest).length
      · simp [h2, IsSpace_RuneError] at h
      · simp only [h2, if_false] at h ⊢
        obtain ⟨pre, w, hw, hpre⟩ := lastWindow_suffix b1 rest
        refine ⟨pre, lastWindow b1 rest, by rw [hs, hpre, hw], by rw [hw]; simp,
          (not_not.mp h2).symm, ?_⟩
        rcases DecodeRune_whole _ (not_not.mp h2) with h0 | ⟨b, hb, hlt⟩ | hall
        · rw [hw] at h0; simp at h0
        · rw [hw] at hb
          have : b1 = b := by
            have := congrArg List.getLast? hb
            simpa using this
          subst this
          exact absurd hlt h1
        · intro b hb; exact Or.inl (hall b hb)

theorem trimRightAux_last : ∀ (fuel : Nat) (s : Bytes), s.length ≤ fuel →
    Strings.IsSpace (DecodeLastRune (Strings.trimRightAux fuel s)).1 = false := by
  intro fuel
  induction fuel with
  | zero =>
    intro s hs
    have : s = [] := List.length_eq_zero.mp (by omega)
    subst this
    decide
  | succ k ih =>
    intro s hs
    unfold Strings.trimRightAux
    split
    · next hsp =>
      obtain ⟨pre, suf, e, hne, hlen, _⟩ := DecodeLastRune_space s hsp
      apply ih
      have : 0 < suf.length := List.length_pos.mpr hne
      have hl : s.length = pre.length + suf.length := by rw [e]; simp
      simp only [List.length_take]
      omega
    · next hsp => simpa using hsp

/-- Trimming on the right stops at the latest at an ASCII byte that is no
space. -/
theorem trimRightAux_keeps (q : Bytes) (b : Byte) (hb : b.val < 0x80)
    (hns : Strings.IsSpace b.val = false) : ∀ (fuel : Nat) (h : Bytes),
    ∃ h', Strings.trimRightAux fuel (q ++ b :: h) = q ++ b :: h' := by
  intro fuel
  induction fuel with
  | zero => intro h; exact ⟨h, rfl⟩
  | succ k ih =>
    intro h
    unfold Strings.trimRightAux
    split
    · next hsp =>
      obtain ⟨pre, suf, e, hne, hlen, hall⟩ := DecodeLastRune_space _ hsp
      have htake : (q ++ b :: h).take ((q ++ b :: h).length - (DecodeLastRune (q ++ b :: h)).2)
          = pre := by
        rw [← hlen]
        conv_lhs => rw [e]
        simp
      rw [htake]
      have e2 : (q ++ [b]) ++ h = pre ++ suf := by simpa using e
      rcases List.append_eq_append_iff.mp e2 with ⟨a', h1, h2⟩ | ⟨c', h1, h2⟩
      · obtain ⟨h', hh⟩ := ih a'
        have : pre = q ++ b :: a' := by simpa using h1
        rw [this]
        exact ⟨h', hh⟩
      · rcases List.eq_nil_or_concat c' with rfl | ⟨c'', x, rfl⟩
        · have : pre = q ++ b :: [] := by simpa using h1.symm
          rw [this]
          exact ih []
        · exfalso
          have hx : x = b := by
            have := congrArg List.getLast? h1
            simp at this
            exact this.symm
          subst hx
          have hmem : x ∈ suf := by rw [h2]; simp
          rcases hall x hmem with h80 | hsp2
          · omega
          · rw [hns] at hsp2; cases hsp2
    · exact ⟨h, rfl⟩

theorem TrimLeftSpace_fixed (s : Bytes) (h : Strings.IsSpace (DecodeRune s).1 = false) :
    Strings.TrimLeftSpace s = s := trimLeftAux_fixed _ s h

/-- A space in front of a string does not change what trimming gives. -/
theorem TrimSpace_space (s : Bytes) : Strings.TrimSpace (0x20 :: s) = Strings.TrimSpace s := by
  have : Strings.TrimLeftSpace (0x20 :: s) = Strings.TrimLeftSpace s := by
    have hd : DecodeRune ((0x20 : Byte) :: s) = (0x20, 1) := DecodeRune_ascii _ _ (by decide)
    have hsp : Strings.IsSpace 0x20 = true := by decide
    simp only [Strings.TrimLeftSpace, List.length_cons, Strings.trimLeftAux, hd, hsp, if_true,
      List.drop_succ_cons, List.drop_zero]
  rw [Strings.TrimSpace, this, Strings.TrimSpace]

theorem TrimSpace_mem (s : Bytes) (b : Byte) (h : b ∈ Strings.TrimSpace s) : b ∈ s := by
  obtain ⟨n, hn⟩ := trimRightAux_take (Strings.TrimLeftSpace s).length (Strings.TrimLeftSpace s)
  obtain ⟨m, hm⟩ := trimLeftAux_drop s.length s
  unfold Strings.TrimSpace Strings.TrimRightSpace at h
  rw [hn] at h
  have h1 := List.mem_of_mem_take h
  unfold Strings.TrimLeftSpace at h1
  rw [hm] at h1
  exact List.mem_of_mem_drop h1

/-- Trimming a trimmed string changes nothing. -/
theorem TrimSpace_idem (s : Bytes) :
    Strings.TrimSpace (Strings.TrimSpace s) = Strings.TrimSpace s := by
  have hl : Strings.IsSpace (DecodeRune (Strings.TrimLeftSpace s)).1 = false :=
    trimLeftAux_head s.length s (le_refl _)
  obtain ⟨n, hn⟩ := trimRightAux_take (Strings.TrimLeftSpace s).length (Strings.TrimLeftSpace s)
  have hr : Strings.IsSpace (DecodeLastRune (Strings.TrimSpace s)).1 = false :=
    trimRightAux_last _ _ (le_refl _)
  have hhead : Strings.IsSpace (DecodeRune (Strings.TrimSpace s)).1 = false := by
    have e : Strings.TrimSpace s = (Strings.TrimLeftSpace s).take n := hn
    rw [e]
    rcases DecodeRune_take (Strings.TrimLeftSpace s) n with h | h
    · rw [h]; exact IsSpace_RuneError
    · rw [h]; exact hl
  have e1 : Strings.TrimLeftSpace (Strings.TrimSpace s) = Strings.TrimSpace s :=
    TrimLeftSpace_fixed _ hhead
  conv_lhs => rw [Strings.TrimSpace, e1]
  exact trimRightAux_fixed _ _ hr

/-- Trimming a string that starts with a rune that is no space and holds an
ASCII byte that is no space keeps the string up to that byte. -/
theorem TrimSpace_keeps (q : Bytes) (b : Byte) (h : Bytes)
    (hq : Strings.IsSpace (DecodeRune (q ++ b :: h)).1 = false) (hb : b.val < 0x80)
    (hns : Strings.IsSpace b.val = false) :
    ∃ h', Strings.TrimSpace (q ++ b :: h) = q ++ b :: h' := by
  rw [Strings.TrimSpace, TrimLeftSpace_fixed _ hq]
  exact trimRightAux_keeps q b hb hns _ h

/-! ## Facts about strings.ToLower -/

theorem runes_cons_ascii (b : Byte) (s : Bytes) (hb : b.val < 0x80) :
    runes (b :: s) = (b.val, [b]) :: runes s := by
  simp [runes, runesAux, DecodeRune_ascii b s hb]

theorem ToLowerRunes_cons (caseTable : Nat → Nat) (b : Byte) (s : Bytes) (hb : b.val < 0x80) :
    Strings.ToLowerRunes caseTable (b :: s) =
      Strings.lowerByte b :: Strings.ToLowerRunes caseTable s := by
  have henc : EncodeRune (Unicode.ToLower caseTable b.val) = [Strings.lowerByte b] := by
    unfold Unicode.ToLower Strings.lowerByte
    simp only [hb, if_true]
    split_ifs with h
    · have : b.val + 32 < 0x80 := by omega
      simp [EncodeRune, this]
    · exact EncodeRune_ascii b hb
  unfold Strings.ToLowerRunes Strings.ToLower
  by_cases hs : s.all (fun b => decide (b.val < 0x80)) = true
  · simp [hs, hb]
  · simp [hs, hb, Strings.Map, runes_cons_ascii b s hb, henc]

theorem ToLowerRunes_nil (caseTable : Nat → Nat) : Strings.ToLowerRunes caseTable [] = [] := by
  simp [Strings.ToLowerRunes, Strings.ToLower]

theorem ToLowerRunes_ascii (caseTable : Nat → Nat) (s : Bytes)
    (h : s.all (fun b => decide (b.val < 0x80)) = true) :
    Strings.ToLowerRunes caseTable s = s.map Strings.lowerByte := by
  simp [Strings.ToLowerRunes, Strings.ToLower, h]

theorem bytesOf_Domain : bytesOf "Domain=" = [0x44, 0x6F, 0x6D, 0x61, 0x69, 0x6E, 0x3D] := by
  decide

theorem ToLowerRunes_Domain (caseTable : Nat → Nat) (h : Bytes) :
    Strings.ToLowerRunes caseTable (bytesOf "Domain=" ++ h) =
      bytesOf "domain=" ++ Strings.ToLowerRunes caseTable h := by
  rw [bytesOf_Domain]
  simp only [List.cons_append, List.nil_append]
  rw [ToLowerRunes_cons _ _ _ (by decide), ToLowerRunes_cons _ _ _ (by decide),
    ToLowerRunes_cons _ _ _ (by decide), ToLowerRunes_cons _ _ _ (by decide),
    ToLowerRunes_cons _ _ _ (by decide), ToLowerRunes_cons _ _ _ (by decide),
    ToLowerRunes_cons _ _ _ (by decide)]
  rfl

/-! ## Facts about the attributes of a cookie -/

theorem rewriteSetCookieDomain_eq (caseTable : Nat → Nat) (sc host : Bytes) (secure : Bool) :
    rewriteSetCookieDomain caseTable sc host secure =
      Strings.Join (rewrittenAttrs caseTable sc host secure) (bytesOf "; ") := by
  simp only [rewriteSetCookieDomain, rewrittenAttrs, attributesOf, List.map_map]
  rfl

theorem attributesOf_ne_nil (s : Bytes) : attributesOf s ≠ [] := by
  simp [attributesOf, Split_ne_nil]

theorem attributesOf_trimmed (s k : Bytes) (h : k ∈ attributesOf s) :
    Strings.TrimSpace k = k ∧ (0x3B : Byte) ∉ k := by
  simp only [attributesOf, List.mem_map] at h
  obtain ⟨p, hp, rfl⟩ := h
  exact ⟨TrimSpace_idem p, fun hm => (Split_spec s 0x3B).1 p hp (TrimSpace_mem p _ hm)⟩

/-- The attributes of pieces joined by `; ` are the pieces, trimmed. -/
theorem attributesOf_Join (out : List Bytes) (hne : out ≠ [])
    (h : ∀ q ∈ out, (0x3B : Byte) ∉ q) :
    attributesOf (Strings.Join out (bytesOf "; ")) = out.map Strings.TrimSpace := by
  cases out with
  | nil => exact absurd rfl hne
  | cons p ps =>
    rw [attributesOf, Split_Join p ps h]
    simp [TrimSpace_space]

theorem isDomainAttr_Domain (caseTable : Nat → Nat) (h : Bytes) :
    isDomainAttr caseTable (bytesOf "Domain=" ++ h) = true := by
  simp [isDomainAttr, ToLowerRunes_Domain, Strings.HasPrefix]

theorem HasPrefix_domain_cases (x : Bytes) (h : Strings.HasPrefix x (bytesOf "domain=") = true) :
    Strings.HasPrefix x (bytesOf "samesite=") = false ∧ x ≠ bytesOf "secure" := by
  have e1 : bytesOf "domain=" = [0x64, 0x6F, 0x6D, 0x61, 0x69, 0x6E, 0x3D] := by decide
  have e2 : bytesOf "samesite=" = [0x73, 0x61, 0x6D, 0x65, 0x73, 0x69, 0x74, 0x65, 0x3D] := by
    decide
  have e3 : bytesOf "secure" = [0x73, 0x65, 0x63, 0x75, 0x72, 0x65] := by decide
  rw [e1] at h
  rw [e2, e3]
  rcases x with _ | ⟨x0, xs⟩
  · simp [Strings.HasPrefix] at h
  · simp only [Strings.HasPrefix, List.length_cons, List.length_nil, List.take_succ_cons,
      decide_eq_true_eq, List.cons.injEq] at h
    obtain ⟨rfl, _⟩ := h
    constructor
    · simp [Strings.HasPrefix]
    · simp

theorem ToLowerRunes_Secure (caseTable : Nat → Nat) :
    Strings.ToLowerRunes caseTable (bytesOf "Secure") = bytesOf "secure" := by
  rw [ToLowerRunes_ascii _ _ (by decide)]
  decide

theorem isDomainAttr_other (caseTable : Nat → Nat) (k : Bytes)
    (h : isDomainAttr caseTable k = true) :
    isSameSiteAttr caseTable k = false ∧ isSecureAttr caseTable k = false := by
  obtain ⟨h1, h2⟩ := HasPrefix_domain_cases _ h
  exact ⟨h1, by simp [isSecureAttr, ToLowerRunes_Secure, h2]⟩

/-- The two attributes the function appends, as the three tests see them. -/
theorem appended_attrs (caseTable : Nat → Nat) :
    (Strings.TrimSpace (bytesOf "Secure") = bytesOf "Secure" ∧
      isDomainAttr caseTable (bytesOf "Secure") = false ∧
      isSameSiteAttr caseTable (bytesOf "Secure") = false ∧
      isSecureAttr caseTable (bytesOf "Secure") = true ∧ (0x3B : Byte) ∉ bytesOf "Secure") ∧
    (Strings.TrimSpace (bytesOf "SameSite=Lax") = bytesOf "SameSite=Lax" ∧
      isDomainAttr caseTable (bytesOf "SameSite=Lax") = false ∧
      isSameSiteAttr caseTable (bytesOf "SameSite=Lax") = true ∧
      isSecureAttr caseTable (bytesOf "SameSite=Lax") = false ∧
      (0x3B : Byte) ∉ bytesOf "SameSite=Lax") := by
  have a1 : Strings.ToLowerRunes caseTable (bytesOf "SameSite=Lax") = bytesOf "samesite=lax" := by
    rw [ToLowerRunes_ascii _ _ (by decide)]
    decide
  refine ⟨⟨by decide, ?_, ?_, ?_, by decide⟩, ⟨by decide, ?_, ?_, ?_, by decide⟩⟩
  · rw [isDomainAttr, ToLowerRunes_Secure]; decide
  · rw [isSameSiteAttr, ToLowerRunes_Secure]; decide
  · simp [isSecureAttr]
  · rw [isDomainAttr, a1]; decide
  · rw [isSameSiteAttr, a1]; decide
  · rw [isSecureAttr, a1, ToLowerRunes_Secure]; decide

theorem containsAttr_Secure (caseTable : Nat → Nat) (out : List Bytes) :
    containsAttr caseTable out (bytesOf "Secure") =
      (out.map Strings.TrimSpace).any (isSecureAttr caseTable) := by
  simp only [containsAttr, List.any_map]
  rfl

theorem hasSameSiteAttr_eq (caseTable : Nat → Nat) (out : List Bytes) :
    hasSameSiteAttr caseTable out = (out.map Strings.TrimSpace).any (isSameSiteAttr caseTable) := by
  simp only [hasSameSiteAttr, List.any_map]
  rfl

/-- What the three tests and a second pass of the loop make of an element
written by the loop. -/
theorem replaceDomain_trimmed (caseTable : Nat → Nat) (host k : Bytes)
    (hk : Strings.TrimSpace k = k) :
    isDomainAttr caseTable (Strings.TrimSpace (replaceDomain caseTable host k)) =
        isDomainAttr caseTable k ∧
    isSameSiteAttr caseTable (Strings.TrimSpace (replaceDomain caseTable host k)) =
        isSameSiteAttr caseTable k ∧
    isSecureAttr caseTable (Strings.TrimSpace (replaceDomain caseTable host k)) =
        isSecureAttr caseTable k ∧
    replaceDomain caseTable host (Strings.TrimSpace (replaceDomain caseTable host k)) =
        replaceDomain caseTable host k := by
  unfold replaceDomain
  by_cases hd : isDomainAttr caseTable k = true
  · simp only [hd, if_true]
    have hdec : Strings.IsSpace (DecodeRune (bytesOf "Domain=" ++ host)).1 = false := by
      rw [bytesOf_Domain]
      simp only [List.cons_append]
      rw [DecodeRune_ascii _ _ (by decide)]
      decide
    have e : bytesOf "Domain=" ++ host = bytesOf "Domain" ++ 0x3D :: host := by
      rw [bytesOf_Domain]
      have : bytesOf "Domain" = [0x44, 0x6F, 0x6D, 0x61, 0x69, 0x6E] := by decide
      rw [this]
      rfl
    obtain ⟨h', hh⟩ := TrimSpace_keeps (bytesOf "Domain") 0x3D host (by rw [← e]; exact hdec)
      (by decide) (by decide)
    rw [e, hh, ← e]
    have e' : bytesOf "Domain" ++ 0x3D :: h' = bytesOf "Domain=" ++ h' := by
      rw [bytesOf_Domain]
      have : bytesOf "Domain" = [0x44, 0x6F, 0x6D, 0x61, 0x69, 0x6E] := by decide
      rw [this]
      rfl
    rw [e']
    obtain ⟨h1, h2⟩ := isDomainAttr_other caseTable _ (isDomainAttr_Domain caseTable h')
    obtain ⟨h3, h4⟩ := isDomainAttr_other caseTable _ hd
    simp [isDomainAttr_Domain, h1, h2, h3, h4]
  · have hd' : isDomainAttr caseTable k = false := by simpa using hd
    simp [hd', hk]

theorem any_map_congr {α β : Type} (l : List α) (f : α → β) (p : β → Bool) (q : α → Bool)
    (h : ∀ a ∈ l, p (f a) = q a) : (l.map f).any p = l.any q := by
  induction l with
  | nil => rfl
  | cons a as ih =>
    simp only [List.map_cons, List.any_cons]
    rw [h a (by simp), ih (fun b hb => h b (by simp [hb]))]

theorem countP_map_congr {α β : Type} (l : List α) (f : α → β) (p : β → Bool) (q : α → Bool)
    (h : ∀ a ∈ l, p (f a) = q a) : (l.map f).countP p = l.countP q := by
  induction l with
  | nil => rfl
  | cons a as ih =>
    simp only [List.map_cons, List.countP_cons]
    rw [h a (by simp), ih (fun b hb => h b (by simp [hb]))]

theorem map_congr_mem {α β : Type} (l : List α) (f g : α → β) (h : ∀ a ∈ l, f a = g a) :
    l.map f = l.map g := by
  induction l with
  | nil => rfl
  | cons a as ih =>
    simp only [List.map_cons]
    rw [h a (by simp), ih (fun b hb => h b (by simp [hb]))]

theorem any_false_countP {α : Type} (l : List α) (p : α → Bool) (h : l.any p = false) :
    l.countP p = 0 := by
  induction l with
  | nil => rfl
  | cons a as ih =>
    simp only [List.any_cons, Bool.or_eq_false_iff] at h
    simp [List.countP_cons, h.1, ih h.2]

theorem any_true_countP {α : Type} (l : List α) (p : α → Bool) (h : l.any p = true) :
    1 ≤ l.countP p := by
  induction l with
  | nil => simp at h
  | cons a as ih =>
    simp only [List.any_cons, Bool.or_eq_true] at h
    rcases h with h | h
    · simp [List.countP_cons, h]
    · have := ih h
      simp only [List.countP_cons]
      omega

/-- The slice joined by `rewriteSetCookieDomain`: the attributes of the input
with the Domain attributes replaced, and the appended attributes. -/
theorem rewrittenAttrs_eq (caseTable : Nat → Nat) (sc host : Bytes) (secure : Bool) :
    rewrittenAttrs caseTable sc host secure =
      (attributesOf sc).map (replaceDomain caseTable host) ++
        appendedAttrs caseTable (attributesOf sc) secure := by
  have hsec : (((attributesOf sc).map (replaceDomain caseTable host)).map
      Strings.TrimSpace).any (isSecureAttr caseTable) =
      (attributesOf sc).any (isSecureAttr caseTable) := by
    rw [List.map_map]
    exact any_map_congr _ _ _ _ (fun k hk =>
      (replaceDomain_trimmed caseTable host k (attributesOf_trimmed sc k hk).1).2.2.1)
  have hss : (((attributesOf sc).map (replaceDomain caseTable host)).map
      Strings.TrimSpace).any (isSameSiteAttr caseTable) =
      (attributesOf sc).any (isSameSiteAttr caseTable) := by
    rw [List.map_map]
    exact any_map_congr _ _ _ _ (fun k hk =>
      (replaceDomain_trimmed caseTable host k (attributesOf_trimmed sc k hk).1).2.1)
  obtain ⟨⟨s1, _, s3, _, _⟩, _⟩ := appended_attrs caseTable
  unfold rewrittenAttrs appendedAttrs
  simp only [containsAttr_Secure, hasSameSiteAttr_eq, hsec]
  by_cases h1 : (secure && !(attributesOf sc).any (isSecureAttr caseTable)) = true
  · rw [if_pos h1, if_pos h1]
    simp only [List.map_append, List.any_append, hss, List.map_cons, List.map_nil,
      List.any_cons, List.any_nil, s1, s3, Bool.or_false]
    by_cases h2 : (attributesOf sc).any (isSameSiteAttr caseTable) = true
    · simp [h2]
    · simp [h2]
  · rw [if_neg h1, if_neg h1, hss]
    by_cases h2 : (attributesOf sc).any (isSameSiteAttr caseTable) = true
    · simp [h2]
    · simp [h2]

theorem appendedAttrs_cases (caseTable : Nat → Nat) (attrs : List Bytes) (secure : Bool) :
    appendedAttrs caseTable attrs secure ∈
      [[], [bytesOf "Secure"], [bytesOf "SameSite=Lax"],
        [bytesOf "Secure", bytesOf "SameSite=Lax"]] := by
  unfold appendedAttrs
  split_ifs <;> simp

theorem appendedAttrs_trimmed (caseTable : Nat → Nat) (attrs : List Bytes) (secure : Bool) :
    ∀ e ∈ appendedAttrs caseTable attrs secure, Strings.TrimSpace e = e ∧
      isDomainAttr caseTable e = false ∧ (0x3B : Byte) ∉ e := by
  obtain ⟨⟨s1, s2, _, _, s5⟩, ⟨t1, t2, _, _, t5⟩⟩ := appended_attrs caseTable
  intro e he
  have := appendedAttrs_cases caseTable attrs secure
  simp only [List.mem_cons, List.mem_singleton, List.not_mem_nil, or_false] at this
  rcases this with h | h | h | h <;> rw [h] at he <;> simp at he
  · subst he; exact ⟨s1, s2, s5⟩
  · subst he; exact ⟨t1, t2, t5⟩
  · rcases he with rfl | rfl
    · exact ⟨s1, s2, s5⟩
    · exact ⟨t1, t2, t5⟩

/-- The attributes of the rewritten cookie, read back from the string, when
the host holds no `;` or the cookie has no Domain attribute. -/
theorem attributesOf_rewrite (caseTable : Nat → Nat) (sc host : Bytes) (secure : Bool)
    (h : (0x3B : Byte) ∉ host ∨ ∀ k ∈ attributesOf sc, isDomainAttr caseTable k = false) :
    attributesOf (rewriteSetCookieDomain caseTable sc host secure) =
      ((attributesOf sc).map (replaceDomain caseTable host)).map Strings.TrimSpace ++
        appendedAttrs caseTable (attributesOf sc) secure := by
  rw [rewriteSetCookieDomain_eq, rewrittenAttrs_eq, attributesOf_Join]
  · rw [List.map_append]
    congr 1
    conv_rhs => rw [← List.map_id (appendedAttrs caseTable (attributesOf sc) secure)]
    exact map_congr_mem _ _ _ (fun e he => (appendedAttrs_trimmed caseTable _ secure e he).1)
  · have := attributesOf_ne_nil sc
    simp [this]
  · intro q hq
    simp only [List.mem_append, List.mem_map] at hq
    rcases hq with ⟨k, hk, rfl⟩ | hq
    · unfold replaceDomain
      by_cases hd : isDomainAttr caseTable k = true
      · rcases h with h | h
        · simp only [hd, if_true, List.mem_append, not_or]
          exact ⟨by decide, h⟩
        · rw [h k hk] at hd; cases hd
      · simp only [hd]
        exact (attributesOf_trimmed sc k hk).2
    · exact (appendedAttrs_trimmed caseTable _ secure q hq).2.2

/-! ## The rewriting of cookies -/

/-- The cookie of the specification: `Domain=old.internal` rewritten for the
host `app.example.com`. -/
theorem rewriteSetCookieDomain_example :
    rewriteSetCookieDomain id (bytesOf "sid=abc;  Domain=old.internal ;Path=/")
      (bytesOf "app.example.com") true =
    bytesOf "sid=abc; Domain=app.example.com; Path=/; Secure; SameSite=Lax" := by
  decide

/-- Claim C13: the Domain attribute is rewritten.  For every Set-Cookie value,
host and secure flag, the result is the list of the trimmed `;`-separated
attributes of the input, each attribute that starts with `domain=` in lower
case replaced by `Domain=` followed by the host, then the appended attributes
(none, `Secure`, `SameSite=Lax` or both), joined by `; `.  When no attribute of
the input is a Domain attribute, no attribute of the result is one.  The
attribute `Domain=old.internal` becomes `Domain=app.example.com` for the host
`app.example.com`. -/
theorem C13_domain_is_rewritten (caseTable : Nat → Nat) (sc host : Bytes) (secure : Bool) :
    rewriteSetCookieDomain caseTable sc host secure =
      Strings.Join
        ((attributesOf sc).map
            (fun k => if isDomainAttr caseTable k then bytesOf "Domain=" ++ host else k) ++
          appendedAttrs caseTable (attributesOf sc) secure)
        (bytesOf "; ") ∧
    ((∀ k ∈ attributesOf sc, isDomainAttr caseTable k = false) →
      ∀ k ∈ attributesOf (rewriteSetCookieDomain caseTable sc host secure),
        isDomainAttr caseTable k = false) ∧
    rewriteSetCookieDomain id (bytesOf "sid=abc; Domain=old.internal") (bytesOf "app.example.com")
      false = bytesOf "sid=abc; Domain=app.example.com; SameSite=Lax" ∧
    rewriteSetCookieDomain id (bytesOf "sid=abc; Path=/") (bytesOf "app.example.com")
      false = bytesOf "sid=abc; Path=/; SameSite=Lax" := by
  refine ⟨?_, ?_, by decide, by decide⟩
  · rw [rewriteSetCookieDomain_eq, rewrittenAttrs_eq]
    rfl
  · intro hno k hk
    rw [attributesOf_rewrite caseTable sc host secure (Or.inr hno)] at hk
    simp only [List.mem_append, List.mem_map] at hk
    rcases hk with ⟨e, ⟨k', hk', rfl⟩, rfl⟩ | hk
    · rw [(replaceDomain_trimmed caseTable host k' (attributesOf_trimmed sc k' hk').1).1]
      exact hno k' hk'
    · exact (appendedAttrs_trimmed caseTable _ secure k hk).2.1

/-- Claim C13 on a cookie without Domain attribute: the rewritten cookie has
none either. -/
theorem C13_domain_is_rewritten_witness :
    ∀ k ∈ attributesOf (rewriteSetCookieDomain id (bytesOf "sid=abc; Path=/; HttpOnly")
      (bytesOf "app.example.com") true), isDomainAttr id k = false :=
  (C13_domain_is_rewritten id (bytesOf "sid=abc; Path=/; HttpOnly") (bytesOf "app.example.com")
    true).2.1 (by decide)

/-- Claim C14 as stated fails: attributes that are repeated in the input are
repeated in the result.  A cookie with two SameSite attributes and two Secure
attributes comes back as it is, with two of each; and since the host is
written into the result as it is, a host that holds a `;` brings attributes
of its own. -/
theorem C14_repeated_attributes_are_kept :
    rewriteSetCookieDomain id (bytesOf "sid=1; SameSite=Lax; SameSite=Strict; Secure; secure")
        (bytesOf "app.example.com") true =
      bytesOf "sid=1; SameSite=Lax; SameSite=Strict; Secure; secure" ∧
    (attributesOf (rewriteSetCookieDomain id
        (bytesOf "sid=1; SameSite=Lax; SameSite=Strict; Secure; secure")
        (bytesOf "app.example.com") true)).countP (isSameSiteAttr id) = 2 ∧
    (attributesOf (rewriteSetCookieDomain id
        (bytesOf "sid=1; SameSite=Lax; SameSite=Strict; Secure; secure")
        (bytesOf "app.example.com") true)).countP (isSecureAttr id) = 2 ∧
    rewriteSetCookieDomain id (bytesOf "sid=1; Domain=x") (bytesOf "h;SameSite=None;Secure")
        true = bytesOf "sid=1; Domain=h;SameSite=None;Secure; Secure; SameSite=Lax" ∧
    (attributesOf (rewriteSetCookieDomain id (bytesOf "sid=1; Domain=x")
        (bytesOf "h;SameSite=None;Secure") true)).countP (isSameSiteAttr id) = 2 := by
  decide

/-- Claim C14, amended: for a host without `;`, the rewritten cookie has as
many SameSite attributes as the input, and one when the input has none; when
the secure flag is set the same holds of the Secure attribute.  So the result
has exactly one of each when the input has at most one. -/
theorem C14_one_attribute_unless_repeated (caseTable : Nat → Nat) (sc host : Bytes)
    (secure : Bool) (hhost : (0x3B : Byte) ∉ host) :
    (attributesOf (rewriteSetCookieDomain caseTable sc host secure)).countP
        (isSameSiteAttr caseTable) =
      max 1 ((attributesOf sc).countP (isSameSiteAttr caseTable)) ∧
    (secure = true →
      (attributesOf (rewriteSetCookieDomain caseTable sc host secure)).countP
          (isSecureAttr caseTable) =
        max 1 ((attributesOf sc).countP (isSecureAttr caseTable))) := by
  obtain ⟨⟨_, _, s3, s4, _⟩, ⟨_, _, t3, t4, _⟩⟩ := appended_attrs caseTable
  have hss : (((attributesOf sc).map (replaceDomain caseTable host)).map
      Strings.TrimSpace).countP (isSameSiteAttr caseTable) =
      (attributesOf sc).countP (isSameSiteAttr caseTable) := by
    rw [List.map_map]
    exact countP_map_congr _ _ _ _ (fun k hk =>
      (replaceDomain_trimmed caseTable host k (attributesOf_trimmed sc k hk).1).2.1)
  have hsec : (((attributesOf sc).map (replaceDomain caseTable host)).map
      Strings.TrimSpace).countP (isSecureAttr caseTable) =
      (attributesOf sc).countP (isSecureAttr caseTable) := by
    rw [List.map_map]
    exact countP_map_congr _ _ _ _ (fun k hk =>
      (replaceDomain_trimmed caseTable host k (attributesOf_trimmed sc k hk).1).2.2.1)
  rw [attributesOf_rewrite caseTable sc host secure (Or.inl hhost)]
  simp only [List.countP_append, hss, hsec, appendedAttrs]
  have a1 : ∀ c : Bool, (if c = true then [bytesOf "Secure"] else []).countP
      (isSameSiteAttr caseTable) = 0 := by
    intro c; cases c <;> simp [List.countP_cons, s3]
  have a2 : ∀ c : Bool, (if c = true then [bytesOf "SameSite=Lax"] else []).countP
      (isSecureAttr caseTable) = 0 := by
    intro c; cases c <;> simp [List.countP_cons, t4]
  have a3 : ∀ c : Bool, (if c = true then [bytesOf "SameSite=Lax"] else []).countP
      (isSameSiteAttr caseTable) = if c = true then 1 else 0 := by
    intro c; cases c <;> simp [List.countP_cons, t3]
  have a4 : ∀ c : Bool, (if c = true then [bytesOf "Secure"] else []).countP
      (isSecureAttr caseTable) = if c = true then 1 else 0 := by
    intro c; cases c <;> simp [List.countP_cons, s4]
  rw [a1, a2, a3, a4]
  constructor
  · cases h2 : (attributesOf sc).any (isSameSiteAttr caseTable) with
    | true =>
      have := any_true_countP _ _ h2
      simp only [Bool.not_true, Bool.false_eq_true, if_false]
      omega
    | false =>
      have := any_false_countP _ _ h2
      simp only [Bool.not_false, if_true]
      omega
  · intro hs
    subst hs
    cases h1 : (attributesOf sc).any (isSecureAttr caseTable) with
    | true =>
      have := any_true_countP _ _ h1
      simp only [Bool.not_true, Bool.and_false, Bool.false_eq_true, if_false]
      omega
    | false =>
      have := any_false_countP _ _ h1
      simp only [Bool.not_false, Bool.and_self, if_true]
      omega

/-- Claim C14, amended, on a cookie with one SameSite attribute and no Secure
attribute, rewritten with the secure flag set. -/
theorem C14_one_attribute_unless_repeated_witness :
    (0x3B : Byte) ∉ bytesOf "app.example.com" ∧
    (attributesOf (rewriteSetCookieDomain id (bytesOf "sid=1; samesite=Strict; Domain=x")
        (bytesOf "app.example.com") true)).countP (isSameSiteAttr id) =
      max 1 ((attributesOf (bytesOf "sid=1; samesite=Strict; Domain=x")).countP
        (isSameSiteAttr id)) :=
  ⟨by decide, (C14_one_attribute_unless_repeated id (bytesOf "sid=1; samesite=Strict; Domain=x")
    (bytesOf "app.example.com") true (by decide)).1⟩

theorem filter_map_congr {α : Type} (l : List α) (f : α → α) (p q : α → Bool)
    (h : ∀ a ∈ l, p (f a) = q a ∧ (q a = true → f a = a)) :
    (l.map f).filter p = l.filter q := by
  induction l with
  | nil => rfl
  | cons a as ih =>
    obtain ⟨h1, h2⟩ := h a (by simp)
    have ih' := ih (fun b hb => h b (by simp [hb]))
    simp only [List.map_cons, List.filter_cons, h1]
    cases hq : q a with
    | true => simp [h2 hq, ih']
    | false => simp [ih']

/-- Claim C15 as stated fails: for a host that holds a `;`, the second
rewriting reads the end of the host as an attribute of its own and keeps it
next to the new Domain attribute. -/
theorem C15_second_rewrite_differs :
    rewriteSetCookieDomain id (bytesOf "sid=1; Domain=x") (bytesOf "a;b") false =
      bytesOf "sid=1; Domain=a;b; SameSite=Lax" ∧
    rewriteSetCookieDomain id
        (rewriteSetCookieDomain id (bytesOf "sid=1; Domain=x") (bytesOf "a;b") false)
        (bytesOf "a;b") false =
      bytesOf "sid=1; Domain=a;b; b; SameSite=Lax" := by
  decide

/-- Claim C15, amended: for every Set-Cookie value, every secure flag and
every host without `;`, rewriting the rewritten cookie gives the rewritten
cookie. -/
theorem C15_rewrite_is_idempotent (caseTable : Nat → Nat) (sc host : Bytes) (secure : Bool)
    (hhost : (0x3B : Byte) ∉ host) :
    rewriteSetCookieDomain caseTable (rewriteSetCookieDomain caseTable sc host secure) host
        secure =
      rewriteSetCookieDomain caseTable sc host secure := by
  obtain ⟨⟨_, _, s3, s4, _⟩, ⟨_, _, t3, t4, _⟩⟩ := appended_attrs caseTable
  have hA := attributesOf_rewrite caseTable sc host secure (Or.inl hhost)
  have hsec : (((attributesOf sc).map (replaceDomain caseTable host)).map
      Strings.TrimSpace).any (isSecureAttr caseTable) =
      (attributesOf sc).any (isSecureAttr caseTable) := by
    rw [List.map_map]
    exact any_map_congr _ _ _ _ (fun k hk =>
      (replaceDomain_trimmed caseTable host k (attributesOf_trimmed sc k hk).1).2.2.1)
  have hss : (((attributesOf sc).map (replaceDomain caseTable host)).map
      Strings.TrimSpace).any (isSameSiteAttr caseTable) =
      (attributesOf sc).any (isSameSiteAttr caseTable) := by
    rw [List.map_map]
    exact any_map_congr _ _ _ _ (fun k hk =>
      (replaceDomain_trimmed caseTable host k (attributesOf_trimmed sc k hk).1).2.1)
  have hbase : (((attributesOf sc).map (replaceDomain caseTable host)).map
      Strings.TrimSpace).map (replaceDomain caseTable host) =
      (attributesOf sc).map (replaceDomain caseTable host) := by
    rw [List.map_map, List.map_map]
    exact map_congr_mem _ _ _ (fun k hk =>
      (replaceDomain_trimmed caseTable host k (attributesOf_trimmed sc k hk).1).2.2.2)
  have happ : (appendedAttrs caseTable (attributesOf sc) secure).map
      (replaceDomain caseTable host) = appendedAttrs caseTable (attributesOf sc) secure := by
    conv_rhs => rw [← List.map_id (appendedAttrs caseTable (attributesOf sc) secure)]
    refine map_congr_mem _ _ _ (fun e he => ?_)
    simp [replaceDomain, (appendedAttrs_trimmed caseTable _ secure e he).2.1]
  have hnone : appendedAttrs caseTable
      (((attributesOf sc).map (replaceDomain caseTable host)).map Strings.TrimSpace ++
        appendedAttrs caseTable (attributesOf sc) secure) secure = [] := by
    unfold appendedAttrs
    simp only [List.any_append, hsec, hss]
    cases secure <;> cases (attributesOf sc).any (isSecureAttr caseTable) <;>
      cases (attributesOf sc).any (isSameSiteAttr caseTable) <;>
      simp [s3, s4, t3, t4]
  conv_lhs => rw [rewriteSetCookieDomain_eq, rewrittenAttrs_eq, hA, hnone]
  rw [List.map_append, hbase, happ, List.append_nil, rewriteSetCookieDomain_eq, rewrittenAttrs_eq]

/-- Claim C15, amended, on a cookie with a Domain attribute. -/
theorem C15_rewrite_is_idempotent_witness :
    (0x3B : Byte) ∉ bytesOf "app.example.com" ∧
    rewriteSetCookieDomain id
        (rewriteSetCookieDomain id (bytesOf "sid=1; Domain=x") (bytesOf "app.example.com") true)
        (bytesOf "app.example.com") true =
      rewriteSetCookieDomain id (bytesOf "sid=1; Domain=x") (bytesOf "app.example.com") true :=
  ⟨by decide, C15_rewrite_is_idempotent id (bytesOf "sid=1; Domain=x")
    (bytesOf "app.example.com") true (by decide)⟩

/-- Claim C16: the other attributes keep their order.  For every Set-Cookie
value, host and secure flag, the result is the join by `; ` of a list made of
one element for each trimmed attribute of the input, in the order of the
input, followed by the appended attributes (none, `Secure`, `SameSite=Lax` or
both); without its Domain elements the first part is the list of the trimmed
attributes of the input that are no Domain attributes.  When the host holds no
`;`, the same is true of the attributes read back from the resulting
string. -/
theorem C16_other_attributes_keep_their_order (caseTable : Nat → Nat) (sc host : Bytes)
    (secure : Bool) :
    (∃ written appended,
      rewriteSetCookieDomain caseTable sc host secure =
        Strings.Join (written ++ appended) (bytesOf "; ") ∧
      appended ∈ [[], [bytesOf "Secure"], [bytesOf "SameSite=Lax"],
        [bytesOf "Secure", bytesOf "SameSite=Lax"]] ∧
      written.length = (attributesOf sc).length ∧
      written.filter (fun k => !isDomainAttr caseTable k) =
        (attributesOf sc).filter (fun k => !isDomainAttr caseTable k)) ∧
    ((0x3B : Byte) ∉ host →
      ∃ kept appended,
        attributesOf (rewriteSetCookieDomain caseTable sc host secure) = kept ++ appended ∧
        appended ∈ [[], [bytesOf "Secure"], [bytesOf "SameSite=Lax"],
          [bytesOf "Secure", bytesOf "SameSite=Lax"]] ∧
        kept.length = (attributesOf sc).length ∧
        kept.filter (fun k => !isDomainAttr caseTable k) =
          (attributesOf sc).filter (fun k => !isDomainAttr caseTable k)) := by
  constructor
  · refine ⟨(attributesOf sc).map (replaceDomain caseTable host),
      appendedAttrs caseTable (attributesOf sc) secure, ?_, appendedAttrs_cases _ _ _, by simp, ?_⟩
    · rw [rewriteSetCookieDomain_eq, rewrittenAttrs_eq]
    · refine filter_map_congr _ _ _ _ (fun k _ => ?_)
      unfold replaceDomain
      cases hd : isDomainAttr caseTable k with
      | true => simp [isDomainAttr_Domain]
      | false => simp [hd]
  · intro hhost
    refine ⟨((attributesOf sc).map (replaceDomain caseTable host)).map Strings.TrimSpace,
      appendedAttrs caseTable (attributesOf sc) secure,
      attributesOf_rewrite caseTable sc host secure (Or.inl hhost), appendedAttrs_cases _ _ _,
      by simp, ?_⟩
    rw [List.map_map]
    refine filter_map_congr _ _ _ _ (fun k hk => ?_)
    have htr := attributesOf_trimmed sc k hk
    have h1 := (replaceDomain_trimmed caseTable host k htr.1).1
    simp only [Function.comp, h1, true_and]
    intro hq
    have hd : isDomainAttr caseTable k = false := by simpa using hq
    simp [replaceDomain, hd, htr.1]

/-- Claim C16 on a cookie with a Domain attribute between two others, read
back from the string rewritten for `app.example.com`. -/
theorem C16_other_attributes_keep_their_order_witness :
    ∃ kept appended,
      attributesOf (rewriteSetCookieDomain id (bytesOf "sid=1;Domain=x; Path=/ ;HttpOnly")
        (bytesOf "app.example.com") true) = kept ++ appended ∧
      appended ∈ [[], [bytesOf "Secure"], [bytesOf "SameSite=Lax"],
        [bytesOf "Secure", bytesOf "SameSite=Lax"]] ∧
      kept.length = (attributesOf (bytesOf "sid=1;Domain=x; Path=/ ;HttpOnly")).length ∧
      kept.filter (fun k => !isDomainAttr id k) =
        (attributesOf (bytesOf "sid=1;Domain=x; Path=/ ;HttpOnly")).filter
          (fun k => !isDomainAttr id k) :=
  (C16_other_attributes_keep_their_order id (bytesOf "sid=1;Domain=x; Path=/ ;HttpOnly")
    (bytesOf "app.example.com") true).2 (by decide)

/-! ## The admin session of the Metabase and NocoDB clients -/

/-- With a valid cached credential `ensureAdmin` reads the clock and does
nothing else. -/
theorem ensureAdmin_valid (k : Backend) (env : Env) (m : ClientOIDC) (w : World)
    (h : cacheValid env m w) :
    (ensureAdmin k env m w).result = .ok () ∧ (ensureAdmin k env m w).client = m ∧
    (ensureAdmin k env m w).world = { w with clockReads := w.clockReads + 1 } := by
  unfold cacheValid at h
  simp [ensureAdmin, h]

/-- Without a valid cached credential `ensureAdmin` sends one login request;
a login that gives a credential stores it with the expiry eight hours after
the next reading of the clock, a login that fails leaves the client as it
was. -/
theorem ensureAdmin_login (k : Backend) (env : Env) (m : ClientOIDC) (w : World)
    (h : ¬ cacheValid env m w) :
    (ensureAdmin k env m w).world.sent =
      w.sent ++ [⟨.adminLogin, loginRequest k env m,
        env.Do (w.sent.map (fun s => s.request)) (loginRequest k env m)⟩] ∧
    (∀ id, loginGives env (env.Do (w.sent.map (fun s => s.request)) (loginRequest k env m)) id →
      (ensureAdmin k env m w).result = .ok () ∧
      (ensureAdmin k env m w).client =
        { m with AdminSession := id,
                 AdminSessionExp := env.Now (readsBeforeStore m w) + 8 * GoTime.Hour } ∧
      (ensureAdmin k env m w).world.clockReads = readsBeforeStore m w + 1) ∧
    (loginFails env (env.Do (w.sent.map (fun s => s.request)) (loginRequest k env m)) →
      (∃ e, (ensureAdmin k env m w).result = .error e) ∧ (ensureAdmin k env m w).client = m) := by
  unfold cacheValid at h
  have hsent : ∀ w' : World, w'.sent = w.sent →
      (send env .adminLogin (loginRequest k env m) w') =
        (env.Do (w.sent.map (fun s => s.request)) (loginRequest k env m),
          { w' with sent := w.sent ++ [⟨.adminLogin, loginRequest k env m,
            env.Do (w.sent.map (fun s => s.request)) (loginRequest k env m)⟩] }) := by
    intro w' hw'
    simp [send, hw']
  have hw1 : (if m.AdminSession ≠ [] then { w with clockReads := w.clockReads + 1 } else w).sent
      = w.sent := by split_ifs <;> rfl
  have hr1 : (if m.AdminSession ≠ [] then { w with clockReads := w.clockReads + 1 } else w).clockReads
      = readsBeforeStore m w := by unfold readsBeforeStore; split_ifs <;> rfl
  unfold ensureAdmin
  rw [if_neg h]
  simp only [hsent _ hw1]
  cases hresp : env.Do (w.sent.map (fun s => s.request)) (loginRequest k env m) with
  | none =>
    refine ⟨rfl, ?_, ?_⟩
    · rintro id ⟨r, hr, _⟩; cases hr
    · intro _; exact ⟨⟨_, rfl⟩, rfl⟩
  | some resp =>
    simp only
    by_cases hst : resp.StatusCode ≠ 200
    · rw [if_pos hst]
      refine ⟨rfl, ?_, ?_⟩
      · rintro id ⟨r, hr, h200, _⟩
        cases hr
        exact absurd h200 hst
      · intro _; exact ⟨⟨_, rfl⟩, rfl⟩
    · rw [if_neg hst]
      cases hdec : env.Decode resp.Body with
      | none =>
        refine ⟨rfl, ?_, ?_⟩
        · rintro id ⟨r, hr, _, hd, _⟩
          cases hr
          rw [hdec] at hd; cases hd
        · intro _; exact ⟨⟨_, rfl⟩, rfl⟩
      | some id' =>
        simp only
        by_cases hid : id' = []
        · rw [if_pos hid]
          refine ⟨rfl, ?_, ?_⟩
          · rintro id ⟨r, hr, _, hd, hne⟩
            cases hr
            rw [hdec] at hd; cases hd
            exact absurd hid hne
          · intro _; exact ⟨⟨_, rfl⟩, rfl⟩
        · rw [if_neg hid]
          refine ⟨rfl, ?_, ?_⟩
          · rintro id ⟨r, hr, _, hd, hne⟩
            cases hr
            rw [hdec] at hd; cases hd
            simp only [hr1, and_self]
          · rintro (hf | ⟨r, hr, hf⟩)
            · cases hf
            · cases hr
              rcases hf with hf | hf | hf
              · exact absurd hf hst
              · rw [hdec] at hf; cases hf
              · rw [hdec] at hf; cases hf; exact absurd rfl hid

/-- Every answer to a login gives a credential or is a failure. -/
theorem loginGives_or_loginFails (env : Env) (resp : Option Response) :
    (∃ id, loginGives env resp id) ∨ loginFails env resp := by
  unfold loginGives loginFails
  cases resp with
  | none => right; left; rfl
  | some r =>
    by_cases h1 : r.StatusCode = 200
    · cases hd : env.Decode r.Body with
      | none => right; right; exact ⟨r, rfl, Or.inr (Or.inl hd)⟩
      | some id =>
        by_cases h2 : id = []
        · right; right; exact ⟨r, rfl, Or.inr (Or.inr (by rw [hd, h2]))⟩
        · left; exact ⟨id, r, rfl, h1, hd, h2⟩
    · right; right; exact ⟨r, rfl, Or.inl h1⟩

/-- The requests `ensureAdmin` sends: none, or one admin login. -/
theorem ensureAdmin_sent (k : Backend) (env : Env) (m : ClientOIDC) (w : World) :
    ∃ l, (ensureAdmin k env m w).world.sent = w.sent ++ l ∧
      (l = [] ∨ ∃ rq rs, l = [⟨.adminLogin, rq, rs⟩]) := by
  by_cases h : cacheValid env m w
  · refine ⟨[], ?_, Or.inl rfl⟩
    rw [(ensureAdmin_valid k env m w h).2.2]
    simp
  · exact ⟨_, (ensureAdmin_login k env m w h).1, Or.inr ⟨_, _, rfl⟩⟩

/-- Claim C19 as stated fails in its last part: a login that fails leaves the
cache as it was.  The cache holds the credential `old`, expired an hour ago,
and the upstream cannot be reached: `ensureAdmin` returns the error and the
cache still holds `old` with its old expiry. -/
theorem C19_failed_login_keeps_the_cache :
    ¬ cacheValid exampleDownEnv exampleClient exampleWorld ∧
    (ensureAdmin .metabase exampleDownEnv exampleClient exampleWorld).result =
      .error .transport ∧
    (ensureAdmin .metabase exampleDownEnv exampleClient exampleWorld).client.AdminSession =
      bytesOf "old" ∧
    (ensureAdmin .nocodb exampleDownEnv exampleClient exampleWorld).client = exampleClient := by
  unfold cacheValid
  decide

/-- Claim C19, amended: the cache of `ensureAdmin`, for both clients.  With a
credential that is not empty and a clock reading before its expiry, the call
succeeds, sends nothing and leaves the client as it is.  Otherwise it sends
exactly one admin login; when the login gives a credential (status 200 and a
body that decodes to a non-empty credential) the call succeeds and stores the
credential with the expiry eight hours after the reading of the clock taken
once the login has answered; when the login fails (error of the transport,
other status, body that does not decode, empty credential) the call returns an
error and leaves the client as it was, an expired credential included.  Every
login does one or the other. -/
theorem C19_ensureAdmin_cache (k : Backend) (env : Env) (m : ClientOIDC) (w : World) :
    (cacheValid env m w →
      (ensureAdmin k env m w).result = .ok () ∧ (ensureAdmin k env m w).client = m ∧
      (ensureAdmin k env m w).world.sent = w.sent) ∧
    (¬ cacheValid env m w →
      ∃ resp,
        (ensureAdmin k env m w).world.sent =
          w.sent ++ [⟨.adminLogin, loginRequest k env m, resp⟩] ∧
        ((∃ id, loginGives env resp id) ∨ loginFails env resp) ∧
        (∀ id, loginGives env resp id →
          (ensureAdmin k env m w).result = .ok () ∧
          (ensureAdmin k env m w).client =
            { m with AdminSession := id,
                     AdminSessionExp := env.Now (readsBeforeStore m w) + 8 * GoTime.Hour }) ∧
        (loginFails env resp →
          (∃ e, (ensureAdmin k env m w).result = .error e) ∧
          (ensureAdmin k env m w).client = m)) := by
  constructor
  · intro h
    obtain ⟨h1, h2, h3⟩ := ensureAdmin_valid k env m w h
    exact ⟨h1, h2, by rw [h3]⟩
  · intro h
    obtain ⟨h1, h2, h3⟩ := ensureAdmin_login k env m w h
    exact ⟨_, h1, loginGives_or_loginFails env _,
      fun id hid => ⟨(h2 id hid).1, (h2 id hid).2.1⟩, h3⟩

/-- Claim C19, amended, on two calls: the Metabase client with a valid cached
credential sends nothing, and the client with an empty cache sends one
login. -/
theorem C19_ensureAdmin_cache_witness :
    ((ensureAdmin .metabase exampleEnv exampleClient exampleWorld).result = .ok () ∧
      (ensureAdmin .metabase exampleEnv exampleClient exampleWorld).client = exampleClient ∧
      (ensureAdmin .metabase exampleEnv exampleClient exampleWorld).world.sent =
        exampleWorld.sent) ∧
    ∃ resp,
      (ensureAdmin .metabase exampleEnv exampleEmptyClient exampleWorld).world.sent =
        exampleWorld.sent ++
          [⟨.adminLogin, loginRequest .metabase exampleEnv exampleEmptyClient, resp⟩] :=
  ⟨(C19_ensureAdmin_cache .metabase exampleEnv exampleClient exampleWorld).1
      (by unfold cacheValid; decide),
    (((C19_ensureAdmin_cache .metabase exampleEnv exampleEmptyClient exampleWorld).2
      (by unfold cacheValid; decide)).imp (fun _ h => h.1))⟩

/-- A call answered 401 on every attempt: two logins and two calls are sent
and the second 401 response is what the caller gets. -/
theorem doJSON_always_unauthorized :
    (doJSON .metabase exampleRejectingEnv exampleEmptyClient exampleWorld (bytesOf "POST")
      (bytesOf "/api/user") (some exampleBody)).result =
        .ok ⟨401, bytesOf "Unauthenticated"⟩ ∧
    (doJSON .metabase exampleRejectingEnv exampleEmptyClient exampleWorld (bytesOf "POST")
      (bytesOf "/api/user") (some exampleBody)).world.sent.map Sent.isLogin =
        [true, false, true, false] := by
  decide!

/-- Claim C17: the retry is bounded, for both clients and every behaviour of
the upstream.  A call of `doJSON` sends at most two admin logins and at most
two calls; when it sends two calls, the first was answered 401 and the caller
gets the outcome of the second, whatever it is: a second 401 is returned and
nothing more is sent. -/
theorem C17_bounded_retry (k : Backend) (env : Env) (m : ClientOIDC) (w : World)
    (method urlPath : Bytes) (input : Option Bytes) :
    ∃ new,
      (doJSON k env m w method urlPath input).world.sent = w.sent ++ new ∧
      new.countP Sent.isLogin ≤ 2 ∧ new.countP Sent.isCall ≤ 2 ∧
      ∀ c1 c2, new.filter Sent.isCall = [c1, c2] →
        (∃ r1, c1.response = some r1 ∧ r1.StatusCode = 401) ∧
        (doJSON k env m w method urlPath input).result =
          (match c2.response with
            | some r2 => .ok r2
            | none => .error .transport) := by
  unfold doJSON
  obtain ⟨l1, hl1, hc1⟩ := ensureAdmin_sent k env m w
  cases h1 : ensureAdmin k env m w with
  | mk r1 m1 w1 =>
    rw [h1] at hl1
    simp only at hl1
    cases r1 with
    | error e =>
      refine ⟨l1, hl1, ?_⟩
      rcases hc1 with rfl | ⟨rq, rs, rfl⟩ <;> simp [Sent.isLogin, Sent.isCall]
    | ok u =>
      simp only [send]
      cases hr : env.Do (w1.sent.map (fun s => s.request))
          (newCallRequest k method (env.ResolveReference m1.BaseURL urlPath) input
            m1.AdminSession) with
      | none =>
        refine ⟨l1 ++ [⟨.call, (newCallRequest k method (env.ResolveReference m1.BaseURL urlPath) input m1.AdminSession), none⟩], by simp [hl1], ?_⟩
        rcases hc1 with rfl | ⟨rq, rs, rfl⟩ <;> simp [Sent.isLogin, Sent.isCall]
      | some resp =>
        simp only
        by_cases h401 : resp.StatusCode = 401
        · rw [if_pos h401]
          obtain ⟨l2, hl2, hc2⟩ := ensureAdmin_sent k env
            { m1 with AdminSession := [], AdminSessionExp := GoTime.zeroTime }
            { w1 with sent := w1.sent ++ [⟨.call, newCallRequest k method
              (env.ResolveReference m1.BaseURL urlPath) input m1.AdminSession, some resp⟩] }
          cases h2 : ensureAdmin k env
            { m1 with AdminSession := [], AdminSessionExp := GoTime.zeroTime }
            { w1 with sent := w1.sent ++ [⟨.call, newCallRequest k method
              (env.ResolveReference m1.BaseURL urlPath) input m1.AdminSession, some resp⟩] } with
          | mk r2 m2 w2 =>
            rw [h2] at hl2
            simp only at hl2
            cases r2 with
            | error e =>
              refine ⟨l1 ++ [⟨.call, (newCallRequest k method (env.ResolveReference m1.BaseURL urlPath) input m1.AdminSession), some resp⟩] ++ l2, by simp [hl2, hl1], ?_⟩
              rcases hc1 with rfl | ⟨rq, rs, rfl⟩ <;> rcases hc2 with rfl | ⟨rq2, rs2, rfl⟩ <;>
                simp [Sent.isLogin, Sent.isCall]
            | ok u2 =>
              simp only
              cases hr2 : env.Do (w2.sent.map (fun s => s.request))
                  (newCallRequest k method (env.ResolveReference m1.BaseURL urlPath)
                    (input.map (fun _ => [])) m2.AdminSession) with
              | none =>
                refine ⟨l1 ++ [⟨.call, (newCallRequest k method (env.ResolveReference m1.BaseURL urlPath) input m1.AdminSession), some resp⟩] ++ l2 ++
                  [⟨.call, (newCallRequest k method (env.ResolveReference m1.BaseURL urlPath) (input.map (fun _ => [])) m2.AdminSession), none⟩],
                  by simp [hl2, hl1], ?_⟩
                rcases hc1 with rfl | ⟨rq, rs, rfl⟩ <;>
                  rcases hc2 with rfl | ⟨rq2, rs2, rfl⟩ <;>
                  simp [Sent.isLogin, Sent.isCall, h401]
              | some resp2 =>
                refine ⟨l1 ++ [⟨.call, (newCallRequest k method (env.ResolveReference m1.BaseURL urlPath) input m1.AdminSession), some resp⟩] ++ l2 ++
                  [⟨.call, (newCallRequest k method (env.ResolveReference m1.BaseURL urlPath) (input.map (fun _ => [])) m2.AdminSession), some resp2⟩],
                  by simp [hl2, hl1], ?_⟩
                rcases hc1 with rfl | ⟨rq, rs, rfl⟩ <;>
                  rcases hc2 with rfl | ⟨rq2, rs2, rfl⟩ <;>
                  simp [Sent.isLogin, Sent.isCall, h401]
        · rw [if_neg h401]
          refine ⟨l1 ++ [⟨.call, (newCallRequest k method (env.ResolveReference m1.BaseURL urlPath) input m1.AdminSession), some resp⟩], by simp [hl1], ?_⟩
          rcases hc1 with rfl | ⟨rq, rs, rfl⟩ <;> simp [Sent.isLogin, Sent.isCall]

/-- The retry of `doJSON` in general, for both clients: with a valid cached
credential, a first call answered 401 and a login that gives the credential
`id`, three requests are sent: the call with the cached credential and the
body, the admin login, and the call again with the same method and URL, the
credential `id` and whatever is left in the reader of the body, which is
nothing.  The caller gets the outcome of the last request and the cache holds
`id`. -/
theorem doJSON_retry (k : Backend) (env : Env) (m : ClientOIDC) (w : World)
    (method urlPath : Bytes) (input : Option Bytes) (resp1 : Response) (id : Bytes)
    (hvalid : cacheValid env m w)
    (h1 : env.Do (w.sent.map (fun s => s.request))
      (newCallRequest k method (env.ResolveReference m.BaseURL urlPath) input m.AdminSession) =
        some resp1)
    (h401 : resp1.StatusCode = 401)
    (hlogin : loginGives env
      (env.Do (w.sent.map (fun s => s.request) ++
          [newCallRequest k method (env.ResolveReference m.BaseURL urlPath) input m.AdminSession])
        (loginRequest k env m)) id) :
    ∃ resp2,
      (doJSON k env m w method urlPath input).world.sent = w.sent ++
        [⟨.call, newCallRequest k method (env.ResolveReference m.BaseURL urlPath) input
            m.AdminSession, some resp1⟩,
          ⟨.adminLogin, loginRequest k env m,
            env.Do (w.sent.map (fun s => s.request) ++
                [newCallRequest k method (env.ResolveReference m.BaseURL urlPath) input
                  m.AdminSession])
              (loginRequest k env m)⟩,
          ⟨.call, newCallRequest k method (env.ResolveReference m.BaseURL urlPath)
            (input.map (fun _ => [])) id, resp2⟩] ∧
      (doJSON k env m w method urlPath input).result =
        (match resp2 with
          | some r2 => .ok r2
          | none => .error .transport) ∧
      (doJSON k env m w method urlPath input).client.AdminSession = id := by
  obtain ⟨v1, v2, v3⟩ := ensureAdmin_valid k env m w hvalid
  unfold doJSON
  cases e1 : ensureAdmin k env m w with
  | mk r1 m1 w1 =>
    rw [e1] at v1 v2 v3
    simp only at v1 v2 v3
    subst v1 v2 v3
    simp only [send, h1, h401, if_true]
    have hnv : ¬ cacheValid env
        { m1 with AdminSession := [], AdminSessionExp := GoTime.zeroTime }
        { sent := w.sent ++ [⟨.call, newCallRequest k method
            (env.ResolveReference m1.BaseURL urlPath) input m1.AdminSession, some resp1⟩],
          clockReads := w.clockReads + 1 } := by
      unfold cacheValid
      simp
    obtain ⟨g1, g2, _⟩ := ensureAdmin_login k env _ _ hnv
    have hreq : loginRequest k env
        { m1 with AdminSession := [], AdminSessionExp := GoTime.zeroTime } =
        loginRequest k env m1 := by
      cases k <;> rfl
    simp only [List.map_append, List.map_cons, List.map_nil, hreq] at g1 g2
    obtain ⟨g3, g4, _⟩ := g2 id hlogin
    cases e2 : ensureAdmin k env
        { m1 with AdminSession := [], AdminSessionExp := GoTime.zeroTime }
        { sent := w.sent ++ [⟨.call, newCallRequest k method
            (env.ResolveReference m1.BaseURL urlPath) input m1.AdminSession, some resp1⟩],
          clockReads := w.clockReads + 1 } with
    | mk r2 m2 w2 =>
      rw [e2] at g1 g3 g4
      simp only at g1 g3 g4
      subst g3 g4
      simp only
      cases e3 : env.Do (w2.sent.map (fun s => s.request))
          (newCallRequest k method (env.ResolveReference m1.BaseURL urlPath)
            (input.map (fun _ => [])) id) with
      | none => exact ⟨none, by simp [g1], rfl, rfl⟩
      | some r3 => exact ⟨some r3, by simp [g1], rfl, rfl⟩

/-- Claim C18 (fails in the code): the repeated call does not carry the JSON
body.  The Metabase client holds a valid cached credential `old`; a POST with
a JSON body is answered 401, the admin login gives the credential `new`, and
the call is repeated with the same method, the same URL and the credential
`new`, but with an empty body: the second request is built from the reader
that the first request has read to its end.  The NocoDB client does the
same. -/
theorem C18_retry_sends_empty_body :
    (doJSON .metabase exampleEnv exampleClient exampleWorld (bytesOf "POST")
      (bytesOf "/api/user") (some exampleBody)).world.sent =
      [⟨.call,
          ⟨bytesOf "POST", bytesOf "http://metabase:3000/api/user",
            [(bytesOf "Content-Type", bytesOf "application/json"),
              (bytesOf "X-Metabase-Session", bytesOf "old")], exampleBody⟩,
          some ⟨401, bytesOf "Unauthenticated"⟩⟩,
        ⟨.adminLogin, loginRequest .metabase exampleEnv exampleClient,
          some ⟨200, bytesOf "\x7b\"id\":\"new\"\x7d"⟩⟩,
        ⟨.call,
          ⟨bytesOf "POST", bytesOf "http://metabase:3000/api/user",
            [(bytesOf "Content-Type", bytesOf "application/json"),
              (bytesOf "X-Metabase-Session", bytesOf "new")], []⟩,
          some ⟨200, []⟩⟩] ∧
    exampleBody ≠ [] ∧
    ((doJSON .nocodb exampleEnv exampleClient exampleWorld (bytesOf "POST")
      (bytesOf "/api/v1/users") (some exampleBody)).world.sent.map
        (fun s => (s.isCall, s.request.Body))) =
      [(true, exampleBody), (false, (loginRequest .nocodb exampleEnv exampleClient).Body),
        (true, [])] := by
  decide!

/-! ## Concurrent callers of ensureAdmin -/

theorem stepCaller_length (k : Backend) (env : Env) (i : Nat) (s : Adapter) :
    (stepCaller k env i s).callers.length = s.callers.length := by
  unfold stepCaller
  split
  · split <;> simp
  · simp
  · rfl

theorem runSchedule_length (k : Backend) (env : Env) (schedule : List Nat) :
    ∀ s : Adapter, (runSchedule k env schedule s).callers.length = s.callers.length := by
  induction schedule with
  | nil => intro s; rfl
  | cons i is ih =>
    intro s
    simp only [runSchedule, List.foldl_cons] at ih ⊢
    rw [ih, stepCaller_length]

theorem runSchedule_append (k : Backend) (env : Env) (a b : List Nat) (s : Adapter) :
    runSchedule k env (a ++ b) s = runSchedule k env b (runSchedule k env a s) := by
  simp [runSchedule, List.foldl_append]

theorem loginRequest_cache (k : Backend) (env : Env) (m : ClientOIDC) (id : Bytes) (t : Time) :
    loginRequest k env { m with AdminSession := id, AdminSessionExp := t } =
      loginRequest k env m := by
  cases k <;> rfl

theorem get?_set_self {α : Type} (l : List α) (i : Nat) (a b : α) (h : l.get? i = some a) :
    (l.set i b).get? i = some b := by
  have hi : i < l.length := by
    by_contra hc
    rw [List.get?_eq_none.mpr (by omega)] at h
    cases h
  simp [List.get?_eq_getElem?, List.getElem?_set, hi]

theorem get?_set_other {α : Type} (l : List α) (i j : Nat) (b : α) (h : i ≠ j) :
    (l.set i b).get? j = l.get? j := by
  simp [List.get?_eq_getElem?, List.getElem?_set, h]

/-- The body of `ensureAdmin` run by the holder of the mutex: it returns the
nil error, and afterwards the cache holds a credential and exactly one login
has been sent. -/
theorem ensureAdmin_singleRefresh (k : Backend) (env : Env) (m : ClientOIDC) (w : World)
    (hlogin : loginSucceeds k env m) (hclock : ∀ i j, env.Now i < env.Now j + 8 * GoTime.Hour)
    (c : ClientOIDC) (v : World) (hreq : loginRequest k env c = loginRequest k env m)
    (hcache : (c.AdminSession = [] ∧ loginCount v = loginCount w) ∨
      (c.AdminSession ≠ [] ∧ (∃ j, c.AdminSessionExp = env.Now j + 8 * GoTime.Hour) ∧
        loginCount v = loginCount w + 1)) :
    (ensureAdmin k env c v).result = .ok () ∧
    loginRequest k env (ensureAdmin k env c v).client = loginRequest k env m ∧
    (ensureAdmin k env c v).client.AdminSession ≠ [] ∧
    (∃ j, (ensureAdmin k env c v).client.AdminSessionExp = env.Now j + 8 * GoTime.Hour) ∧
    loginCount (ensureAdmin k env c v).world = loginCount w + 1 := by
  rcases hcache with ⟨he, hc⟩ | ⟨hne, ⟨j, hj⟩, hc⟩
  · have hnv : ¬ cacheValid env c v := by
      unfold cacheValid
      simp [he]
    obtain ⟨g1, g2, _⟩ := ensureAdmin_login k env c v hnv
    obtain ⟨id, hid⟩ := hlogin (v.sent.map (fun s => s.request))
    rw [← hreq] at hid
    obtain ⟨g3, g4, _⟩ := g2 id hid
    obtain ⟨_, _, _, _, hidne⟩ := hid
    refine ⟨g3, ?_, ?_, ?_, ?_⟩
    · rw [g4, loginRequest_cache, hreq]
    · rw [g4]; exact hidne
    · rw [g4]; exact ⟨_, rfl⟩
    · unfold loginCount at hc ⊢
      rw [g1, List.countP_append, hc]
      simp [List.countP_cons, Sent.isLogin]
  · have hv : cacheValid env c v := ⟨hne, by rw [hj]; exact hclock _ _⟩
    obtain ⟨g1, g2, g3⟩ := ensureAdmin_valid k env c v hv
    refine ⟨g1, by rw [g2, hreq], by rw [g2]; exact hne, ⟨j, by rw [g2, hj]⟩, ?_⟩
    rw [g3]
    exact hc

/-- Every step of a caller keeps `singleRefresh`. -/
theorem stepCaller_singleRefresh (k : Backend) (env : Env) (m : ClientOIDC) (w : World)
    (hlogin : loginSucceeds k env m) (hclock : ∀ i j, env.Now i < env.Now j + 8 * GoTime.Hour)
    (i : Nat) (s : Adapter) (h : singleRefresh k env m w s) :
    singleRefresh k env m w (stepCaller k env i s) := by
  obtain ⟨h1, h2, h3, h4⟩ := h
  unfold stepCaller
  split
  · next hst =>
    split
    · next hfree =>
      refine ⟨h1, ?_, ?_, ?_⟩
      · intro j
        simp only
        by_cases hij : i = j
        · subst hij
          rw [get?_set_self _ _ _ _ hst]
          simp
        · rw [get?_set_other _ _ _ _ hij]
          constructor
          · intro hl
            have := (h2 j).mp hl
            rw [hfree] at this
            cases this
          · intro hl
            exact absurd (Option.some.inj hl) hij
      · intro j r hj
        simp only at hj
        by_cases hij : i = j
        · subst hij
          rw [get?_set_self _ _ _ _ hst] at hj
          cases hj
        · rw [get?_set_other _ _ _ _ hij] at hj
          exact h3 j r hj
      · rcases h4 with ⟨a1, a2, a3⟩ | hb
        · left
          refine ⟨a1, a2, ?_⟩
          intro j c hj
          simp only at hj
          by_cases hij : i = j
          · subst hij
            rw [get?_set_self _ _ _ _ hst] at hj
            cases hj
            rfl
          · rw [get?_set_other _ _ _ _ hij] at hj
            exact a3 j c hj
        · right; exact hb
    · exact ⟨h1, h2, h3, h4⟩
  · next hlk =>
    have hcache : (s.client.AdminSession = [] ∧ loginCount s.world = loginCount w) ∨
        (s.client.AdminSession ≠ [] ∧
          (∃ j, s.client.AdminSessionExp = env.Now j + 8 * GoTime.Hour) ∧
          loginCount s.world = loginCount w + 1) := by
      rcases h4 with ⟨a1, a2, _⟩ | hb
      · exact Or.inl ⟨a1, a2⟩
      · exact Or.inr hb
    obtain ⟨e1, e2, e3, e4, e5⟩ :=
      ensureAdmin_singleRefresh k env m w hlogin hclock s.client s.world h1 hcache
    have hholder := (h2 i).mp hlk
    refine ⟨e2, ?_, ?_, Or.inr ⟨e3, e4, e5⟩⟩
    · intro j
      simp only
      by_cases hij : i = j
      · subst hij
        rw [get?_set_self _ _ _ _ hlk]
        simp
      · rw [get?_set_other _ _ _ _ hij]
        constructor
        · intro hl
          have := (h2 j).mp hl
          rw [hholder] at this
          exact absurd (Option.some.inj this) hij
        · intro hl
          cases hl
    · intro j r hj
      simp only at hj
      by_cases hij : i = j
      · subst hij
        rw [get?_set_self _ _ _ _ hlk] at hj
        cases hj
        exact e1
      · rw [get?_set_other _ _ _ _ hij] at hj
        exact h3 j r hj
  · exact ⟨h1, h2, h3, h4⟩

theorem initialAdapter_singleRefresh (k : Backend) (env : Env) (m : ClientOIDC) (w : World)
    (n : Nat) (hempty : m.AdminSession = []) :
    singleRefresh k env m w (initialAdapter m w n) := by
  refine ⟨rfl, ?_, ?_, Or.inl ⟨hempty, rfl, ?_⟩⟩
  · intro i
    simp only [initialAdapter, List.get?_eq_getElem?, List.getElem?_replicate]
    split_ifs <;> simp
  · intro i r hi
    simp only [initialAdapter, List.get?_eq_getElem?, List.getElem?_replicate] at hi
    split_ifs at hi
    cases hi
  · intro i c hi
    simp only [initialAdapter, List.get?_eq_getElem?, List.getElem?_replicate] at hi
    split_ifs at hi
    cases hi
    rfl

theorem runSchedule_singleRefresh (k : Backend) (env : Env) (m : ClientOIDC) (w : World)
    (hlogin : loginSucceeds k env m) (hclock : ∀ i j, env.Now i < env.Now j + 8 * GoTime.Hour)
    (schedule : List Nat) : ∀ s : Adapter, singleRefresh k env m w s →
    singleRefresh k env m w (runSchedule k env schedule s) := by
  induction schedule with
  | nil => intro s h; exact h
  | cons i is ih =>
    intro s h
    simp only [runSchedule, List.foldl_cons] at ih ⊢
    exact ih _ (stepCaller_singleRefresh k env m w hlogin hclock i s h)

/-- A caller that has returned stays where it is. -/
theorem stepCaller_finished (k : Backend) (env : Env) (i j : Nat) (s : Adapter)
    (r : Except ClientError Unit) (h : s.callers.get? j = some (.finished r)) :
    (stepCaller k env i s).callers.get? j = some (.finished r) := by
  unfold stepCaller
  split
  · next hst =>
    split
    · have hij : i ≠ j := by
        rintro rfl
        rw [hst] at h; cases h
      simp only
      rw [get?_set_other _ _ _ _ hij]
      exact h
    · exact h
  · next hlk =>
    have hij : i ≠ j := by
      rintro rfl
      rw [hlk] at h; cases h
    simp only
    rw [get?_set_other _ _ _ _ hij]
    exact h
  · exact h

/-- With the mutex free, two steps of a caller bring it to its return and
leave the mutex free. -/
theorem stepCaller_twice (k : Backend) (env : Env) (m : ClientOIDC) (w : World) (j : Nat)
    (s : Adapter) (h : singleRefresh k env m w s) (hfree : s.holder = none)
    (hj : j < s.callers.length) :
    (stepCaller k env j (stepCaller k env j s)).holder = none ∧
    ∃ r, (stepCaller k env j (stepCaller k env j s)).callers.get? j = some (.finished r) := by
  obtain ⟨_, h2, _, _⟩ := h
  have hget : s.callers.get? j = some (s.callers.get ⟨j, hj⟩) := List.get?_eq_get hj
  cases hc : s.callers.get ⟨j, hj⟩ with
  | start =>
    rw [hc] at hget
    have e1 : stepCaller k env j s =
        { s with holder := some j, callers := s.callers.set j .locked } := by
      simp only [stepCaller, hget, hfree, if_true]
    have hl : (stepCaller k env j s).callers.get? j = some .locked := by
      rw [e1]; exact get?_set_self _ _ _ _ hget
    have e2 : stepCaller k env j (stepCaller k env j s) =
        { client := (ensureAdmin k env (stepCaller k env j s).client
            (stepCaller k env j s).world).client,
          world := (ensureAdmin k env (stepCaller k env j s).client
            (stepCaller k env j s).world).world,
          holder := none,
          callers := (stepCaller k env j s).callers.set j
            (.finished (ensureAdmin k env (stepCaller k env j s).client
              (stepCaller k env j s).world).result) } := by
      conv_lhs => rw [stepCaller]
      simp only [hl]
    rw [e2]
    exact ⟨rfl, _, get?_set_self _ _ _ _ hl⟩
  | locked =>
    rw [hc] at hget
    have := (h2 j).mp hget
    rw [hfree] at this
    cases this
  | finished r =>
    rw [hc] at hget
    have e1 : stepCaller k env j s = s := by simp only [stepCaller, hget]
    rw [e1, e1]
    exact ⟨hfree, r, hget⟩

/-- With the mutex free, giving every caller of a list two steps in turn
brings all of them to their return. -/
theorem runSchedule_pairs (k : Backend) (env : Env) (m : ClientOIDC) (w : World)
    (hlogin : loginSucceeds k env m) (hclock : ∀ i j, env.Now i < env.Now j + 8 * GoTime.Hour)
    (js : List Nat) : ∀ s : Adapter, singleRefresh k env m w s → s.holder = none →
    (runSchedule k env (js.flatMap (fun j => [j, j])) s).holder = none ∧
    (∀ j r, s.callers.get? j = some (.finished r) →
      (runSchedule k env (js.flatMap (fun j => [j, j])) s).callers.get? j =
        some (.finished r)) ∧
    (∀ j ∈ js, j < s.callers.length →
      ∃ r, (runSchedule k env (js.flatMap (fun j => [j, j])) s).callers.get? j =
        some (.finished r)) := by
  induction js with
  | nil =>
    intro s _ hfree
    exact ⟨hfree, fun j r h => h, fun j hj => by cases hj⟩
  | cons a as ih =>
    intro s h hfree
    have hs1 := stepCaller_singleRefresh k env m w hlogin hclock a s h
    have hs2 := stepCaller_singleRefresh k env m w hlogin hclock a _ hs1
    have hlen : (stepCaller k env a (stepCaller k env a s)).callers.length = s.callers.length := by
      rw [stepCaller_length, stepCaller_length]
    have hrun : runSchedule k env ((a :: as).flatMap (fun j => [j, j])) s =
        runSchedule k env (as.flatMap (fun j => [j, j]))
          (stepCaller k env a (stepCaller k env a s)) := by
      simp [runSchedule]
    rw [hrun]
    by_cases ha : a < s.callers.length
    · obtain ⟨t1, r0, t2⟩ := stepCaller_twice k env m w a s h hfree ha
      obtain ⟨i1, i2, i3⟩ := ih _ hs2 t1
      refine ⟨i1, ?_, ?_⟩
      · intro j r hj
        exact i2 j r (stepCaller_finished k env a j _ r (stepCaller_finished k env a j s r hj))
      · intro j hj hjl
        simp only [List.mem_cons] at hj
        rcases hj with rfl | hj
        · exact ⟨r0, i2 j r0 t2⟩
        · exact i3 j hj (by rw [hlen]; exact hjl)
    · have hnone : s.callers.get? a = none := List.get?_eq_none.mpr (by omega)
      have e1 : stepCaller k env a s = s := by simp only [stepCaller, hnone]
      rw [e1, e1] at hs2 hlen ⊢
      obtain ⟨i1, i2, i3⟩ := ih _ h hfree
      refine ⟨i1, i2, ?_⟩
      intro j hj hjl
      simp only [List.mem_cons] at hj
      rcases hj with rfl | hj
      · exact absurd hjl ha
      · exact i3 j hj hjl

/-- From every state that keeps `singleRefresh`, some further steps bring all
callers to their return: the holder of the mutex first, then every caller in
turn. -/
theorem runSchedule_completes (k : Backend) (env : Env) (m : ClientOIDC) (w : World)
    (hlogin : loginSucceeds k env m) (hclock : ∀ i j, env.Now i < env.Now j + 8 * GoTime.Hour)
    (s : Adapter) (h : singleRefresh k env m w s) :
    ∃ rest, ∀ c ∈ (runSchedule k env rest s).callers, c.hasReturned = true := by
  have key : ∀ s' : Adapter, singleRefresh k env m w s' → s'.holder = none →
      ∀ c ∈ (runSchedule k env ((List.range s'.callers.length).flatMap (fun j => [j, j]))
        s').callers, c.hasReturned = true := by
    intro s' h' hfree c hc
    obtain ⟨_, _, i3⟩ := runSchedule_pairs k env m w hlogin hclock
      (List.range s'.callers.length) s' h' hfree
    obtain ⟨n, hget⟩ := List.mem_iff_get?.mp hc
    have hn : n < s'.callers.length := by
      by_contra hcon
      have hle : (runSchedule k env ((List.range s'.callers.length).flatMap
          (fun j => [j, j])) s').callers.length ≤ n := by
        rw [runSchedule_length]; omega
      rw [List.get?_eq_none.mpr hle] at hget
      cases hget
    obtain ⟨r, hr⟩ := i3 n (List.mem_range.mpr hn) hn
    rw [hr] at hget
    cases hget
    rfl
  cases hh : s.holder with
  | none => exact ⟨_, key s h hh⟩
  | some i =>
    have hlk := (h.2.1 i).mpr hh
    have hs1 := stepCaller_singleRefresh k env m w hlogin hclock i s h
    have hfree : (stepCaller k env i s).holder = none := by
      simp only [stepCaller, hlk]
    refine ⟨i :: (List.range (stepCaller k env i s).callers.length).flatMap (fun j => [j, j]), ?_⟩
    have := key _ hs1 hfree
    simpa [runSchedule] using this

/-- Every admin login of the example is answered with the credential `new`. -/
theorem exampleEnv_loginSucceeds : loginSucceeds .metabase exampleEnv exampleEmptyClient :=
  fun _ => ⟨bytesOf "new", ⟨200, bytesOf "\x7b\"id\":\"new\"\x7d"⟩, rfl, rfl, by decide!,
    by decide⟩

/-- The clock of the example stands still. -/
theorem exampleEnv_clock (i j : Nat) : exampleEnv.Now i < exampleEnv.Now j + 8 * GoTime.Hour :=
  (by decide : exampleNow < exampleNow + 8 * GoTime.Hour)

/-- Claim C20: one refresh under concurrency, for both clients.  Any number
`n > 0` of callers run `ensureAdmin` on one client whose cache is empty; every
admin login gives a credential, and no reading of the clock is eight hours or
more after another.  Then after the steps of every schedule: each caller that
has returned has returned the nil error; at most one admin login has been
sent, and exactly one once all callers have returned; and the schedule can be
continued so that all `n` callers return (no caller stays blocked). -/
theorem C20_single_refresh (k : Backend) (env : Env) (m : ClientOIDC) (w : World) (n : Nat)
    (schedule : List Nat) (hempty : m.AdminSession = []) (hlogin : loginSucceeds k env m)
    (hclock : ∀ i j, env.Now i < env.Now j + 8 * GoTime.Hour) (hn : 0 < n) :
    (runSchedule k env schedule (initialAdapter m w n)).callers.length = n ∧
    (∀ r, CallerState.finished r ∈ (runSchedule k env schedule (initialAdapter m w n)).callers →
      r = .ok ()) ∧
    loginCount (runSchedule k env schedule (initialAdapter m w n)).world ≤ loginCount w + 1 ∧
    ((∀ c ∈ (runSchedule k env schedule (initialAdapter m w n)).callers,
        c.hasReturned = true) →
      loginCount (runSchedule k env schedule (initialAdapter m w n)).world = loginCount w + 1) ∧
    ∃ rest, ∀ c ∈ (runSchedule k env (schedule ++ rest) (initialAdapter m w n)).callers,
      c.hasReturned = true := by
  have hinv := runSchedule_singleRefresh k env m w hlogin hclock schedule _
    (initialAdapter_singleRefresh k env m w n hempty)
  have hlen : (runSchedule k env schedule (initialAdapter m w n)).callers.length = n := by
    rw [runSchedule_length]
    simp [initialAdapter]
  obtain ⟨_, _, h3, h4⟩ := hinv
  refine ⟨hlen, ?_, ?_, ?_, ?_⟩
  · intro r hr
    obtain ⟨i, hi⟩ := List.mem_iff_get?.mp hr
    exact h3 i r hi
  · rcases h4 with ⟨_, a2, _⟩ | ⟨_, _, b3⟩ <;> omega
  · intro hall
    rcases h4 with ⟨_, _, a3⟩ | ⟨_, _, b3⟩
    · exfalso
      have h0 : 0 < (runSchedule k env schedule (initialAdapter m w n)).callers.length := by
        rw [hlen]; exact hn
      have hget := List.get?_eq_get h0
      have t1 := hall _ (List.get_mem _ 0 h0)
      have t2 := a3 0 _ hget
      rw [t1] at t2
      cases t2
    · exact b3
  · obtain ⟨rest, hrest⟩ := runSchedule_completes k env m w hlogin hclock _
      (runSchedule_singleRefresh k env m w hlogin hclock schedule _
        (initialAdapter_singleRefresh k env m w n hempty))
    exact ⟨rest, by rw [runSchedule_append]; exact hrest⟩

/-- Claim C20 on three callers of the Metabase client that take their steps in
turn: all three return and one login has been sent. -/
theorem C20_single_refresh_witness :
    (∀ c ∈ (runSchedule .metabase exampleEnv [0, 1, 2, 0, 1, 1, 2, 2]
        (initialAdapter exampleEmptyClient exampleWorld 3)).callers, c.hasReturned = true) ∧
    loginCount (runSchedule .metabase exampleEnv [0, 1, 2, 0, 1, 1, 2, 2]
      (initialAdapter exampleEmptyClient exampleWorld 3)).world = loginCount exampleWorld + 1 :=
  ⟨by decide!,
    (C20_single_refresh .metabase exampleEnv exampleEmptyClient exampleWorld 3
      [0, 1, 2, 0, 1, 1, 2, 2] rfl exampleEnv_loginSucceeds exampleEnv_clock
      (by decide)).2.2.2.1 (by decide!)⟩

/-! ## The pair name=value of a cookie -/

/-- The first piece joined by `rewriteSetCookieDomain` is what the loop makes
of the first attribute of the input, the pair name=value: the pair itself,
trimmed, unless it starts with `domain=` in lower case. -/
theorem rewrittenAttrs_head (caseTable : Nat → Nat) (sc host : Bytes) (secure : Bool) :
    (rewrittenAttrs caseTable sc host secure).head? =
      (attributesOf sc).head?.map (replaceDomain caseTable host) := by
  rw [rewrittenAttrs_eq]
  have hne := attributesOf_ne_nil sc
  cases h : attributesOf sc with
  | nil => exact absurd h hne
  | cons k ks => simp

/-- Claim C26 (fails in the code): a cookie named `domain` loses its pair
name=value.  The loop of `rewriteSetCookieDomain` treats the first segment like
every other one, so the pair `domain=abc` (in any case of the letters) is
taken for a Domain attribute and replaced by `Domain=` and the host.  A cookie
with another name keeps its pair. -/
theorem C26_cookie_named_domain_is_lost :
    rewriteSetCookieDomain id (bytesOf "domain=abc; Path=/") (bytesOf "app.example.com") false =
      bytesOf "Domain=app.example.com; Path=/; SameSite=Lax" ∧
    (attributesOf (rewriteSetCookieDomain id (bytesOf "domain=abc; Path=/")
      (bytesOf "app.example.com") false)).head? = some (bytesOf "Domain=app.example.com") ∧
    (attributesOf (bytesOf "domain=abc; Path=/")).head? = some (bytesOf "domain=abc") ∧
    rewriteSetCookieDomain id (bytesOf " DOMAIN=abc ;Path=/") (bytesOf "app.example.com") true =
      bytesOf "Domain=app.example.com; Path=/; Secure; SameSite=Lax" ∧
    rewriteSetCookieDomain id (bytesOf " sid=abc ; Path=/") (bytesOf "app.example.com") false =
      bytesOf "sid=abc; Path=/; SameSite=Lax" := by
  decide

/-! ## One-time passwords -/

theorem letters_length : letters.length = 66 := by decide

theorem letters_getD_mem (j : Nat) (h : j < letters.length) : letters.getD j 0 ∈ letters := by
  rw [List.getD_eq_getElem _ _ h]
  exact List.getElem_mem h

/-- A password made from the cryptographic source and one made on the fallback
path. -/
theorem GenPassword_example :
    GenPassword 4 ⟨some (fun i => byte (70 * i)), fun _ _ => 0, fun _ _ h => h⟩ =
      bytesOf "aeim" ∧
    GenPassword 3 ⟨none, fun bound i => (i + 63) % bound, fun _ _ h => Nat.mod_lt _ h⟩ =
      bytesOf "_@#" := by
  decide

/-- Claim C25: for every `n >= 0` and every output of the random sources, on
the path of the cryptographic source and on the fallback path, `GenPassword(n)`
has exactly `n` characters and each of them is one of the 66 characters of
`letters`: a-z, A-Z, 0-9, `-`, `_`, `@`, `#`. -/
theorem C25_password_shape (n : Nat) (src : RandomSource) :
    (GenPassword n src).length = n ∧ (∀ c ∈ GenPassword n src, c ∈ letters) ∧
    letters.length = 66 ∧ letters.Nodup ∧
    ∀ c ∈ letters, (0x61 ≤ c.val ∧ c.val ≤ 0x7A) ∨ (0x41 ≤ c.val ∧ c.val ≤ 0x5A) ∨
      (0x30 ≤ c.val ∧ c.val ≤ 0x39) ∨ c = 0x2D ∨ c = 0x5F ∨ c = 0x40 ∨ c = 0x23 := by
  refine ⟨?_, ?_, letters_length, by decide, by decide⟩
  · unfold GenPassword
    cases src.cryptoRead <;> simp
  · intro c hc
    unfold GenPassword at hc
    cases hr : src.cryptoRead with
    | some b =>
      rw [hr] at hc
      simp only [List.mem_map, List.mem_range] at hc
      obtain ⟨i, _, rfl⟩ := hc
      exact letters_getD_mem _ (Nat.mod_lt _ (by rw [letters_length]; decide))
    | none =>
      rw [hr] at hc
      simp only [List.mem_map, List.mem_range] at hc
      obtain ⟨i, _, rfl⟩ := hc
      exact letters_getD_mem _ (src.Intn_lt _ _ (by rw [letters_length]; decide))

/-! ## The Location header -/

/-- Claim C22: the rewriting of the Location header.  The internal base URL
`p` is not empty (`loadConfig` refuses an empty `PROXY_URL`).  With rewriting
enabled, a first Location value `p ++ rest` is replaced by the single value
`e ++ rest`; a header whose first value does not start with `p`, or is empty,
or that is absent, is left as it is.  With rewriting disabled the header is
never changed. -/
theorem C22_location_is_rewritten (p e : Bytes) (hp : p ≠ []) :
    (∀ rest more, proxiedLocation true p e ((p ++ rest) :: more) = [e ++ rest]) ∧
    (∀ loc more, Strings.HasPrefix loc p = false ∨ loc = [] →
      proxiedLocation true p e (loc :: more) = loc :: more) ∧
    proxiedLocation true p e [] = [] ∧
    (∀ location, proxiedLocation false p e location = location) := by
  refine ⟨?_, ?_, ?_, ?_⟩
  · intro rest more
    have hne : p ++ rest ≠ [] := by
      intro h
      exact hp (List.append_eq_nil.mp h).1
    have hpre : Strings.HasPrefix (p ++ rest) p = true := by simp [Strings.HasPrefix]
    simp [proxiedLocation, ModifyResponse, hne, hpre, Strings.TrimPrefix]
  · intro loc more h
    rcases h with h | h
    · by_cases hl : loc = []
      · simp [proxiedLocation, ModifyResponse, hl]
      · simp [proxiedLocation, ModifyResponse, hl, h]
    · simp [proxiedLocation, ModifyResponse, h]
  · simp [proxiedLocation, ModifyResponse]
  · intro location
    simp [proxiedLocation]

/-- Claim C22 on the redirect of an upstream that names its internal
origin. -/
theorem C22_location_is_rewritten_witness :
    bytesOf "http://metabase:3000" ≠ [] ∧
    proxiedLocation true (bytesOf "http://metabase:3000") (bytesOf "https://bi.example.com")
      [bytesOf "http://metabase:3000/auth/login?x=1"] =
      [bytesOf "https://bi.example.com/auth/login?x=1"] :=
  ⟨by decide, by
    have h := (C22_location_is_rewritten (bytesOf "http://metabase:3000")
      (bytesOf "https://bi.example.com") (by decide)).1 (bytesOf "/auth/login?x=1") []
    have e : bytesOf "http://metabase:3000" ++ bytesOf "/auth/login?x=1" =
        bytesOf "http://metabase:3000/auth/login?x=1" := by decide
    have e2 : bytesOf "https://bi.example.com" ++ bytesOf "/auth/login?x=1" =
        bytesOf "https://bi.example.com/auth/login?x=1" := by decide
    rw [e, e2] at h
    exact h⟩

/-! ## Start-up -/

/-- The result of `newApp` does not depend on the result of `getBackend`:
when `url.JoinPath` and the OIDC provider succeed, `newApp` returns an App,
whose backend is the nil interface when `getBackend` returned an error. -/
theorem newApp_ignores_getBackend (caseTable : Nat → Nat) (urlParse : Bytes → Bool)
    (joinPath : Bytes → List Bytes → Option Bytes) (cfg : Main.Config) (path : Bytes)
    (hjoin : joinPath cfg.ExternalURL [cfg.OIDCPath, bytesOf "callback"] = some path) :
    ∃ app, Main.newApp caseTable urlParse joinPath true cfg = .ok app ∧
      app.backend =
        (match Main.getBackend urlParse cfg with
          | .ok b => some b
          | .error _ => none) := by
  simp [Main.newApp, hjoin, NewOIDCAuthenticator]

/-- Claim C23 (fails in the code): `newApp` drops the error of `getBackend`.
With `TYPE` unset (or `plane`) and every required variable set, `loadConfig`
accepts the configuration and `getBackend` returns `invalid backend type`,
yet `newApp` returns an App and no error; the backend of that App is the nil
interface.  The same happens with `TYPE=metabase` and a base URL that
`url.Parse` refuses. -/
theorem C23_backend_error_is_dropped :
    Main.loadConfig id (fun _ => none) exampleEnviron = .ok exampleMainConfig ∧
    Main.getBackend (fun _ => true) exampleMainConfig = .error .invalidBackendType ∧
    Main.newApp id (fun _ => true) exampleJoinPath true exampleMainConfig =
      .ok { oidcAuth := { stateSecret := bytesOf "s3cret", stateTTL := 600 * GoTime.Second,
                          allowedDomains := [], allowedEmails := [] },
            backend := none, secureCookies := true,
            cookieName := bytesOf "metabase.SESSION", config := exampleMainConfig } ∧
    Main.loadConfig id (fun _ => none) examplePlaneEnviron =
      .ok { exampleMainConfig with BackendType := bytesOf "plane",
                                   PlaneDSN := bytesOf "postgres://plane" } ∧
    (Main.newApp id (fun _ => true) exampleJoinPath true
      { exampleMainConfig with BackendType := bytesOf "plane",
                               PlaneDSN := bytesOf "postgres://plane" }).toOption.map
        (fun app => app.backend) = some none ∧
    Main.getBackend (fun _ => false)
      { exampleMainConfig with BackendType := bytesOf "metabase",
                               MetabaseAdminEmail := bytesOf "admin@b.com",
                               MetabaseAdminPassword := bytesOf "pw" } =
      .error .invalidBaseURL ∧
    (Main.newApp id (fun _ => false) exampleJoinPath true
      { exampleMainConfig with BackendType := bytesOf "metabase",
                               MetabaseAdminEmail := bytesOf "admin@b.com",
                               MetabaseAdminPassword := bytesOf "pw" }).toOption.map
        (fun app => app.backend) = some none := by
  decide

/-! ## Finding and creating users -/

/-- The calls sent by `doJSON` carry the method it was given. -/
theorem doJSON_calls (k : Backend) (env : Env) (m : ClientOIDC) (w : World)
    (method urlPath : Bytes) (input : Option Bytes) :
    ∃ new, (doJSON k env m w method urlPath input).world.sent = w.sent ++ new ∧
      ∀ s ∈ new, s.isCall = true → s.request.Method = method := by
  unfold doJSON
  obtain ⟨l1, hl1, hc1⟩ := ensureAdmin_sent k env m w
  cases h1 : ensureAdmin k env m w with
  | mk r1 m1 w1 =>
    rw [h1] at hl1
    simp only at hl1
    cases r1 with
    | error e =>
      refine ⟨l1, hl1, ?_⟩
      rcases hc1 with rfl | ⟨rq, rs, rfl⟩ <;> simp [Sent.isCall]
    | ok u =>
      simp only [send]
      cases hr : env.Do (w1.sent.map (fun s => s.request))
          (newCallRequest k method (env.ResolveReference m1.BaseURL urlPath) input
            m1.AdminSession) with
      | none =>
        refine ⟨l1 ++ [⟨.call, (newCallRequest k method
          (env.ResolveReference m1.BaseURL urlPath) input m1.AdminSession), none⟩],
          by simp [hl1], ?_⟩
        rcases hc1 with rfl | ⟨rq, rs, rfl⟩ <;> simp [Sent.isCall, newCallRequest]
      | some resp =>
        simp only
        by_cases h401 : resp.StatusCode = 401
        · rw [if_pos h401]
          obtain ⟨l2, hl2, hc2⟩ := ensureAdmin_sent k env
            { m1 with AdminSession := [], AdminSessionExp := GoTime.zeroTime }
            { w1 with sent := w1.sent ++ [⟨.call, newCallRequest k method
              (env.ResolveReference m1.BaseURL urlPath) input m1.AdminSession, some resp⟩] }
          cases h2 : ensureAdmin k env
            { m1 with AdminSession := [], AdminSessionExp := GoTime.zeroTime }
            { w1 with sent := w1.sent ++ [⟨.call, newCallRequest k method
              (env.ResolveReference m1.BaseURL urlPath) input m1.AdminSession, some resp⟩] } with
          | mk r2 m2 w2 =>
            rw [h2] at hl2
            simp only at hl2
            cases r2 with
            | error e =>
              refine ⟨l1 ++ [⟨.call, (newCallRequest k method
                (env.ResolveReference m1.BaseURL urlPath) input m1.AdminSession),
                some resp⟩] ++ l2, by simp [hl2, hl1], ?_⟩
              rcases hc1 with rfl | ⟨rq, rs, rfl⟩ <;> rcases hc2 with rfl | ⟨rq2, rs2, rfl⟩ <;>
                simp [Sent.isCall, newCallRequest]
            | ok u2 =>
              simp only
              cases hr2 : env.Do (w2.sent.map (fun s => s.request))
                  (newCallRequest k method (env.ResolveReference m1.BaseURL urlPath)
                    (input.map (fun _ => [])) m2.AdminSession) with
              | none =>
                refine ⟨l1 ++ [⟨.call, (newCallRequest k method
                  (env.ResolveReference m1.BaseURL urlPath) input m1.AdminSession),
                  some resp⟩] ++ l2 ++
                  [⟨.call, (newCallRequest k method (env.ResolveReference m1.BaseURL urlPath)
                    (input.map (fun _ => [])) m2.AdminSession), none⟩],
                  by simp [hl2, hl1], ?_⟩
                rcases hc1 with rfl | ⟨rq, rs, rfl⟩ <;>
                  rcases hc2 with rfl | ⟨rq2, rs2, rfl⟩ <;>
                  simp [Sent.isCall, newCallRequest]
              | some resp2 =>
                refine ⟨l1 ++ [⟨.call, (newCallRequest k method
                  (env.ResolveReference m1.BaseURL urlPath) input m1.AdminSession),
                  some resp⟩] ++ l2 ++
                  [⟨.call, (newCallRequest k method (env.ResolveReference m1.BaseURL urlPath)
                    (input.map (fun _ => [])) m2.AdminSession), some resp2⟩],
                  by simp [hl2, hl1], ?_⟩
                rcases hc1 with rfl | ⟨rq, rs, rfl⟩ <;>
                  rcases hc2 with rfl | ⟨rq2, rs2, rfl⟩ <;>
                  simp [Sent.isCall, newCallRequest]
        · rw [if_neg h401]
          refine ⟨l1 ++ [⟨.call, (newCallRequest k method
            (env.ResolveReference m1.BaseURL urlPath) input m1.AdminSession), some resp⟩],
            by simp [hl1], ?_⟩
          rcases hc1 with rfl | ⟨rq, rs, rfl⟩ <;> simp [Sent.isCall, newCallRequest]

/-- The lookup of the Metabase client sends what its one `doJSON` sends. -/
theorem Metabase_FindUserByEmail_world (codec : Metabase.Codec) (env : Env) (m : ClientOIDC)
    (w : World) (email : Bytes) :
    (Metabase.FindUserByEmail codec env m w email).world =
      (doJSON .metabase env m w (bytesOf "GET") (bytesOf "/api/user?status=all") none).world := by
  unfold Metabase.FindUserByEmail Metabase.ListUsers
  cases h : doJSON .metabase env m w (bytesOf "GET") (bytesOf "/api/user?status=all") none with
  | mk r c v =>
    cases r with
    | error e => rfl
    | ok resp =>
      simp only
      by_cases hs : resp.StatusCode ≠ 200
      · rw [if_pos hs]
      · rw [if_neg hs]
        cases codec.DecodeUsers resp.Body <;> rfl

/-- The Metabase half of the rule: when the lookup fails, `FindOrCreateUser`
stops there.  `ProvisionUser` returns its error, and every call sent is the
GET of the lookup: no user is created. -/
theorem Metabase_lookup_failed (codec : Metabase.Codec) (env : Env) (src : RandomSource)
    (m : ClientOIDC) (w : World) (user : UserData) (e : ClientError)
    (h : (Metabase.FindUserByEmail codec env m w user.Email).result = .error e) :
    (Metabase.ProvisionUser codec env src m w user).result =
      .error (bytesOf "metabase provision failed") ∧
    ∃ new, (Metabase.ProvisionUser codec env src m w user).world.sent = w.sent ++ new ∧
      ∀ s ∈ new, s.isCall = true → s.request.Method = bytesOf "GET" := by
  have hw := Metabase_FindUserByEmail_world codec env m w user.Email
  obtain ⟨new, hnew, hget⟩ := doJSON_calls .metabase env m w (bytesOf "GET")
    (bytesOf "/api/user?status=all") none
  unfold Metabase.ProvisionUser Metabase.FindOrCreateUser
  cases hf : Metabase.FindUserByEmail codec env m w user.Email with
  | mk r c v =>
    rw [hf] at h hw
    simp only at h hw
    subst h
    simp only
    refine ⟨?_, new, ?_, hget⟩
    · first | rfl | trivial
    · rw [hw]; exact hnew

/-- Claim C21 (fails in the NocoDB client): `FindOrCreateUser` of the NocoDB
client drops the error of the lookup and creates the user.  The lookup is
answered 500: `FindUserByEmail` returns `list users failed`, and yet the next
request is the POST that creates the user, and `ProvisionUser` returns the id
of the new user without an error.  The same happens when the lookup does not
get through.  The Metabase client stops at the failed lookup. -/
theorem C21_nocodb_creates_after_failed_lookup :
    (Nocodb.FindUserByEmail exampleNocodbCodec exampleLookupDownEnv exampleClient exampleWorld
      (bytesOf "ann@b.com")).result =
        .error (.requestFailed (bytesOf "list users") (bytesOf "boom")) ∧
    (Nocodb.ProvisionUser exampleNocodbCodec exampleLookupDownEnv exampleRandom exampleClient
      exampleWorld exampleUser).world.sent.map
        (fun s => (s.request.Method, s.request.URL, s.response.map (fun r => r.StatusCode))) =
      [(bytesOf "GET", bytesOf "http://metabase:3000/api/v1/users?query=ann@b.com", some 500),
       (bytesOf "POST", bytesOf "http://metabase:3000/api/v1/users", some 200)] ∧
    (Nocodb.ProvisionUser exampleNocodbCodec exampleLookupDownEnv exampleRandom exampleClient
      exampleWorld exampleUser).result = .ok (bytesOf "u-1") ∧
    (Nocodb.FindUserByEmail exampleNocodbCodec exampleLookupCutEnv exampleClient exampleWorld
      (bytesOf "ann@b.com")).result = .error .transport ∧
    (Nocodb.ProvisionUser exampleNocodbCodec exampleLookupCutEnv exampleRandom exampleClient
      exampleWorld exampleUser).world.sent.map
        (fun s => (s.request.Method, s.response.map (fun r => r.StatusCode))) =
      [(bytesOf "GET", none), (bytesOf "POST", some 200)] ∧
    (Nocodb.ProvisionUser exampleNocodbCodec exampleLookupCutEnv exampleRandom exampleClient
      exampleWorld exampleUser).result = .ok (bytesOf "u-1") ∧
    (Metabase.ProvisionUser exampleMetabaseCodec exampleLookupDownEnv exampleRandom exampleClient
      exampleWorld exampleUser).world.sent.map (fun s => s.request.Method) = [bytesOf "GET"] ∧
    (Metabase.ProvisionUser exampleMetabaseCodec exampleLookupDownEnv exampleRandom exampleClient
      exampleWorld exampleUser).result = .error (bytesOf "metabase provision failed") := by
  decide!

/-! ## The errors of the backends -/

/-- The errors of the Metabase and of the NocoDB backend are fixed messages:
whatever the upstream answers, `ProvisionUser` and `Login` return one of the
texts written in the source. -/
theorem backend_errors_are_fixed (env : Env) (src : RandomSource) (m : ClientOIDC) (w : World)
    (user : UserData) (userID : Bytes) (mc : Metabase.Codec) (nc : Nocodb.Codec) :
    (∀ e, (Metabase.ProvisionUser mc env src m w user).result = .error e →
      e = bytesOf "metabase provision failed") ∧
    (∀ out e, Metabase.Login mc env src m w userID user = some out → out.result = .error e →
      e = bytesOf "metabase login failed") ∧
    (∀ e, (Nocodb.ProvisionUser nc env src m w user).result = .error e →
      e = bytesOf "nocodb provision failed") ∧
    (∀ e, (Nocodb.Login nc env src m w userID user).result = .error e →
      e ∈ [bytesOf "nocodb password reset error", bytesOf "nocodb password set error",
        bytesOf "metabase login failed"]) := by
  refine ⟨?_, ?_, ?_, ?_⟩
  · intro e h
    simp only [Metabase.ProvisionUser] at h
    cases hf : Metabase.FindOrCreateUser mc env m w user.Email user.FirstName user.LastName
        (GenPassword 24 src) with
    | mk r c v =>
      rw [hf] at h
      cases r with
      | error e' => simp only at h; cases h; rfl
      | ok u => simp only at h; cases h
  · intro out e h he
    unfold Metabase.Login at h
    cases ha : Strconv.Atoi userID with
    | none => rw [ha] at h; cases h
    | some id =>
      rw [ha] at h
      simp only at h
      cases hl : LoginUser .metabase env mc.SetCookie
          (Metabase.ResetPassword env m w id (GenPassword 24 src)).client
          (Metabase.ResetPassword env m w id (GenPassword 24 src)).world user.Email
          (GenPassword 24 src) with
      | mk r c v =>
        rw [hl] at h
        cases r with
        | error e' =>
          simp only at h
          cases h
          simp only at he
          cases he
          rfl
        | ok p =>
          obtain ⟨sessionID, setCookies⟩ := p
          simp only at h
          by_cases hs : sessionID = []
          · rw [if_pos hs] at h
            cases h
            simp only at he
            cases he
            rfl
          · rw [if_neg hs] at h
            cases h
            simp only at he
            cases he
  · intro e h
    simp only [Nocodb.ProvisionUser] at h
    cases hf : Nocodb.FindOrCreateUser nc env m w user.Email user.FirstName user.LastName
        (GenPassword 24 src) with
    | mk r c v =>
      rw [hf] at h
      cases r with
      | error e' => simp only at h; cases h; rfl
      | ok u => simp only at h; cases h
  · intro e h
    unfold Nocodb.Login at h
    cases h1 : Nocodb.PasswordGenerateResetUrl nc env m w userID with
    | mk r1 c1 v1 =>
      rw [h1] at h
      cases r1 with
      | error e' => simp only at h; cases h; simp
      | ok token =>
        simp only at h
        cases h2 : Nocodb.PasswordSet env c1 v1 token (GenPassword 24 src) with
        | mk r2 c2 v2 =>
          rw [h2] at h
          cases r2 with
          | error e' => simp only at h; cases h; simp
          | ok u =>
            simp only at h
            cases h3 : LoginUser .nocodb env nc.SetCookie c2 v2 user.Email
                (GenPassword 24 src) with
            | mk r3 c3 v3 =>
              rw [h3] at h
              cases r3 with
              | error e' => simp only at h; cases h; simp
              | ok p =>
                obtain ⟨sessionID, setCookies⟩ := p
                simp only at h
                by_cases hs : sessionID = []
                · rw [if_pos hs] at h
                  cases h
                  simp
                · rw [if_neg hs] at h
                  cases h

/-- Claim C24 (fails in the Plane backend): `PlaneBackend.Login` returns the
errors of `loginUser` as they are, and these carry the answer of the upstream.
Two runs that differ only in the body of the failing CSRF answer return
different errors, each with the body in its text; two runs that differ only in
the text of the error of the transport do the same. -/
theorem C24_plane_relays_upstream_text :
    Plane.Login (examplePlaneEnv (bytesOf "Traceback: db password is hunter2")) exampleRandom
        (bytesOf "http://plane") exampleUser =
      .error (bytesOf "get csrf: status 500: Traceback: db password is hunter2") ∧
    Plane.Login (examplePlaneEnv (bytesOf "Internal Server Error")) exampleRandom
        (bytesOf "http://plane") exampleUser =
      .error (bytesOf "get csrf: status 500: Internal Server Error") ∧
    Plane.Login (examplePlaneEnv (bytesOf "Traceback: db password is hunter2")) exampleRandom
        (bytesOf "http://plane") exampleUser ≠
      Plane.Login (examplePlaneEnv (bytesOf "Internal Server Error")) exampleRandom
        (bytesOf "http://plane") exampleUser ∧
    Plane.Login (examplePlaneCutEnv (bytesOf "dial tcp 10.0.0.7:80: connection refused"))
        exampleRandom (bytesOf "http://plane") exampleUser =
      .error (bytesOf "get csrf: dial tcp 10.0.0.7:80: connection refused") ∧
    Plane.Login (examplePlaneCutEnv (bytesOf "context deadline exceeded"))
        exampleRandom (bytesOf "http://plane") exampleUser =
      .error (bytesOf "get csrf: context deadline exceeded") := by
  decide!

end OidcProxy
